import Mathlib

/-!
# netloc XML export: a verification development

Shallow embedding of `utils/netloc/export/xml/netloc_xml_write.c`.

* The XML backend (`private/utils/xml.h`) is an element tree: every element has a
  name, an optional text body, attributes in insertion order and children in
  insertion order.
* Hash tables (`uthash`) are lists in iteration order, looked up by key; an empty
  table is the NULL head pointer.  Dynamic arrays (`utarray`) are lists.
* Non-owning pointers (`other_link`, `reverse_edge`) are addresses that are
  dereferenced through the environment.
* A run that dies (failed `assert`, NULL dereference) is `none`.
* Memory allocation (`asprintf`, `strdup`) is assumed to succeed.
* Values keep the range of their C type (`int` ports, 64-bit identifiers, degrees
  and costs); the `unsigned int` node counter and the `int` offsets of `insert_arch`
  are reduced modulo 2^32 where the C code computes them.
* The buffer of `insert_arch` is memory addressed by the offset from `strBuff`; stores
  outside the allocated block land in the surrounding memory and are recorded, so
  that staying inside the block can be stated.
-/

namespace Netloc

/-! ## The element tree of the XML backend -/

/-- An element: name, text body, attributes and children, both in insertion order. -/
inductive xml_node where
  | mk (name : String) (content : Option String) (attrs : List (String × String))
      (children : List xml_node)

namespace xml_node

/-- Element name. -/
def name : xml_node → String
  | mk n _ _ _ => n

/-- Text body given at creation. -/
def content : xml_node → Option String
  | mk _ c _ _ => c

/-- Attributes, oldest first. -/
def attrs : xml_node → List (String × String)
  | mk _ _ a _ => a

/-- Children, oldest first. -/
def children : xml_node → List xml_node
  | mk _ _ _ c => c

/-- Value of the first attribute called `key`. -/
def attr (n : xml_node) (key : String) : Option String :=
  (n.attrs.find? (fun kv => kv.1 == key)).map (fun kv => kv.2)

/-- Children whose element name is `nm`, in document order. -/
def children_named (n : xml_node) (nm : String) : List xml_node :=
  n.children.filter (fun c => c.name == nm)

/-- First child whose element name is `nm`. -/
def child (n : xml_node) (nm : String) : Option xml_node :=
  n.children.find? (fun c => c.name == nm)

end xml_node

/-- Model of `xml_node_new(NULL, name)`: a fresh element without body. -/
def xml_node_new (name : String) : xml_node :=
  xml_node.mk name none [] []

/-- The element made by `xml_node_child_new(parent, NULL, name, content)`, before it is
hooked under its parent. -/
def xml_node_new_text (name : String) (content : Option String) : xml_node :=
  xml_node.mk name content [] []

/-- Model of `xml_node_attr_add` and `xml_node_attr_cpy_add`: append one attribute. -/
def xml_node_attr_add (n : xml_node) (key value : String) : xml_node :=
  xml_node.mk n.name n.content (n.attrs ++ [(key, value)]) n.children

/-- Model of `xml_node_child_add`: append `c` as last child of `n`. -/
def xml_node_child_add (n c : xml_node) : xml_node :=
  xml_node.mk n.name n.content n.attrs (n.children ++ [c])

/-- Model of `xml_node_has_child`. -/
def xml_node_has_child (n : xml_node) : Bool :=
  !n.children.isEmpty

/-! ## Data model (`private/utils/netloc.h`) -/

/-- A C `float`, kept as its bit pattern: the writer never computes on it, it only
prints it with `%f`. -/
structure c_float where
  bits : Nat
deriving DecidableEq, Repr

/-- Node kinds. -/
inductive netloc_node_type_t where
  | NETLOC_NODE_TYPE_HOST
  | NETLOC_NODE_TYPE_SWITCH
  | NETLOC_NODE_TYPE_INVALID
deriving DecidableEq, Repr

/-- Fabric kinds, by enumerator value. -/
abbrev netloc_network_type_t := Nat

/-- Return codes of the library. -/
inductive netloc_status where
  | NETLOC_SUCCESS
  | NETLOC_ERROR
deriving DecidableEq, Repr

/-- A physical link; `other_link` is the address of the mirror link, `none` for NULL. -/
structure utils_physical_link_t where
  ports : Int × Int
  speed : String
  width : String
  gbits : c_float
  int_id : Nat
  description : Option String
  other_link : Option Nat
deriving DecidableEq, Repr

/-- An edge; `reverse_edge` is the address of the mirror edge, `none` for NULL;
`partitions` is `none` for a NULL flag array. -/
inductive utils_edge_t where
  | mk (dest : String) (total_gbits : c_float) (physical_link_idx : List Nat)
      (partitions : Option (List Int)) (reverse_edge : Option Nat)
      (subedges : List utils_edge_t)

namespace utils_edge_t

/-- Key of the edge: identifier of the destination node. -/
def dest : utils_edge_t → String
  | mk d _ _ _ _ _ => d

/-- Stored aggregate bandwidth. -/
def total_gbits : utils_edge_t → c_float
  | mk _ g _ _ _ _ => g

/-- Indices into the source node's `physical_links`. -/
def physical_link_idx : utils_edge_t → List Nat
  | mk _ _ l _ _ _ => l

/-- Partition flag array. -/
def partitions : utils_edge_t → Option (List Int)
  | mk _ _ _ p _ _ => p

/-- Address of the mirror edge. -/
def reverse_edge : utils_edge_t → Option Nat
  | mk _ _ _ _ r _ => r

/-- Aggregated edges. -/
def subedges : utils_edge_t → List utils_edge_t
  | mk _ _ _ _ _ s => s

end utils_edge_t

/-- A node; `subnodes` is the table of aggregated nodes, empty for a NULL head. -/
inductive utils_node_t where
  | mk (physical_id : String) (hostname : Option String) (type : netloc_node_type_t)
      (description : Option String) (partitions : Option (List Int))
      (edges : List utils_edge_t) (physical_links : List utils_physical_link_t)
      (subnodes : List utils_node_t)

namespace utils_node_t

/-- Key of the node. -/
def physical_id : utils_node_t → String
  | mk i _ _ _ _ _ _ _ => i

/-- Host name, `none` for NULL. -/
def hostname : utils_node_t → Option String
  | mk _ h _ _ _ _ _ _ => h

/-- Node kind. -/
def type : utils_node_t → netloc_node_type_t
  | mk _ _ t _ _ _ _ _ => t

/-- Free text, `none` for NULL. -/
def description : utils_node_t → Option String
  | mk _ _ _ d _ _ _ _ => d

/-- Partition flag array, `none` for NULL. -/
def partitions : utils_node_t → Option (List Int)
  | mk _ _ _ _ p _ _ _ => p

/-- Outgoing edges in table order. -/
def edges : utils_node_t → List utils_edge_t
  | mk _ _ _ _ _ e _ _ => e

/-- Physical links, index-addressable. -/
def physical_links : utils_node_t → List utils_physical_link_t
  | mk _ _ _ _ _ _ l _ => l

/-- Aggregated nodes in table order. -/
def subnodes : utils_node_t → List utils_node_t
  | mk _ _ _ _ _ _ _ s => s

end utils_node_t

/-- Tree architecture: level count and the two per-level arrays. -/
structure netloc_arch_tree_t where
  num_levels : Int
  degrees : List Int
  costs : List Int
deriving DecidableEq, Repr

/-- Architecture of a partition (only the tree variant is written). -/
structure netloc_arch_t where
  node_tree : netloc_arch_tree_t
deriving DecidableEq, Repr

/-- A declared partition. -/
structure utils_partition_t where
  name : String
  arch : Option netloc_arch_t
deriving DecidableEq, Repr

/-- Everything the translation unit takes from outside: libc float printing, the
encoders and the two virtual-ness tests declared in headers that are not part of the
sources at hand, the file system, the document writer, typed memory behind the two
non-owning pointers, the bytes found in a fresh `malloc` block, and the expansion
of `NETLOC_STR_VERS(NETLOCFILE_VERSION_2_0)`. -/
structure env where
  fmt_f : c_float → String
  netloc_node_type_encode : netloc_node_type_t → String
  netloc_network_type_encode : netloc_network_type_t → String
  edge_is_virtual : utils_edge_t → Bool
  node_is_virtual : utils_node_t → Bool
  fopen_r : String → Bool
  opendir : String → Bool
  xml_doc_write : String → xml_node → Bool
  netlocfile_version : String
  link_at : Nat → utils_physical_link_t
  edge_at : Nat → utils_edge_t
  malloc_bytes : Int → Char

/-! ## Formatting -/

/-- Conversion `%d`. -/
def fmt_d (i : Int) : String := toString i

/-- Conversion `%u` of an `unsigned int`. -/
def fmt_u (n : Nat) : String := toString (n % 2 ^ 32)

/-- Conversion `%llu`. -/
def fmt_llu (n : Nat) : String := toString n

/-- Conversion `%PRId64`. -/
def fmt_PRId64 (i : Int) : String := toString i

/-! ## Partition membership tests -/

/-- Read of `partitions[p]` as a truth value. -/
def flag_at (flags : List Int) (p : Nat) : Bool :=
  flags.getD p 0 != 0

/-- The loop shared by `node_belongs_to_a_partition` and
`edge_belongs_to_a_partition`, started at index `p` with `fuel = nparts - p`. -/
def belongs_loop (flags : Option (List Int)) : Nat → Nat → Bool
  | 0, _ => false
  | fuel + 1, p =>
    match flags with
    | none => false
    | some fl => if flag_at fl p then true else belongs_loop flags fuel (p + 1)

/-- Model of `node_belongs_to_a_partition`. -/
def node_belongs_to_a_partition (node : utils_node_t) (nparts : Nat) : Bool :=
  belongs_loop node.partitions nparts 0

/-- Model of `edge_belongs_to_a_partition`. -/
def edge_belongs_to_a_partition (edge : utils_edge_t) (nparts : Nat) : Bool :=
  belongs_loop edge.partitions nparts 0

/-! ## Links and edges -/

/-- The `link` element `crt_node` that `insert_xml_link` creates and fills. -/
def link_elem (ev : env) (link : utils_physical_link_t) : xml_node :=
  let crt_node := xml_node_new_text "link" link.description
  let crt_node := xml_node_attr_add crt_node "srcport" (fmt_d link.ports.1)
  let crt_node := xml_node_attr_add crt_node "destport" (fmt_d link.ports.2)
  let crt_node := xml_node_attr_add crt_node "speed" link.speed
  let crt_node := xml_node_attr_add crt_node "width" link.width
  let crt_node := xml_node_attr_add crt_node "bandwidth" (ev.fmt_f link.gbits)
  let crt_node := xml_node_attr_add crt_node "logical_id" (fmt_llu link.int_id)
  match link.other_link with
  | some p =>
    xml_node_attr_add crt_node "reverse_logical_id" (fmt_llu (ev.link_at p).int_id)
  | none => crt_node

/-- Model of `insert_xml_link`: hooks one `link` element under `links_node`. -/
def insert_xml_link (ev : env) (links_node : xml_node) (link : utils_physical_link_t) :
    xml_node :=
  xml_node_child_add links_node (link_elem ev link)

/-- The loop over `physical_link_idx` in `insert_xml_edge`; an index outside the
node's `physical_links` yields a NULL element pointer, whose use kills the run. -/
def insert_links (ev : env) (node : utils_node_t) : List Nat → xml_node → Option xml_node
  | [], links_node => some links_node
  | link_idx :: rest, links_node =>
    match node.physical_links[link_idx]? with
    | none => none
    | some link => insert_links ev node rest (insert_xml_link ev links_node link)

/-- Model of `HASH_FIND_STR` on a node table. -/
def HASH_FIND_STR (table : List utils_node_t) (key : String) : Option utils_node_t :=
  table.find? (fun n => n.physical_id == key)

/-- The lookup of `real_node` for one subedge in `insert_xml_edge`: the key is
`subedge->reverse_edge->dest`, the table is the subnode table of a virtual `node` and
the top-level table otherwise.  `none` when `reverse_edge` is NULL or the key is not
found (the `assert` fails). -/
def subedge_real_node (ev : env) (node : utils_node_t) (nodes : List utils_node_t)
    (subedge : utils_edge_t) : Option utils_node_t :=
  match subedge.reverse_edge with
  | none => none
  | some r =>
    if ev.node_is_virtual node then HASH_FIND_STR node.subnodes (ev.edge_at r).dest
    else HASH_FIND_STR nodes (ev.edge_at r).dest

mutual
/-- Model of `insert_xml_edge`: fills the `connexion` element `con_node`. -/
def insert_xml_edge (ev : env) (con_node : xml_node) (edge : utils_edge_t)
    (node : utils_node_t) (nodes : List utils_node_t) : Option xml_node :=
  match edge with
  | .mk dest total_gbits physical_link_idx partitions reverse_edge subedges =>
    let con_node := xml_node_attr_add con_node "bandwidth" (ev.fmt_f total_gbits)
    let num_links := physical_link_idx.length
    let con_node := xml_node_attr_add con_node "nblinks" (fmt_u num_links)
    let con_node :=
      xml_node_child_add con_node (xml_node_new_text "src" (some node.physical_id))
    let con_node := xml_node_child_add con_node (xml_node_new_text "dest" (some dest))
    if ev.edge_is_virtual
        (.mk dest total_gbits physical_link_idx partitions reverse_edge subedges) then
      let con_node := xml_node_attr_add con_node "virtual" "yes"
      let subcons_node := xml_node_new "subconnexions"
      let num_subedges := subedges.length
      let subcons_node := xml_node_attr_add subcons_node "size" (fmt_u num_subedges)
      match insert_subedges ev subedges node nodes subcons_node with
      | none => none
      | some subcons_node => some (xml_node_child_add con_node subcons_node)
    else
      match insert_links ev node physical_link_idx (xml_node_new "links") with
      | none => none
      | some links_node => some (xml_node_child_add con_node links_node)
/-- The loop over `subedges` in `insert_xml_edge`. -/
def insert_subedges (ev : env) (subedges : List utils_edge_t) (node : utils_node_t)
    (nodes : List utils_node_t) (subcons_node : xml_node) : Option xml_node :=
  match subedges with
  | [] => some subcons_node
  | subedge :: rest =>
    match subedge_real_node ev node nodes subedge with
    | none => none
    | some real_node =>
      match insert_xml_edge ev (xml_node_new "connexion") subedge real_node nodes with
      | none => none
      | some subcon_node =>
        insert_subedges ev rest node nodes (xml_node_child_add subcons_node subcon_node)
end

/-! ## Nodes -/

/-- The string `1 + strrchr(s, '/')`: what follows the last slash. -/
def after_last_slash (s : String) : String :=
  String.mk ((s.data.reverse.takeWhile (fun c => c != '/')).reverse)

/-- Effect of `strcpy(&strBuff[pos], src)` on the string held in `strBuff`. -/
def strcpy_at (strBuff : String) (pos : Nat) (src : String) : String :=
  String.mk (strBuff.data.take pos) ++ src

/-- Model of `insert_xml_node`: fills the `node` element `crt_node`. -/
def insert_xml_node (ev : env) (crt_node : xml_node) (node : utils_node_t)
    (hwloc_path : Option String) : xml_node :=
  let crt_node :=
    if 0 < node.physical_id.length then
      xml_node_attr_add crt_node "mac_addr" node.physical_id
    else crt_node
  let crt_node := xml_node_attr_add crt_node "type" (ev.netloc_node_type_encode node.type)
  let crt_node :=
    match node.hostname with
    | some hostname =>
      if 0 < hostname.length then
        let crt_node := xml_node_attr_add crt_node "name" hostname
        match hwloc_path with
        | some hwloc_path =>
          if netloc_node_type_t.NETLOC_NODE_TYPE_HOST = node.type then
            let strBuff := hwloc_path ++ "/" ++ hostname ++ ".diff.xml"
            let strBuffSize := strBuff.length
            let probe : String × Nat :=
              if !ev.fopen_r strBuff then
                let strBuffSize := strBuffSize - 8
                let strBuff := strcpy_at strBuff strBuffSize "xml"
                if !ev.fopen_r strBuff then (strBuff, 0) else (strBuff, strBuffSize)
              else (strBuff, strBuffSize)
            if 0 < probe.2 then
              xml_node_attr_add crt_node "hwloc_file" (after_last_slash probe.1)
            else crt_node
          else crt_node
        | none => crt_node
      else crt_node
    | none => crt_node
  match node.description with
  | some description =>
    if 0 < description.length then
      xml_node_child_add crt_node (xml_node_new_text "description" (some description))
    else crt_node
  | none => crt_node

/-- The block `if (node->subnodes)` that follows `insert_xml_node` both in
`insert_extra` and in `netloc_write_xml_file`: marks the element as virtual and
lists the subnodes. -/
def insert_subnodes (ev : env) (crt_node : xml_node) (node : utils_node_t)
    (full_hwloc_path : Option String) : xml_node :=
  if !node.subnodes.isEmpty then
    let crt_node := xml_node_attr_add crt_node "virtual" "yes"
    let crt_node := xml_node_attr_add crt_node "size" (fmt_u node.subnodes.length)
    let subnodes_node :=
      node.subnodes.foldl
        (fun subnodes_node subnode =>
          xml_node_child_add subnodes_node
            (insert_xml_node ev (xml_node_new "node") subnode full_hwloc_path))
        (xml_node_new "subnodes")
    xml_node_child_add crt_node subnodes_node
  else crt_node

/-- The `node` element of a top-level node: `insert_xml_node` followed by the
virtual block. -/
def top_node_elem (ev : env) (full_hwloc_path : Option String) (node : utils_node_t) :
    xml_node :=
  insert_subnodes ev (insert_xml_node ev (xml_node_new "node") node full_hwloc_path)
    node full_hwloc_path

/-! ## The residual partition -/

/-- Local variables carried through the loops over the node table. -/
structure explicit_acc where
  part_size : Nat
  nodes_node : xml_node
  cons_node : xml_node

/-- The loop over `node->edges` in `insert_extra`. -/
def extra_edges (ev : env) (len_partitions : Nat) (node : utils_node_t)
    (nodes : List utils_node_t) : List utils_edge_t → xml_node → Option xml_node
  | [], cons_node => some cons_node
  | edge :: rest, cons_node =>
    if edge_belongs_to_a_partition edge len_partitions then
      extra_edges ev len_partitions node nodes rest cons_node
    else
      match insert_xml_edge ev (xml_node_new "connexion") edge node nodes with
      | none => none
      | some crt_node =>
        extra_edges ev len_partitions node nodes rest (xml_node_child_add cons_node crt_node)

/-- The loop over the node table in `insert_extra`. -/
def extra_nodes (ev : env) (full_hwloc_path : Option String) (len_partitions : Nat)
    (nodes : List utils_node_t) : List utils_node_t → explicit_acc → Option explicit_acc
  | [], acc => some acc
  | node :: rest, acc =>
    let acc :=
      if !node_belongs_to_a_partition node len_partitions then
        { acc with
          part_size := (acc.part_size + 1) % 2 ^ 32
          nodes_node :=
            xml_node_child_add acc.nodes_node (top_node_elem ev full_hwloc_path node) }
      else acc
    match extra_edges ev len_partitions node nodes node.edges acc.cons_node with
    | none => none
    | some cons_node =>
      extra_nodes ev full_hwloc_path len_partitions nodes rest
        { acc with cons_node := cons_node }

/-- Assembly of a `partition` element from its parts, in the order the children are
created: `explicit` holds `nodes` then `connexions`. -/
def explicit_elem (size : Option String) (acc : explicit_acc) : xml_node :=
  let explicit_node := xml_node_new "explicit"
  let explicit_node := xml_node_child_add explicit_node acc.nodes_node
  let explicit_node := xml_node_child_add explicit_node acc.cons_node
  match size with
  | some s => xml_node_attr_add explicit_node "size" s
  | none => explicit_node

/-- The `partition` element that `insert_extra` builds before deciding whether to
keep it; the `size` attribute is present as on the kept element. -/
def extra_part_node (acc : explicit_acc) : xml_node :=
  let part_node := xml_node_new "partition"
  let part_node := xml_node_child_add part_node (explicit_elem (some (fmt_u acc.part_size)) acc)
  xml_node_attr_add part_node "name" "/extra+structural/"

/-- Model of `insert_extra`: the network element after the call (the C function
always returns `NETLOC_SUCCESS`). -/
def insert_extra (ev : env) (network_node : xml_node) (full_hwloc_path : Option String)
    (len_partitions : Nat) (nodes : List utils_node_t) : Option xml_node :=
  match extra_nodes ev full_hwloc_path len_partitions nodes nodes
      { part_size := 0, nodes_node := xml_node_new "nodes",
        cons_node := xml_node_new "connexions" } with
  | none => none
  | some acc =>
    if !xml_node_has_child acc.nodes_node && !xml_node_has_child acc.cons_node then
      some network_node
    else
      some (xml_node_child_add network_node (extra_part_node acc))

/-! ## The architecture descriptor -/

/-- Conversion of a 64-bit product to `int`: reduction modulo 2^32 into the signed
range. -/
def wrap_int32 (x : Int) : Int :=
  (x + 2 ^ 31) % 2 ^ 32 - 2 ^ 31

/-- The terminating byte of a C string. -/
def NUL : Char := Char.ofNat 0

/-- Memory around `strBuff`, addressed by the offset from `strBuff`. -/
abbrev c_mem := Int → Char

/-- Store of the bytes `s` at offset `p`. -/
def mem_write (mem : c_mem) (p : Int) (s : List Char) : c_mem :=
  fun a => if p ≤ a ∧ a < p + s.length then s.getD (a - p).toNat NUL else mem a

/-- The C string that starts at offset `p`, when a terminator is met within `fuel`
bytes. -/
def read_cstr (mem : c_mem) (p : Int) : Nat → Option (List Char)
  | 0 => none
  | fuel + 1 =>
    if mem p = NUL then some []
    else (read_cstr mem (p + 1) fuel).map (fun s => mem p :: s)

/-- Result of `snprintf(NULL, 0, " %" PRId64, v)`. -/
def snprintf_len (v : Int) : Int :=
  ((" " ++ fmt_PRId64 v).length : Int)

/-- The bytes `sprintf(dst, "%" PRId64 " ", v)` stores before the terminator. -/
def sprintf_text (v : Int) : List Char :=
  (fmt_PRId64 v ++ " ").data

/-- Local variables of the first loop of `insert_arch`. -/
structure arch_max where
  max_degree : Int
  max_cost : Int
deriving DecidableEq, Repr

/-- The loop `for (level = 1; level < nlevels; ++level)` of `insert_arch`. -/
def arch_max_loop (tree : netloc_arch_tree_t) : arch_max :=
  (List.range' 1 (tree.num_levels.toNat - 1)).foldl
    (fun m level =>
      let m :=
        if tree.degrees.getD level 0 > m.max_degree then
          { m with max_degree := tree.degrees.getD level 0 }
        else m
      if tree.costs.getD level 0 > m.max_cost then
        { m with max_cost := tree.costs.getD level 0 }
      else m)
    { max_degree := tree.degrees.getD 0 0, max_cost := tree.costs.getD 0 0 }

/-- The variable `max_degree_list`. -/
def max_degree_list (tree : netloc_arch_tree_t) : Int :=
  wrap_int32 ((arch_max_loop tree).max_degree * snprintf_len (arch_max_loop tree).max_degree)

/-- The variable `max_cost_list`. -/
def max_cost_list (tree : netloc_arch_tree_t) : Int :=
  wrap_int32 ((arch_max_loop tree).max_cost * snprintf_len (arch_max_loop tree).max_cost)

/-- The size handed to `malloc`. -/
def arch_alloc_size (tree : netloc_arch_tree_t) : Int :=
  wrap_int32 (wrap_int32 (max_degree_list tree + max_cost_list tree) + 1)

/-- Local variables of the second loop of `insert_arch`, with the list of stores
performed so far (offset and byte count, newest first). -/
structure arch_buf where
  mem : c_mem
  strBuffSize : Int
  strBuffSize2 : Int
  stores : List (Int × Nat)

/-- One round of the second loop of `insert_arch`. -/
def arch_fill_step (tree : netloc_arch_tree_t) (b : arch_buf) (level : Nat) : arch_buf :=
  let d := sprintf_text (tree.degrees.getD level 0)
  let mem := mem_write b.mem b.strBuffSize (d ++ [NUL])
  let stores := (b.strBuffSize, d.length + 1) :: b.stores
  let strBuffSize := wrap_int32 (b.strBuffSize + d.length)
  let c := sprintf_text (tree.costs.getD level 0)
  let dst := max_degree_list tree + b.strBuffSize2 + 1
  let mem := mem_write mem dst (c ++ [NUL])
  let stores := (dst, c.length + 1) :: stores
  let strBuffSize2 := wrap_int32 (b.strBuffSize2 + c.length)
  { mem := mem, strBuffSize := strBuffSize, strBuffSize2 := strBuffSize2, stores := stores }

/-- The second loop of `insert_arch` followed by the two terminator stores. -/
def arch_fill (ev : env) (tree : netloc_arch_tree_t) : arch_buf :=
  let b :=
    (List.range tree.num_levels.toNat).foldl (arch_fill_step tree)
      { mem := ev.malloc_bytes, strBuffSize := 0, strBuffSize2 := 0, stores := [] }
  let mem := mem_write b.mem (b.strBuffSize - 1) [NUL]
  let stores := (b.strBuffSize - 1, 1) :: b.stores
  let mem := mem_write mem (wrap_int32 (max_degree_list tree + b.strBuffSize2)) [NUL]
  let stores := (wrap_int32 (max_degree_list tree + b.strBuffSize2), 1) :: stores
  { b with mem := mem, stores := stores }

/-- Model of `insert_arch`: hooks `topology/topo` under `partition_node`.  The two
attribute values are the C strings found at `strBuff` and at
`strBuff + max_degree_list + 1`; the run is `none` when no terminator was stored
at or after the start of one of them. -/
def insert_arch (ev : env) (partition_node : xml_node) (arch : netloc_arch_t) :
    Option xml_node :=
  let tree := arch.node_tree
  let topo_node := xml_node_new "topo"
  let topo_node := xml_node_attr_add topo_node "type" "tree"
  let nlevels := tree.num_levels
  let topo_node := xml_node_attr_add topo_node "ndims" (fmt_PRId64 (nlevels + 1))
  let b := arch_fill ev tree
  match read_cstr b.mem 0 b.strBuffSize.toNat,
      read_cstr b.mem (max_degree_list tree + 1) b.strBuffSize2.toNat with
  | some dims, some costs =>
    let topo_node := xml_node_attr_add topo_node "dims" (String.mk dims)
    let topo_node := xml_node_attr_add topo_node "costs" (String.mk costs)
    let topology_node := xml_node_child_add (xml_node_new "topology") topo_node
    some (xml_node_child_add partition_node topology_node)
  | _, _ => none

/-! ## The document -/

/-- The loop over `node->edges` in the partition loop of `netloc_write_xml_file`. -/
def part_edges (ev : env) (p : Nat) (node : utils_node_t) (nodes : List utils_node_t) :
    List utils_edge_t → xml_node → Option xml_node
  | [], cons_node => some cons_node
  | edge :: rest, cons_node =>
    match edge.partitions with
    | none => part_edges ev p node nodes rest cons_node
    | some flags =>
      if !flag_at flags p then part_edges ev p node nodes rest cons_node
      else
        match insert_xml_edge ev (xml_node_new "connexion") edge node nodes with
        | none => none
        | some crt_node =>
          part_edges ev p node nodes rest (xml_node_child_add cons_node crt_node)

/-- The loop over the node table in the partition loop of `netloc_write_xml_file`. -/
def part_nodes (ev : env) (full_hwloc_path : Option String) (p : Nat)
    (nodes : List utils_node_t) : List utils_node_t → explicit_acc → Option explicit_acc
  | [], acc => some acc
  | node :: rest, acc =>
    match node.partitions with
    | none => part_nodes ev full_hwloc_path p nodes rest acc
    | some flags =>
      if !flag_at flags p then part_nodes ev full_hwloc_path p nodes rest acc
      else
        let acc :=
          { acc with
            part_size := (acc.part_size + 1) % 2 ^ 32
            nodes_node :=
              xml_node_child_add acc.nodes_node (top_node_elem ev full_hwloc_path node) }
        match part_edges ev p node nodes node.edges acc.cons_node with
        | none => none
        | some cons_node =>
          part_nodes ev full_hwloc_path p nodes rest { acc with cons_node := cons_node }

/-- First part of one round of the partition loop: the `partition` element with
its `name` and its architecture, before `explicit` is added. -/
def partition_head (ev : env) (partition : utils_partition_t) : Option xml_node :=
  let part_node := xml_node_new "partition"
  let part_node :=
    if 0 < partition.name.length then xml_node_attr_add part_node "name" partition.name
    else part_node
  match partition.arch with
  | some arch => insert_arch ev part_node arch
  | none => some part_node

/-- One round of the partition loop: the `partition` element of declared partition
number `p`. -/
def partition_elem (ev : env) (full_hwloc_path : Option String)
    (nodes : List utils_node_t) (p : Nat) (partition : utils_partition_t) :
    Option xml_node :=
  match partition_head ev partition with
  | none => none
  | some part_node =>
    match part_nodes ev full_hwloc_path p nodes nodes
        { part_size := 0, nodes_node := xml_node_new "nodes",
          cons_node := xml_node_new "connexions" } with
    | none => none
    | some acc =>
      some (xml_node_child_add part_node (explicit_elem (some (fmt_u acc.part_size)) acc))

/-- The partition loop of `netloc_write_xml_file`, from partition number `p` on. -/
def write_partitions (ev : env) (full_hwloc_path : Option String)
    (nodes : List utils_node_t) : List utils_partition_t → Nat → xml_node → Option xml_node
  | [], _, network_node => some network_node
  | partition :: rest, p, network_node =>
    match partition_elem ev full_hwloc_path nodes p partition with
    | none => none
    | some part_node =>
      write_partitions ev full_hwloc_path nodes rest (p + 1)
        (xml_node_child_add network_node part_node)

/-- What `%s` prints for a string argument (glibc prints `(null)` for NULL). -/
def fmt_s (s : Option String) : String :=
  s.getD "(null)"

/-- The variable `full_hwloc_path`. -/
def full_hwloc_path (path : String) (hwlocpath : Option String) : Option String :=
  match hwlocpath with
  | some h =>
    if 0 < h.length then
      if h.data.head? ≠ some '/' then some (path ++ "/" ++ h) else some h
    else none
  | none => none

/-- The variable `output_path`. -/
def output_path (path : String) (subnet : Option String) : String :=
  path ++ "/IB-" ++ fmt_s subnet ++ "-nodes.xml"

/-- The root element as it stands when the network element is created: `machine`
with its version and, when the resolved directory can be opened, the `hwloc_path`
child. -/
def document_root (ev : env) (path : String) (hwlocpath : Option String) : xml_node :=
  let root_node := xml_node_new "machine"
  let root_node := xml_node_attr_add root_node "version" ev.netlocfile_version
  match full_hwloc_path path hwlocpath with
  | some f =>
    if 0 < f.length && ev.opendir f then
      xml_node_child_add root_node (xml_node_new_text "hwloc_path" hwlocpath)
    else root_node
  | none => root_node

/-- The network element as it stands when the partition loop starts: `network` with
its transport and, for a non-empty subnet, the `subnet` child. -/
def network_head (ev : env) (subnet : Option String)
    (transportType : netloc_network_type_t) : xml_node :=
  let network_node := xml_node_new "network"
  let network_node :=
    xml_node_attr_add network_node "transport" (ev.netloc_network_type_encode transportType)
  match subnet with
  | some s =>
    if 0 < s.length then
      xml_node_child_add network_node (xml_node_new_text "subnet" (some s))
    else network_node
  | none => network_node

/-- The element tree built by `netloc_write_xml_file` before it is written. -/
def build_document (ev : env) (nodes : List utils_node_t)
    (partitions : List utils_partition_t) (subnet : Option String) (path : String)
    (hwlocpath : Option String) (transportType : netloc_network_type_t) :
    Option xml_node :=
  let root_node := document_root ev path hwlocpath
  let network_node := network_head ev subnet transportType
  match write_partitions ev (full_hwloc_path path hwlocpath) nodes partitions 0
      network_node with
  | none => none
  | some network_node =>
    match insert_extra ev network_node (full_hwloc_path path hwlocpath) partitions.length
        nodes with
    | none => none
    | some network_node => some (xml_node_child_add root_node network_node)

/-- What a completed call of `netloc_write_xml_file` leaves behind. -/
structure write_result where
  ret : netloc_status
  doc : xml_node
  written_to : String

/-- Model of `netloc_write_xml_file`. -/
def netloc_write_xml_file (ev : env) (nodes : List utils_node_t)
    (partitions : List utils_partition_t) (subnet : Option String) (path : String)
    (hwlocpath : Option String) (transportType : netloc_network_type_t) :
    Option write_result :=
  match build_document ev nodes partitions subnet path hwlocpath transportType with
  | none => none
  | some doc =>
    let ret :=
      if ev.xml_doc_write (output_path path subnet) doc then netloc_status.NETLOC_SUCCESS
      else netloc_status.NETLOC_ERROR
    some { ret := ret, doc := doc, written_to := output_path path subnet }

/-! ## Vocabulary of the specification -/

/-- Flag `p` of a flag vector is set; an absent vector has no flag set. -/
def spec_flag (flags : Option (List Int)) (p : Nat) : Bool :=
  match flags with
  | none => false
  | some fl => flag_at fl p

/-- The flag vector is all false over the `N` declared partitions, or absent. -/
def spec_unflagged (flags : Option (List Int)) (N : Nat) : Bool :=
  (List.range N).all (fun p => !spec_flag flags p)

/-- The top-level nodes of `members(p)`. -/
def spec_member_nodes (nodes : List utils_node_t) (p : Nat) : List utils_node_t :=
  nodes.filter (fun n => spec_flag n.partitions p)

/-- The top-level nodes of `residual()`. -/
def spec_residual_nodes (nodes : List utils_node_t) (N : Nat) : List utils_node_t :=
  nodes.filter (fun n => spec_unflagged n.partitions N)

/-- The edges of `members(p)`: every edge of any top-level node whose flag `p` is set,
paired with its source node, whatever the flags of that node. -/
def spec_member_edges (nodes : List utils_node_t) (p : Nat) :
    List (utils_node_t × utils_edge_t) :=
  nodes.flatMap (fun n => (n.edges.filter (fun e => spec_flag e.partitions p)).map (fun e => (n, e)))

/-- The edges with flag `p` whose source node has flag `p` as well. -/
def spec_inner_member_edges (nodes : List utils_node_t) (p : Nat) :
    List (utils_node_t × utils_edge_t) :=
  (spec_member_nodes nodes p).flatMap
    (fun n => (n.edges.filter (fun e => spec_flag e.partitions p)).map (fun e => (n, e)))

/-- The edges of `residual()`: every edge of any top-level node whose flag vector is
all false or absent, paired with its source node, whatever the flags of that node. -/
def spec_residual_edges (nodes : List utils_node_t) (N : Nat) :
    List (utils_node_t × utils_edge_t) :=
  nodes.flatMap
    (fun n => (n.edges.filter (fun e => spec_unflagged e.partitions N)).map (fun e => (n, e)))

/-- The element `c` is the `connexion` written for edge `ne.2` of node `ne.1`. -/
def connexion_of (ev : env) (nodes : List utils_node_t)
    (ne : utils_node_t × utils_edge_t) (c : xml_node) : Prop :=
  insert_xml_edge ev (xml_node_new "connexion") ne.2 ne.1 nodes = some c

/-- The element `c` is the nested `connexion` written for `subedge` of an edge of
`node`: its owner is looked up, then the subedge is rendered from that owner. -/
def subconnexion_of (ev : env) (node : utils_node_t) (nodes : List utils_node_t)
    (subedge : utils_edge_t) (c : xml_node) : Prop :=
  ∃ real_node, subedge_real_node ev node nodes subedge = some real_node ∧
    insert_xml_edge ev (xml_node_new "connexion") subedge real_node nodes = some c

/-- The element `n` with the elements `cs` hooked after its children. -/
def append_children (n : xml_node) (cs : List xml_node) : xml_node :=
  xml_node.mk n.name n.content n.attrs (n.children ++ cs)

/-- The element `n` with the attributes `kvs` added after its attributes. -/
def append_attrs (n : xml_node) (kvs : List (String × String)) : xml_node :=
  xml_node.mk n.name n.content (n.attrs ++ kvs) n.children

/-- The `partition` elements of a document, in document order. -/
def doc_partitions (doc : xml_node) : List xml_node :=
  match doc.child "network" with
  | some network => network.children_named "partition"
  | none => []

/-- The elements directly under `explicit/nodes` of a `partition` element. -/
def explicit_nodes (part : xml_node) : List xml_node :=
  match (part.child "explicit").bind (fun e => e.child "nodes") with
  | some n => n.children
  | none => []

/-- The elements directly under `explicit/connexions` of a `partition` element. -/
def explicit_cons (part : xml_node) : List xml_node :=
  match (part.child "explicit").bind (fun e => e.child "connexions") with
  | some n => n.children
  | none => []

/-- The `size` attribute of the `explicit` child of a `partition` element. -/
def explicit_size (part : xml_node) : Option String :=
  (part.child "explicit").bind (fun e => e.attr "size")

/-- The `explicit` element with the given size text, node elements and connexion
elements. -/
def explicit_of (size : String) (ns cs : List xml_node) : xml_node :=
  xml_node.mk "explicit" none [("size", size)]
    [xml_node.mk "nodes" none [] ns, xml_node.mk "connexions" none [] cs]

/-- The `/extra+structural/` element that lists the residual nodes and the
connexion elements `cs`. -/
def extra_elem_of (ev : env) (full_hwloc_path : Option String) (N : Nat)
    (nodes : List utils_node_t) (cs : List xml_node) : xml_node :=
  xml_node.mk "partition" none [("name", "/extra+structural/")]
    [explicit_of (fmt_u (spec_residual_nodes nodes N).length)
      ((spec_residual_nodes nodes N).map (top_node_elem ev full_hwloc_path)) cs]

/-- The `explicit` element of declared partition `p` with connexion elements `cs`. -/
def member_explicit_of (ev : env) (full_hwloc_path : Option String) (p : Nat)
    (nodes : List utils_node_t) (cs : List xml_node) : xml_node :=
  explicit_of (fmt_u (spec_member_nodes nodes p).length)
    ((spec_member_nodes nodes p).map (top_node_elem ev full_hwloc_path)) cs

/-- The element `el` is the `partition` written for declared partition `iq.2`, which
is number `iq.1`. -/
def partition_of (ev : env) (full_hwloc_path : Option String) (nodes : List utils_node_t)
    (iq : Nat × utils_partition_t) (el : xml_node) : Prop :=
  partition_elem ev full_hwloc_path nodes iq.1 iq.2 = some el

/-- The `partition` elements at the end of the network element: nothing when there
is neither a residual node nor a residual connexion, the `/extra+structural/`
element otherwise. -/
def extra_list_of (ev : env) (full_hwloc_path : Option String) (N : Nat)
    (nodes : List utils_node_t) (cs : List xml_node) : List xml_node :=
  if (spec_residual_nodes nodes N).isEmpty && cs.isEmpty then []
  else [extra_elem_of ev full_hwloc_path N nodes cs]

/-- The document whose declared partitions are `els` and whose residual connexions
are `cs`. -/
def document_of (ev : env) (nodes : List utils_node_t)
    (partitions : List utils_partition_t) (subnet : Option String) (path : String)
    (hwlocpath : Option String) (transportType : netloc_network_type_t)
    (els cs : List xml_node) : xml_node :=
  append_children (document_root ev path hwlocpath)
    [append_children (network_head ev subnet transportType)
      (els ++ extra_list_of ev (full_hwloc_path path hwlocpath) partitions.length nodes cs)]

/-- The decimal representations of `xs` separated by single spaces, without a space
at either end. -/
def space_separated : List Int → List Char
  | [] => []
  | [x] => (fmt_PRId64 x).data
  | x :: y :: rest => (fmt_PRId64 x).data ++ ' ' :: space_separated (y :: rest)

/-- Number of bytes of the values `xs` printed with one space after each. -/
def list_text_length (xs : List Int) : Nat :=
  (xs.flatMap sprintf_text).length

/-- The bytes of `s` are found in `mem` from offset `p` on. -/
def mem_holds (mem : c_mem) (p : Int) (s : List Char) : Prop :=
  ∀ (i : Nat) (c : Char), s[i]? = some c → mem (p + i) = c

/-- What the second loop of `insert_arch` has printed for the degrees after `k`
rounds. -/
def dims_bytes (tree : netloc_arch_tree_t) (k : Nat) : List Char :=
  (List.range k).flatMap (fun level => sprintf_text (tree.degrees.getD level 0))

/-- What the second loop of `insert_arch` has printed for the costs after `k`
rounds. -/
def costs_bytes (tree : netloc_arch_tree_t) (k : Nat) : List Char :=
  (List.range k).flatMap (fun level => sprintf_text (tree.costs.getD level 0))

/-- The `topology` element for a tree whose two lists are written in full. -/
def topology_of (tree : netloc_arch_tree_t) : xml_node :=
  xml_node.mk "topology" none []
    [xml_node.mk "topo" none
      [("type", "tree"), ("ndims", fmt_PRId64 (tree.num_levels + 1)),
        ("dims", String.mk (space_separated tree.degrees)),
        ("costs", String.mk (space_separated tree.costs))] []]

/-- The attributes `ndims`, `dims` and `costs` of the `topo` element that
`insert_arch` hooks under a fresh `partition` element. -/
def topo_attrs (ev : env) (tree : netloc_arch_tree_t) :
    Option (Option String × Option String × Option String) :=
  match insert_arch ev (xml_node_new "partition") { node_tree := tree } with
  | none => none
  | some r =>
    match (r.child "topology").bind (fun t => t.child "topo") with
    | none => none
    | some topo => some (topo.attr "ndims", topo.attr "dims", topo.attr "costs")

/-- Every store of the second loop and of the two terminator stores lies inside the
block of `arch_alloc_size` bytes. -/
def stores_in_block (ev : env) (tree : netloc_arch_tree_t) : Bool :=
  (arch_fill ev tree).stores.all
    (fun st => decide (0 ≤ st.1) && decide (st.1 + st.2 ≤ arch_alloc_size tree))

/-- Local variables of the second loop of `insert_arch` after `k` rounds. -/
def arch_rounds (ev : env) (tree : netloc_arch_tree_t) (k : Nat) : arch_buf :=
  (List.range k).foldl (arch_fill_step tree)
    { mem := ev.malloc_bytes, strBuffSize := 0, strBuffSize2 := 0, stores := [] }

/-! ## Scenario data -/

/-- An environment for the scenarios: links 1 and 2 mirror each other. -/
def scenario_env : env where
  fmt_f := fun f => toString f.bits ++ ".000000"
  netloc_node_type_encode := fun t =>
    match t with
    | .NETLOC_NODE_TYPE_HOST => "CA"
    | .NETLOC_NODE_TYPE_SWITCH => "SW"
    | .NETLOC_NODE_TYPE_INVALID => "UNKNOWN"
  netloc_network_type_encode := fun _ => "IB"
  edge_is_virtual := fun e => !e.subedges.isEmpty
  node_is_virtual := fun n => !n.subnodes.isEmpty
  fopen_r := fun _ => false
  opendir := fun _ => false
  xml_doc_write := fun _ _ => true
  netlocfile_version := "2.0"
  link_at := fun a =>
    if a = 1 then
      { ports := (1, 2), speed := "QDR", width := "4x", gbits := ⟨40⟩, int_id := 11,
        description := some "H1 to H2", other_link := some 2 }
    else
      { ports := (2, 1), speed := "QDR", width := "4x", gbits := ⟨40⟩, int_id := 12,
        description := some "H2 to H1", other_link := some 1 }
  edge_at := fun a =>
    if a = 1 then utils_edge_t.mk "H2" ⟨40⟩ [0] none (some 2) []
    else utils_edge_t.mk "H1" ⟨40⟩ [0] none (some 1) []
  malloc_bytes := fun _ => 'x'

/-- Scenario edge from H1 to H2 with partition flags `flags`. -/
def scenario_edge12 (flags : Option (List Int)) : utils_edge_t :=
  utils_edge_t.mk "H2" ⟨40⟩ [0] flags (some 2) []

/-- Scenario edge from H2 to H1 with partition flags `flags`. -/
def scenario_edge21 (flags : Option (List Int)) : utils_edge_t :=
  utils_edge_t.mk "H1" ⟨40⟩ [0] flags (some 1) []

/-- Scenario host H1 with node flags `nf` and edge flags `ef`. -/
def scenario_H1 (nf ef : Option (List Int)) : utils_node_t :=
  utils_node_t.mk "H1" (some "h1") .NETLOC_NODE_TYPE_HOST none nf [scenario_edge12 ef]
    [scenario_env.link_at 1] []

/-- Scenario host H2 with node flags `nf` and edge flags `ef`. -/
def scenario_H2 (nf ef : Option (List Int)) : utils_node_t :=
  utils_node_t.mk "H2" (some "h2") .NETLOC_NODE_TYPE_HOST none nf [scenario_edge21 ef]
    [scenario_env.link_at 2] []

/-- A virtual edge that aggregates the edge from H1 to H2. -/
def scenario_virtual_edge : utils_edge_t :=
  utils_edge_t.mk "H2" ⟨40⟩ [] none none [scenario_edge12 none]

/-- The `connexion` written for the virtual scenario edge, seen from H2. -/
def scenario_virtual_connexion : xml_node :=
  (insert_xml_edge scenario_env (xml_node_new "connexion") scenario_virtual_edge
    (scenario_H2 none none) [scenario_H1 none none, scenario_H2 none none]).getD
    (xml_node_new "connexion")

/-- Scenario graph without partition flags: H1 and H2 linked by one link pair. -/
def scenario_plain_nodes : List utils_node_t :=
  [scenario_H1 none none, scenario_H2 none none]

/-- Scenario graph for one declared partition: H2 and both edges are flagged for it,
H1 is not. -/
def scenario_split_nodes : List utils_node_t :=
  [scenario_H1 (some [0]) (some [1]), scenario_H2 (some [1]) (some [1])]

/-- Scenario partition list with the single partition `P`. -/
def scenario_partitions : List utils_partition_t :=
  [{ name := "P", arch := none }]

/-- The document of the scenario graph without partitions. -/
def scenario_plain_doc : xml_node :=
  (build_document scenario_env scenario_plain_nodes [] (some "fe80") "out" none 0).getD
    (xml_node_new "machine")

/-- The document of the scenario graph with partition `P`. -/
def scenario_split_doc : xml_node :=
  (build_document scenario_env scenario_split_nodes scenario_partitions (some "fe80") "out"
    none 0).getD (xml_node_new "machine")

/-- The network element after `insert_extra` on the scenario graph without
partitions. -/
def scenario_plain_network : xml_node :=
  (insert_extra scenario_env (xml_node_new "network") none 0 scenario_plain_nodes).getD
    (xml_node_new "network")

/-! ## Vocabulary of the specification: nodes -/

/-- The `mac_addr` attribute of a node: present for a non-empty identifier. -/
def spec_mac_addr (node : utils_node_t) : List (String × String) :=
  if 0 < node.physical_id.length then [("mac_addr", node.physical_id)] else []

/-- The `name` attribute of a node: present for a non-empty host name. -/
def spec_name (node : utils_node_t) : List (String × String) :=
  match node.hostname with
  | some h => if 0 < h.length then [("name", h)] else []
  | none => []

/-- The path `<hwloc_path>/<hostname><suffix>`. -/
def host_file (hwloc_path hostname suffix : String) : String :=
  hwloc_path ++ "/" ++ hostname ++ suffix

/-- The per-host file that is found: `<hwloc_path>/<hostname>.diff.xml` when it can
be opened, otherwise `<hwloc_path>/<hostname>.xml` when that can be opened. -/
def spec_found_file (ev : env) (hwloc_path hostname : String) : Option String :=
  if ev.fopen_r (host_file hwloc_path hostname ".diff.xml") then
    some (host_file hwloc_path hostname ".diff.xml")
  else if ev.fopen_r (host_file hwloc_path hostname ".xml") then
    some (host_file hwloc_path hostname ".xml")
  else none

/-- The `hwloc_file` attribute of a node: for a host with a non-empty host name and
a hwloc path, what follows the last slash of the file that is found. -/
def spec_hwloc_file (ev : env) (node : utils_node_t) (hwloc_path : Option String) :
    List (String × String) :=
  match node.hostname, hwloc_path with
  | some h, some hp =>
    if 0 < h.length ∧ netloc_node_type_t.NETLOC_NODE_TYPE_HOST = node.type then
      match spec_found_file ev hp h with
      | some f => [("hwloc_file", after_last_slash f)]
      | none => []
    else []
  | _, _ => []

/-- The `description` child of a node: present for a non-empty description. -/
def spec_description (node : utils_node_t) : List xml_node :=
  match node.description with
  | some d => if 0 < d.length then [xml_node_new_text "description" (some d)] else []
  | none => []

/-- The attributes that `insert_xml_node` adds, in order. -/
def spec_node_attrs (ev : env) (node : utils_node_t) (hwloc_path : Option String) :
    List (String × String) :=
  spec_mac_addr node ++ [("type", ev.netloc_node_type_encode node.type)] ++ spec_name node ++
    spec_hwloc_file ev node hwloc_path

/-- Scenario environment in which exactly the file `hw/a/b.diff.xml` can be opened. -/
def scenario_env_slash : env :=
  { scenario_env with fopen_r := fun s => s == "hw/a/b.diff.xml" }

/-- Scenario host whose host name `a/b` contains a slash. -/
def scenario_host_slash : utils_node_t :=
  utils_node_t.mk "S1" (some "a/b") .NETLOC_NODE_TYPE_HOST none none [] [] []

/-- Scenario environment in which exactly the file `hw/h1.xml` can be opened. -/
def scenario_env_files : env :=
  { scenario_env with fopen_r := fun s => s == "hw/h1.xml" }

/-- Scenario switch without host name. -/
def scenario_switch : utils_node_t :=
  utils_node_t.mk "SW1" none .NETLOC_NODE_TYPE_SWITCH (some "core switch") none [] [] []

/-- Scenario virtual node V that aggregates H1 and H2, flagged for partition `P`. -/
def scenario_V : utils_node_t :=
  utils_node_t.mk "V" none .NETLOC_NODE_TYPE_SWITCH none (some [1]) [] []
    [scenario_H1 (some [1]) none, scenario_H2 (some [1]) none]

/-- Scenario virtual node whose single subnode is the virtual node V. -/
def scenario_VV : utils_node_t :=
  utils_node_t.mk "VV" none .NETLOC_NODE_TYPE_SWITCH none (some [1]) [] [] [scenario_V]

/-- The document of the graph made of V alone, with partition `P`. -/
def scenario_virtual_doc : xml_node :=
  (build_document scenario_env [scenario_V] scenario_partitions (some "fe80") "out" none
    0).getD (xml_node_new "machine")

/-- A virtual edge whose stored bandwidth, 40, differs from the stored bandwidth, 10,
of its only subedge. -/
def scenario_virtual_edge_mismatch : utils_edge_t :=
  utils_edge_t.mk "H2" ⟨40⟩ [] none none [utils_edge_t.mk "H2" ⟨10⟩ [0] none (some 2) []]

/-- The directory a non-empty hwloc path stands for: the path itself when it starts
with a slash, `<path>/<hwlocpath>` otherwise. -/
def resolved_hwloc_dir (path h : String) : String :=
  if h.data.head? = some '/' then h else path ++ "/" ++ h

/-- Scenario environment in which exactly the directory `out/hw` can be opened. -/
def scenario_env_dir : env :=
  { scenario_env with opendir := fun s => s == "out/hw" }

/-- The document of the scenario graph without partitions, written next to the hwloc
directory `hw`. -/
def scenario_dir_doc : xml_node :=
  (build_document scenario_env_dir scenario_plain_nodes [] (some "fe80") "out" (some "hw")
    0).getD (xml_node_new "machine")

/-- The environment `ev` with other answers of the file system to `fopen` and
`opendir`. -/
def with_files (ev : env) (fopen_r opendir : String → Bool) : env :=
  { ev with fopen_r := fopen_r, opendir := opendir }

/-- The environment `ev` with another behaviour of the document writer. -/
def with_writer (ev : env) (xml_doc_write : String → xml_node → Bool) : env :=
  { ev with xml_doc_write := xml_doc_write }

/-! ## The architecture builder -/

/-- Model of `netloc_arch_build`.  The callee `partition_topology_to_tleaf` is declared
in a header outside the sources at hand and is a parameter here: it yields what it
reports and the machine it leaves behind.  The call is an expression statement, so
what the callee reports is dropped. -/
def netloc_arch_build {netloc_machine_t : Type}
    (partition_topology_to_tleaf : netloc_machine_t → netloc_status × netloc_machine_t)
    (machine : netloc_machine_t) : netloc_status × netloc_machine_t :=
  let r := partition_topology_to_tleaf machine
  (netloc_status.NETLOC_SUCCESS, r.2)

/-- A tree compilation that reports a failure and leaves the machine as it was. -/
def scenario_failing_tleaf (machine : Nat) : netloc_status × Nat :=
  (netloc_status.NETLOC_ERROR, machine)

/-- Scenario environment whose document writer fails on every path. -/
def scenario_env_unwritable : env :=
  with_writer scenario_env (fun _ _ => false)

/-- What the export of the scenario graph without partitions leaves behind when the
destination cannot be written. -/
def scenario_failed_result : write_result :=
  { ret := netloc_status.NETLOC_ERROR, doc := scenario_plain_doc,
    written_to := "out/IB-fe80-nodes.xml" }

/-- What the export of the scenario graph without partitions leaves behind. -/
def scenario_result : write_result :=
  { ret := netloc_status.NETLOC_SUCCESS, doc := scenario_plain_doc,
    written_to := "out/IB-fe80-nodes.xml" }

/-! ## Extents of the stores of `insert_arch` -/

/-- The store that round `level` of the second loop of `insert_arch` performs for the
degree of that level: offset from `strBuff` and byte count, terminator included. -/
def dims_store (ev : env) (tree : netloc_arch_tree_t) (level : Nat) : Int × Nat :=
  ((arch_rounds ev tree level).strBuffSize,
    (sprintf_text (tree.degrees.getD level 0)).length + 1)

/-- The store that round `level` of the second loop of `insert_arch` performs for the
cost of that level: offset from `strBuff` and byte count, terminator included. -/
def costs_store (ev : env) (tree : netloc_arch_tree_t) (level : Nat) : Int × Nat :=
  (max_degree_list tree + (arch_rounds ev tree level).strBuffSize2 + 1,
    (sprintf_text (tree.costs.getD level 0)).length + 1)

/-- Every byte stored for the `dims` list lies within the first `max_degree_list + 1`
bytes of the block. -/
def dims_in_front (ev : env) (tree : netloc_arch_tree_t) : Bool :=
  (List.range tree.num_levels.toNat).all
    (fun level =>
      decide (0 ≤ (dims_store ev tree level).1) &&
        decide ((dims_store ev tree level).1 + (dims_store ev tree level).2 ≤
          max_degree_list tree + 1))

/-- Every byte stored for the `costs` list lies within the block of `arch_alloc_size`
bytes. -/
def costs_in_block (ev : env) (tree : netloc_arch_tree_t) : Bool :=
  (List.range tree.num_levels.toNat).all
    (fun level =>
      decide (0 ≤ (costs_store ev tree level).1) &&
        decide ((costs_store ev tree level).1 + (costs_store ev tree level).2 ≤
          arch_alloc_size tree))

/-- No store for the `dims` list shares a byte with a store for the `costs` list. -/
def lists_apart (ev : env) (tree : netloc_arch_tree_t) : Bool :=
  (List.range tree.num_levels.toNat).all
    (fun level =>
      (List.range tree.num_levels.toNat).all
        (fun other =>
          decide ((dims_store ev tree level).1 + (dims_store ev tree level).2 ≤
              (costs_store ev tree other).1) ||
            decide ((costs_store ev tree other).1 + (costs_store ev tree other).2 ≤
              (dims_store ev tree level).1)))

/-- A 2-level tree whose largest cost has fewer digits-times-value than the costs
have bytes. -/
def scenario_tree_small_costs : netloc_arch_tree_t :=
  { num_levels := 2, degrees := [4, 8], costs := [1, 1] }

/-- A 3-level tree whose largest degree has fewer digits-times-value than the degrees
have bytes. -/
def scenario_tree_small_degrees : netloc_arch_tree_t :=
  { num_levels := 3, degrees := [1, 1, 1], costs := [5, 5, 5] }

/-! ## Basic facts on the element tree -/

@[simp] theorem name_attr_add (n : xml_node) (k v : String) :
    (xml_node_attr_add n k v).name = n.name := rfl

@[simp] theorem content_attr_add (n : xml_node) (k v : String) :
    (xml_node_attr_add n k v).content = n.content := rfl

@[simp] theorem attrs_attr_add (n : xml_node) (k v : String) :
    (xml_node_attr_add n k v).attrs = n.attrs ++ [(k, v)] := rfl

@[simp] theorem children_attr_add (n : xml_node) (k v : String) :
    (xml_node_attr_add n k v).children = n.children := rfl

@[simp] theorem name_child_add (n c : xml_node) :
    (xml_node_child_add n c).name = n.name := rfl

@[simp] theorem content_child_add (n c : xml_node) :
    (xml_node_child_add n c).content = n.content := rfl

@[simp] theorem attrs_child_add (n c : xml_node) :
    (xml_node_child_add n c).attrs = n.attrs := rfl

@[simp] theorem children_child_add (n c : xml_node) :
    (xml_node_child_add n c).children = n.children ++ [c] := rfl

@[simp] theorem name_new (nm : String) : (xml_node_new nm).name = nm := rfl

@[simp] theorem content_new (nm : String) : (xml_node_new nm).content = none := rfl

@[simp] theorem attrs_new (nm : String) : (xml_node_new nm).attrs = [] := rfl

@[simp] theorem children_new (nm : String) : (xml_node_new nm).children = [] := rfl

@[simp] theorem name_append_children (n : xml_node) (cs : List xml_node) :
    (append_children n cs).name = n.name := rfl

@[simp] theorem content_append_children (n : xml_node) (cs : List xml_node) :
    (append_children n cs).content = n.content := rfl

@[simp] theorem attrs_append_children (n : xml_node) (cs : List xml_node) :
    (append_children n cs).attrs = n.attrs := rfl

@[simp] theorem children_append_children (n : xml_node) (cs : List xml_node) :
    (append_children n cs).children = n.children ++ cs := rfl

theorem xml_node_eta (n : xml_node) :
    xml_node.mk n.name n.content n.attrs n.children = n := by
  cases n; rfl

theorem append_children_nil (n : xml_node) : append_children n [] = n := by
  cases n; simp [append_children, xml_node.name, xml_node.content, xml_node.attrs,
    xml_node.children]

theorem child_add_eq_append (n c : xml_node) :
    xml_node_child_add n c = append_children n [c] := rfl

theorem append_children_append (n : xml_node) (cs ds : List xml_node) :
    append_children (append_children n cs) ds = append_children n (cs ++ ds) := by
  cases n
  simp [append_children, xml_node.name, xml_node.content, xml_node.attrs,
    xml_node.children]

/-! ## Links and edges -/

theorem link_elem_attrs (ev : env) (link : utils_physical_link_t) :
    (link_elem ev link).attrs =
      [("srcport", fmt_d link.ports.1), ("destport", fmt_d link.ports.2),
        ("speed", link.speed), ("width", link.width),
        ("bandwidth", ev.fmt_f link.gbits), ("logical_id", fmt_llu link.int_id)] ++
      (match link.other_link with
        | some p => [("reverse_logical_id", fmt_llu (ev.link_at p).int_id)]
        | none => []) := by
  unfold link_elem
  cases link.other_link <;> rfl

theorem insert_links_spec (ev : env) (node : utils_node_t) (idx : List Nat) :
    ∀ (links_node r : xml_node),
      insert_links ev node idx links_node = some r ↔
        ∃ ls, List.Forall₂ (fun i l => node.physical_links[i]? = some l) idx ls ∧
          r = append_children links_node (ls.map (link_elem ev)) := by
  induction idx with
  | nil =>
    intro links_node r
    simp [insert_links, append_children_nil, eq_comm]
  | cons i rest ih =>
    intro links_node r
    unfold insert_links
    cases h : node.physical_links[i]? with
    | none =>
      simp only [List.forall₂_cons_left_iff, h]
      simp
    | some l =>
      simp only [ih, insert_xml_link, child_add_eq_append, append_children_append]
      constructor
      · rintro ⟨ls, hls, rfl⟩
        exact ⟨l :: ls, List.Forall₂.cons h hls, by simp⟩
      · rintro ⟨ls, hls, rfl⟩
        cases hls with
        | cons h1 h2 =>
          rw [h] at h1
          cases h1
          exact ⟨_, h2, by simp⟩

theorem insert_subedges_spec (ev : env) (node : utils_node_t) (nodes : List utils_node_t)
    (subedges : List utils_edge_t) :
    ∀ (subcons_node r : xml_node),
      insert_subedges ev subedges node nodes subcons_node = some r ↔
        ∃ cs, List.Forall₂ (subconnexion_of ev node nodes) subedges cs ∧
          r = append_children subcons_node cs := by
  induction subedges with
  | nil =>
    intro subcons_node r
    simp [insert_subedges, append_children_nil, eq_comm]
  | cons se rest ih =>
    intro subcons_node r
    rw [insert_subedges]
    cases h : subedge_real_node ev node nodes se with
    | none =>
      simp only [List.forall₂_cons_left_iff, subconnexion_of, h]
      simp
    | some real_node =>
      cases h2 : insert_xml_edge ev (xml_node_new "connexion") se real_node nodes with
      | none =>
        simp only [List.forall₂_cons_left_iff, subconnexion_of, h, h2]
        simp [h2]
      | some c =>
        simp only [h2, ih, child_add_eq_append, append_children_append]
        constructor
        · rintro ⟨cs, hcs, rfl⟩
          exact ⟨c :: cs, List.Forall₂.cons ⟨real_node, h, h2⟩ hcs, by simp⟩
        · rintro ⟨cs, hcs, rfl⟩
          cases hcs with
          | cons h1 h3 =>
            obtain ⟨rn, hrn, hc⟩ := h1
            rw [h] at hrn
            cases hrn
            rw [h2] at hc
            cases hc
            exact ⟨_, h3, by simp⟩

theorem insert_xml_edge_unfold (ev : env) (con_node : xml_node) (edge : utils_edge_t)
    (node : utils_node_t) (nodes : List utils_node_t) :
    insert_xml_edge ev con_node edge node nodes =
      if ev.edge_is_virtual edge then
        (insert_subedges ev edge.subedges node nodes
          (xml_node_attr_add (xml_node_new "subconnexions") "size"
            (fmt_u edge.subedges.length))).map
          (fun subcons_node =>
            append_children
              (append_attrs con_node
                [("bandwidth", ev.fmt_f edge.total_gbits),
                  ("nblinks", fmt_u edge.physical_link_idx.length), ("virtual", "yes")])
              [xml_node_new_text "src" (some node.physical_id),
                xml_node_new_text "dest" (some edge.dest), subcons_node])
      else
        (insert_links ev node edge.physical_link_idx (xml_node_new "links")).map
          (fun links_node =>
            append_children
              (append_attrs con_node
                [("bandwidth", ev.fmt_f edge.total_gbits),
                  ("nblinks", fmt_u edge.physical_link_idx.length)])
              [xml_node_new_text "src" (some node.physical_id),
                xml_node_new_text "dest" (some edge.dest), links_node]) := by
  cases edge with
  | mk dest total_gbits physical_link_idx partitions reverse_edge subedges =>
    cases con_node with
    | mk cn cc ca ch =>
      rw [insert_xml_edge]
      simp only [utils_edge_t.subedges, utils_edge_t.total_gbits,
        utils_edge_t.physical_link_idx, utils_edge_t.dest]
      split
      · cases insert_subedges ev subedges node nodes
          (xml_node_attr_add (xml_node_new "subconnexions") "size" (fmt_u subedges.length)) <;>
          simp [append_children, append_attrs, xml_node_child_add, xml_node_attr_add,
            xml_node.name, xml_node.content, xml_node.attrs, xml_node.children]
      · cases insert_links ev node physical_link_idx (xml_node_new "links") <;>
          simp [append_children, append_attrs, xml_node_child_add, xml_node_attr_add,
            xml_node.name, xml_node.content, xml_node.attrs, xml_node.children]

theorem forall₂_right_mem {α β : Type} {R : α → β → Prop} {l : List α} {m : List β}
    (h : List.Forall₂ R l m) : ∀ b ∈ m, ∃ a ∈ l, R a b := by
  induction h with
  | nil => intro b hb; exact absurd hb (List.not_mem_nil _)
  | cons hh _ ih =>
    intro b hb
    rcases List.mem_cons.1 hb with rfl | hm
    · exact ⟨_, List.mem_cons_self _ _, hh⟩
    · obtain ⟨a, ha, hab⟩ := ih b hm
      exact ⟨a, List.mem_cons_of_mem _ ha, hab⟩

theorem forall₂_left_mem {α β : Type} {R : α → β → Prop} {l : List α} {m : List β}
    (h : List.Forall₂ R l m) : ∀ a ∈ l, ∃ b ∈ m, R a b := by
  induction h with
  | nil => intro a ha; exact absurd ha (List.not_mem_nil _)
  | cons hh _ ih =>
    intro a ha
    rcases List.mem_cons.1 ha with rfl | hm
    · exact ⟨_, List.mem_cons_self _ _, hh⟩
    · obtain ⟨b, hb, hab⟩ := ih a hm
      exact ⟨b, List.mem_cons_of_mem _ hb, hab⟩

theorem insert_xml_edge_name (ev : env) (con_node : xml_node) (edge : utils_edge_t)
    (node : utils_node_t) (nodes : List utils_node_t) (r : xml_node)
    (h : insert_xml_edge ev con_node edge node nodes = some r) : r.name = con_node.name := by
  rw [insert_xml_edge_unfold] at h
  split at h
  · simp only [Option.map_eq_some'] at h
    obtain ⟨_, _, rfl⟩ := h
    rfl
  · simp only [Option.map_eq_some'] at h
    obtain ⟨_, _, rfl⟩ := h
    rfl

/-! ## Membership tests against the vocabulary of the specification -/

theorem belongs_loop_eq_any (flags : Option (List Int)) (fuel : Nat) :
    ∀ p, belongs_loop flags fuel p = (List.range' p fuel).any (fun q => spec_flag flags q) := by
  induction fuel with
  | zero => intro p; rfl
  | succ k ih =>
    intro p
    cases flags with
    | none =>
      simp [belongs_loop, spec_flag]
    | some fl =>
      simp only [belongs_loop, List.range'_succ, List.any_cons, spec_flag]
      rw [ih]
      cases flag_at fl p <;> simp [spec_flag]

theorem not_belongs_eq_unflagged (flags : Option (List Int)) (N : Nat) :
    (!belongs_loop flags N 0) = spec_unflagged flags N := by
  rw [belongs_loop_eq_any, spec_unflagged, List.range_eq_range']
  induction List.range' 0 N with
  | nil => rfl
  | cons a l ih =>
    simp only [List.any_cons, List.all_cons, Bool.not_or, ih]

theorem node_belongs_iff (node : utils_node_t) (N : Nat) :
    node_belongs_to_a_partition node N = !spec_unflagged node.partitions N := by
  rw [← not_belongs_eq_unflagged, Bool.not_not]
  rfl

theorem edge_belongs_iff (edge : utils_edge_t) (N : Nat) :
    edge_belongs_to_a_partition edge N = !spec_unflagged edge.partitions N := by
  rw [← not_belongs_eq_unflagged, Bool.not_not]
  rfl

theorem unflagged_iff (flags : Option (List Int)) (N : Nat) :
    spec_unflagged flags N = true ↔ ∀ p, p < N → spec_flag flags p = false := by
  simp [spec_unflagged]

theorem fmt_u_mod (n : Nat) : fmt_u (n % 2 ^ 32) = fmt_u n := by
  simp [fmt_u]

theorem forall₂_append_iff {α β : Type} {R : α → β → Prop} (l₁ l₂ : List α) (m : List β) :
    List.Forall₂ R (l₁ ++ l₂) m ↔
      ∃ m₁ m₂, List.Forall₂ R l₁ m₁ ∧ List.Forall₂ R l₂ m₂ ∧ m = m₁ ++ m₂ := by
  constructor
  · intro h
    induction l₁ generalizing m with
    | nil => exact ⟨[], m, List.Forall₂.nil, h, rfl⟩
    | cons a l ih =>
      cases h with
      | cons h1 h2 =>
        obtain ⟨m₁, m₂, h3, h4, rfl⟩ := ih _ h2
        exact ⟨_ :: m₁, m₂, List.Forall₂.cons h1 h3, h4, rfl⟩
  · rintro ⟨m₁, m₂, h1, h2, rfl⟩
    exact List.rel_append h1 h2

/-! ## The loops over the node table -/

theorem extra_edges_spec (ev : env) (N : Nat) (node : utils_node_t)
    (nodes : List utils_node_t) (es : List utils_edge_t) :
    ∀ (cons_node r : xml_node),
      extra_edges ev N node nodes es cons_node = some r ↔
        ∃ cs, List.Forall₂ (connexion_of ev nodes)
            ((es.filter (fun e => spec_unflagged e.partitions N)).map (fun e => (node, e)))
            cs ∧
          r = append_children cons_node cs := by
  induction es with
  | nil =>
    intro cons_node r
    simp [extra_edges, append_children_nil, eq_comm]
  | cons e rest ih =>
    intro cons_node r
    rw [extra_edges, edge_belongs_iff]
    cases hu : spec_unflagged e.partitions N with
    | false =>
      simp only [Bool.not_false, if_true, ih, List.filter_cons, hu, Bool.false_eq_true,
        if_false]
    | true =>
      simp only [Bool.not_true, Bool.false_eq_true, if_false, List.filter_cons, hu,
        if_true, List.map_cons]
      cases h2 : insert_xml_edge ev (xml_node_new "connexion") e node nodes with
      | none =>
        simp only [List.forall₂_cons_left_iff, connexion_of, h2]
        simp
      | some c =>
        simp only [ih, child_add_eq_append, append_children_append]
        constructor
        · rintro ⟨cs, hcs, rfl⟩
          exact ⟨c :: cs, List.Forall₂.cons h2 hcs, by simp⟩
        · rintro ⟨cs, hcs, rfl⟩
          cases hcs with
          | cons h1 h3 =>
            have h1' : insert_xml_edge ev (xml_node_new "connexion") e node nodes = some _ :=
              h1
            rw [h2] at h1'
            cases h1'
            exact ⟨_, h3, by simp⟩

theorem part_edges_spec (ev : env) (p : Nat) (node : utils_node_t)
    (nodes : List utils_node_t) (es : List utils_edge_t) :
    ∀ (cons_node r : xml_node),
      part_edges ev p node nodes es cons_node = some r ↔
        ∃ cs, List.Forall₂ (connexion_of ev nodes)
            ((es.filter (fun e => spec_flag e.partitions p)).map (fun e => (node, e))) cs ∧
          r = append_children cons_node cs := by
  induction es with
  | nil =>
    intro cons_node r
    simp [part_edges, append_children_nil, eq_comm]
  | cons e rest ih =>
    intro cons_node r
    rw [part_edges]
    cases hp : e.partitions with
    | none =>
      simp only [ih, List.filter_cons, hp, spec_flag, Bool.false_eq_true, if_false]
    | some flags =>
      cases hf : flag_at flags p with
      | false =>
        simp only [Bool.not_false, if_true, ih, List.filter_cons, hp, spec_flag, hf,
          Bool.false_eq_true, if_false]
      | true =>
        simp only [Bool.not_true, Bool.false_eq_true, if_false, List.filter_cons, hp,
          spec_flag, hf, if_true, List.map_cons]
        cases h2 : insert_xml_edge ev (xml_node_new "connexion") e node nodes with
        | none =>
          simp only [List.forall₂_cons_left_iff, connexion_of, h2]
          simp
        | some c =>
          simp only [ih, child_add_eq_append, append_children_append]
          constructor
          · rintro ⟨cs, hcs, rfl⟩
            exact ⟨c :: cs, List.Forall₂.cons h2 hcs, by simp⟩
          · rintro ⟨cs, hcs, rfl⟩
            cases hcs with
            | cons h1 h3 =>
              have h1' : insert_xml_edge ev (xml_node_new "connexion") e node nodes =
                  some _ := h1
              rw [h2] at h1'
              cases h1'
              exact ⟨_, h3, by simp⟩

theorem spec_residual_edges_cons (n : utils_node_t) (rest : List utils_node_t) (N : Nat) :
    spec_residual_edges (n :: rest) N =
      (n.edges.filter (fun e => spec_unflagged e.partitions N)).map (fun e => (n, e)) ++
        spec_residual_edges rest N := by
  simp [spec_residual_edges]

theorem spec_residual_nodes_cons (n : utils_node_t) (rest : List utils_node_t) (N : Nat) :
    spec_residual_nodes (n :: rest) N =
      if spec_unflagged n.partitions N then n :: spec_residual_nodes rest N
      else spec_residual_nodes rest N := by
  simp [spec_residual_nodes, List.filter_cons]

theorem extra_nodes_cons (ev : env) (hw : Option String) (N : Nat)
    (nodes : List utils_node_t) (n : utils_node_t) (rest : List utils_node_t)
    (acc : explicit_acc) :
    extra_nodes ev hw N nodes (n :: rest) acc =
      (extra_edges ev N n nodes n.edges acc.cons_node).bind (fun c =>
        extra_nodes ev hw N nodes rest
          (if spec_unflagged n.partitions N then
            { part_size := (acc.part_size + 1) % 2 ^ 32
              nodes_node := xml_node_child_add acc.nodes_node (top_node_elem ev hw n)
              cons_node := c }
          else
            { part_size := acc.part_size, nodes_node := acc.nodes_node, cons_node := c })) := by
  rw [extra_nodes, node_belongs_iff]
  cases hu : spec_unflagged n.partitions N <;>
    simp only [Bool.not_false, Bool.not_true, if_true, if_false, Bool.false_eq_true] <;>
    cases h1 : extra_edges ev N n nodes n.edges acc.cons_node <;> simp

theorem extra_nodes_spec (ev : env) (hw : Option String) (N : Nat)
    (nodes : List utils_node_t) (ns : List utils_node_t) :
    ∀ (acc r : explicit_acc), acc.part_size < 2 ^ 32 →
      (extra_nodes ev hw N nodes ns acc = some r ↔
        ∃ cs, List.Forall₂ (connexion_of ev nodes) (spec_residual_edges ns N) cs ∧
          r = { part_size := (acc.part_size + (spec_residual_nodes ns N).length) % 2 ^ 32
                nodes_node := append_children acc.nodes_node
                  ((spec_residual_nodes ns N).map (top_node_elem ev hw))
                cons_node := append_children acc.cons_node cs }) := by
  induction ns with
  | nil =>
    intro acc r hacc
    cases acc
    simp only [extra_nodes, spec_residual_edges, spec_residual_nodes, List.flatMap_nil,
      List.filter_nil, List.map_nil, List.length_nil, Nat.add_zero, append_children_nil,
      List.forall₂_nil_left_iff, exists_eq_left, Option.some.injEq]
    rw [Nat.mod_eq_of_lt hacc]
    exact eq_comm
  | cons n rest ih =>
    intro acc r hacc
    rw [extra_nodes_cons, spec_residual_edges_cons, spec_residual_nodes_cons]
    simp only [Option.bind_eq_some, extra_edges_spec, forall₂_append_iff]
    have hlt : (acc.part_size + 1) % 2 ^ 32 < 2 ^ 32 := Nat.mod_lt _ (by norm_num)
    have hsz : ∀ k, ((acc.part_size + 1) % 2 ^ 32 + k) % 2 ^ 32 =
        (acc.part_size + (k + 1)) % 2 ^ 32 := by
      intro k
      omega
    cases hu : spec_unflagged n.partitions N with
    | false =>
      simp only [Bool.false_eq_true, if_false]
      constructor
      · rintro ⟨c, ⟨cs1, hcs1, rfl⟩, h⟩
        obtain ⟨cs2, hcs2, rfl⟩ :=
          (ih { part_size := acc.part_size, nodes_node := acc.nodes_node,
                cons_node := append_children acc.cons_node cs1 } r hacc).1 h
        exact ⟨cs1 ++ cs2, ⟨cs1, cs2, hcs1, hcs2, rfl⟩, by
          simp only [append_children_append]⟩
      · rintro ⟨cs, ⟨cs1, cs2, hcs1, hcs2, rfl⟩, rfl⟩
        exact ⟨_, ⟨cs1, hcs1, rfl⟩,
          (ih { part_size := acc.part_size, nodes_node := acc.nodes_node,
                cons_node := append_children acc.cons_node cs1 } _ hacc).2 ⟨cs2, hcs2, by
            simp only [append_children_append]⟩⟩
    | true =>
      simp only [if_true, List.map_cons, List.length_cons]
      constructor
      · rintro ⟨c, ⟨cs1, hcs1, rfl⟩, h⟩
        obtain ⟨cs2, hcs2, rfl⟩ :=
          (ih { part_size := (acc.part_size + 1) % 2 ^ 32,
                nodes_node := xml_node_child_add acc.nodes_node (top_node_elem ev hw n),
                cons_node := append_children acc.cons_node cs1 } r hlt).1 h
        exact ⟨cs1 ++ cs2, ⟨cs1, cs2, hcs1, hcs2, rfl⟩, by
          simp only [append_children_append, child_add_eq_append, hsz, List.singleton_append]⟩
      · rintro ⟨cs, ⟨cs1, cs2, hcs1, hcs2, rfl⟩, rfl⟩
        exact ⟨_, ⟨cs1, hcs1, rfl⟩,
          (ih { part_size := (acc.part_size + 1) % 2 ^ 32,
                nodes_node := xml_node_child_add acc.nodes_node (top_node_elem ev hw n),
                cons_node := append_children acc.cons_node cs1 } _ hlt).2 ⟨cs2, hcs2, by
            simp only [append_children_append, child_add_eq_append, hsz,
              List.singleton_append]⟩⟩

theorem spec_member_nodes_cons (n : utils_node_t) (rest : List utils_node_t) (p : Nat) :
    spec_member_nodes (n :: rest) p =
      if spec_flag n.partitions p then n :: spec_member_nodes rest p
      else spec_member_nodes rest p := by
  simp [spec_member_nodes, List.filter_cons]

theorem spec_inner_member_edges_cons (n : utils_node_t) (rest : List utils_node_t)
    (p : Nat) :
    spec_inner_member_edges (n :: rest) p =
      if spec_flag n.partitions p then
        (n.edges.filter (fun e => spec_flag e.partitions p)).map (fun e => (n, e)) ++
          spec_inner_member_edges rest p
      else spec_inner_member_edges rest p := by
  unfold spec_inner_member_edges
  rw [spec_member_nodes_cons]
  split <;> simp

theorem part_nodes_cons (ev : env) (hw : Option String) (p : Nat)
    (nodes : List utils_node_t) (n : utils_node_t) (rest : List utils_node_t)
    (acc : explicit_acc) :
    part_nodes ev hw p nodes (n :: rest) acc =
      if spec_flag n.partitions p then
        (part_edges ev p n nodes n.edges acc.cons_node).bind (fun c =>
          part_nodes ev hw p nodes rest
            { part_size := (acc.part_size + 1) % 2 ^ 32
              nodes_node := xml_node_child_add acc.nodes_node (top_node_elem ev hw n)
              cons_node := c })
      else part_nodes ev hw p nodes rest acc := by
  rw [part_nodes]
  cases hp : n.partitions with
  | none => simp [spec_flag]
  | some flags =>
    cases hf : flag_at flags p with
    | false => simp [spec_flag, hf]
    | true =>
      simp only [spec_flag, hf, Bool.not_true, if_true, if_false, Bool.false_eq_true]
      cases h1 : part_edges ev p n nodes n.edges acc.cons_node <;> simp

theorem part_nodes_spec (ev : env) (hw : Option String) (p : Nat)
    (nodes : List utils_node_t) (ns : List utils_node_t) :
    ∀ (acc r : explicit_acc), acc.part_size < 2 ^ 32 →
      (part_nodes ev hw p nodes ns acc = some r ↔
        ∃ cs, List.Forall₂ (connexion_of ev nodes) (spec_inner_member_edges ns p) cs ∧
          r = { part_size := (acc.part_size + (spec_member_nodes ns p).length) % 2 ^ 32
                nodes_node := append_children acc.nodes_node
                  ((spec_member_nodes ns p).map (top_node_elem ev hw))
                cons_node := append_children acc.cons_node cs }) := by
  induction ns with
  | nil =>
    intro acc r hacc
    cases acc
    simp only [part_nodes, spec_inner_member_edges, spec_member_nodes, List.flatMap_nil,
      List.filter_nil, List.map_nil, List.length_nil, Nat.add_zero, append_children_nil,
      List.forall₂_nil_left_iff, exists_eq_left, Option.some.injEq]
    rw [Nat.mod_eq_of_lt hacc]
    exact eq_comm
  | cons n rest ih =>
    intro acc r hacc
    rw [part_nodes_cons, spec_inner_member_edges_cons, spec_member_nodes_cons]
    have hlt : (acc.part_size + 1) % 2 ^ 32 < 2 ^ 32 := Nat.mod_lt _ (by norm_num)
    have hsz : ∀ k, ((acc.part_size + 1) % 2 ^ 32 + k) % 2 ^ 32 =
        (acc.part_size + (k + 1)) % 2 ^ 32 := by
      intro k
      omega
    cases hu : spec_flag n.partitions p with
    | false =>
      simp only [Bool.false_eq_true, if_false]
      exact ih acc r hacc
    | true =>
      simp only [if_true, List.map_cons, List.length_cons, Option.bind_eq_some,
        part_edges_spec, forall₂_append_iff]
      constructor
      · rintro ⟨c, ⟨cs1, hcs1, rfl⟩, h⟩
        obtain ⟨cs2, hcs2, rfl⟩ :=
          (ih { part_size := (acc.part_size + 1) % 2 ^ 32,
                nodes_node := xml_node_child_add acc.nodes_node (top_node_elem ev hw n),
                cons_node := append_children acc.cons_node cs1 } r hlt).1 h
        exact ⟨cs1 ++ cs2, ⟨cs1, cs2, hcs1, hcs2, rfl⟩, by
          simp only [append_children_append, child_add_eq_append, hsz, List.singleton_append]⟩
      · rintro ⟨cs, ⟨cs1, cs2, hcs1, hcs2, rfl⟩, rfl⟩
        exact ⟨_, ⟨cs1, hcs1, rfl⟩,
          (ih { part_size := (acc.part_size + 1) % 2 ^ 32,
                nodes_node := xml_node_child_add acc.nodes_node (top_node_elem ev hw n),
                cons_node := append_children acc.cons_node cs1 } _ hlt).2 ⟨cs2, hcs2, by
            simp only [append_children_append, child_add_eq_append, hsz,
              List.singleton_append]⟩⟩

/-! ## Whole partitions -/

theorem explicit_elem_eq (size : String) (k : Nat) (ns cs : List xml_node) :
    explicit_elem (some size)
        { part_size := k, nodes_node := append_children (xml_node_new "nodes") ns,
          cons_node := append_children (xml_node_new "connexions") cs } =
      explicit_of size ns cs := by
  simp [explicit_elem, explicit_of, append_children, xml_node_child_add, xml_node_attr_add,
    xml_node_new, xml_node.name, xml_node.content, xml_node.attrs, xml_node.children]

theorem isEmpty_map_eq {α β : Type} (f : α → β) (l : List α) :
    (l.map f).isEmpty = l.isEmpty := by
  cases l <;> rfl

theorem has_child_append_new (nm : String) (l : List xml_node) :
    xml_node_has_child (append_children (xml_node_new nm) l) = !l.isEmpty := by
  simp [xml_node_has_child]

theorem insert_extra_spec (ev : env) (network_node : xml_node) (hw : Option String)
    (N : Nat) (nodes : List utils_node_t) (r : xml_node) :
    insert_extra ev network_node hw N nodes = some r ↔
      ∃ cs, List.Forall₂ (connexion_of ev nodes) (spec_residual_edges nodes N) cs ∧
        r = if (spec_residual_nodes nodes N).isEmpty && cs.isEmpty then network_node
          else append_children network_node [extra_elem_of ev hw N nodes cs] := by
  unfold insert_extra
  have key := extra_nodes_spec ev hw N nodes nodes
    { part_size := 0, nodes_node := xml_node_new "nodes",
      cons_node := xml_node_new "connexions" }
  have h0 : (0 : Nat) < 2 ^ 32 := by norm_num
  have hpart : ∀ cs, xml_node_child_add network_node
      (extra_part_node
        { part_size := (0 + (spec_residual_nodes nodes N).length) % 2 ^ 32,
          nodes_node := append_children (xml_node_new "nodes")
            ((spec_residual_nodes nodes N).map (top_node_elem ev hw)),
          cons_node := append_children (xml_node_new "connexions") cs }) =
      append_children network_node [extra_elem_of ev hw N nodes cs] := by
    intro cs
    simp only [extra_part_node, Nat.zero_add, fmt_u_mod, explicit_elem_eq,
      extra_elem_of, child_add_eq_append]
    rfl
  constructor
  · intro h
    cases h1 : extra_nodes ev hw N nodes nodes
        { part_size := 0, nodes_node := xml_node_new "nodes",
          cons_node := xml_node_new "connexions" } with
    | none => rw [h1] at h; cases h
    | some acc =>
      rw [h1] at h
      obtain ⟨cs, hcs, rfl⟩ := (key acc h0).1 h1
      refine ⟨cs, hcs, ?_⟩
      simp only [has_child_append_new, isEmpty_map_eq, Bool.not_not, hpart] at h
      split at h <;> rename_i hc <;> simp only [hc, if_true, if_false] <;>
        exact (Option.some.inj h).symm
  · rintro ⟨cs, hcs, rfl⟩
    rw [(key _ h0).2 ⟨cs, hcs, rfl⟩]
    simp only [has_child_append_new, isEmpty_map_eq, Bool.not_not, hpart]
    split <;> rfl

theorem insert_arch_shape (ev : env) (partition_node : xml_node) (arch : netloc_arch_t)
    (r : xml_node) (h : insert_arch ev partition_node arch = some r) :
    ∃ topo, r = append_children partition_node [xml_node.mk "topology" none [] [topo]] := by
  unfold insert_arch at h
  dsimp only at h
  split at h
  · exact ⟨_, (Option.some.inj h).symm⟩
  · cases h

theorem partition_head_shape (ev : env) (q : utils_partition_t) (base : xml_node)
    (h : partition_head ev q = some base) :
    base.name = "partition" ∧
      base.attrs = (if 0 < q.name.length then [("name", q.name)] else []) ∧
      (base.children = [] ∨ ∃ topo, base.children = [xml_node.mk "topology" none [] [topo]]) := by
  unfold partition_head at h
  cases ha : q.arch with
  | none =>
    rw [ha] at h
    cases Option.some.inj h
    split <;> simp
  | some arch =>
    rw [ha] at h
    obtain ⟨topo, rfl⟩ := insert_arch_shape ev _ arch base h
    split <;> simp

theorem partition_elem_spec (ev : env) (hw : Option String) (nodes : List utils_node_t)
    (p : Nat) (q : utils_partition_t) (el : xml_node) :
    partition_elem ev hw nodes p q = some el ↔
      ∃ base cs, partition_head ev q = some base ∧
        List.Forall₂ (connexion_of ev nodes) (spec_inner_member_edges nodes p) cs ∧
        el = append_children base [member_explicit_of ev hw p nodes cs] := by
  unfold partition_elem
  have key := part_nodes_spec ev hw p nodes nodes
    { part_size := 0, nodes_node := xml_node_new "nodes",
      cons_node := xml_node_new "connexions" }
  have h0 : (0 : Nat) < 2 ^ 32 := by norm_num
  cases hb : partition_head ev q with
  | none => simp
  | some base =>
    dsimp only
    constructor
    · intro h
      cases h1 : part_nodes ev hw p nodes nodes
          { part_size := 0, nodes_node := xml_node_new "nodes",
            cons_node := xml_node_new "connexions" } with
      | none => rw [h1] at h; cases h
      | some acc =>
        rw [h1] at h
        obtain ⟨cs, hcs, rfl⟩ := (key acc h0).1 h1
        refine ⟨base, cs, rfl, hcs, ?_⟩
        rw [← Option.some.inj h]
        simp only [Nat.zero_add, fmt_u_mod, explicit_elem_eq, child_add_eq_append,
          member_explicit_of]
    · rintro ⟨base2, cs, hb2, hcs, rfl⟩
      cases Option.some.inj hb2
      rw [(key _ h0).2 ⟨cs, hcs, rfl⟩]
      simp only [Nat.zero_add, fmt_u_mod, explicit_elem_eq, child_add_eq_append,
        member_explicit_of]

theorem write_partitions_spec (ev : env) (hw : Option String) (nodes : List utils_node_t)
    (qs : List utils_partition_t) :
    ∀ (p : Nat) (network_node r : xml_node),
      write_partitions ev hw nodes qs p network_node = some r ↔
        ∃ els, List.Forall₂ (partition_of ev hw nodes) (qs.enumFrom p) els ∧
          r = append_children network_node els := by
  induction qs with
  | nil =>
    intro p network_node r
    simp [write_partitions, append_children_nil, eq_comm]
  | cons q rest ih =>
    intro p network_node r
    rw [write_partitions]
    cases h2 : partition_elem ev hw nodes p q with
    | none =>
      simp only [List.enumFrom_cons, List.forall₂_cons_left_iff, partition_of, h2]
      simp
    | some c =>
      simp only [ih, child_add_eq_append, append_children_append, List.enumFrom_cons]
      constructor
      · rintro ⟨els, hels, rfl⟩
        exact ⟨c :: els, List.Forall₂.cons h2 hels, by simp⟩
      · rintro ⟨els, hels, rfl⟩
        cases hels with
        | cons h1 h3 =>
          have h1' : partition_elem ev hw nodes p q = some _ := h1
          rw [h2] at h1'
          cases h1'
          exact ⟨_, h3, by simp⟩

theorem build_document_spec (ev : env) (nodes : List utils_node_t)
    (partitions : List utils_partition_t) (subnet : Option String) (path : String)
    (hwlocpath : Option String) (transportType : netloc_network_type_t) (doc : xml_node) :
    build_document ev nodes partitions subnet path hwlocpath transportType = some doc ↔
      ∃ els cs,
        List.Forall₂ (partition_of ev (full_hwloc_path path hwlocpath) nodes)
          (partitions.enumFrom 0) els ∧
        List.Forall₂ (connexion_of ev nodes) (spec_residual_edges nodes partitions.length)
          cs ∧
        doc = document_of ev nodes partitions subnet path hwlocpath transportType els cs := by
  unfold build_document
  have hx : ∀ (nw : xml_node) (els cs : List xml_node),
      (if (spec_residual_nodes nodes partitions.length).isEmpty && cs.isEmpty then
          append_children nw els
        else append_children (append_children nw els)
          [extra_elem_of ev (full_hwloc_path path hwlocpath) partitions.length nodes cs]) =
        append_children nw
          (els ++ extra_list_of ev (full_hwloc_path path hwlocpath) partitions.length nodes
            cs) := by
    intro nw els cs
    unfold extra_list_of
    split <;> simp [append_children_append]
  constructor
  · intro h
    cases h1 : write_partitions ev (full_hwloc_path path hwlocpath) nodes partitions 0
        (network_head ev subnet transportType) with
    | none => simp only [h1] at h; cases h
    | some nw =>
      simp only [h1] at h
      obtain ⟨els, hels, rfl⟩ := (write_partitions_spec ev _ nodes partitions 0 _ _).1 h1
      cases h2 : insert_extra ev (append_children (network_head ev subnet transportType) els)
          (full_hwloc_path path hwlocpath) partitions.length nodes with
      | none => simp only [h2] at h; cases h
      | some nw2 =>
        simp only [h2] at h
        obtain ⟨cs, hcs, rfl⟩ := (insert_extra_spec ev _ _ _ nodes _).1 h2
        refine ⟨els, cs, hels, hcs, ?_⟩
        rw [← Option.some.inj h, hx]
        rfl
  · rintro ⟨els, cs, hels, hcs, rfl⟩
    simp only [(write_partitions_spec ev _ nodes partitions 0 _ _).2 ⟨els, hels, rfl⟩]
    simp only [(insert_extra_spec ev _ _ _ nodes _).2 ⟨cs, hcs, rfl⟩, hx]
    rfl

/-! ## Reading the document back -/

theorem child_append_last (base c : xml_node) (nm : String)
    (hb : ∀ x ∈ base.children, (x.name == nm) = false) (hc : c.name = nm) :
    (append_children base [c]).child nm = some c := by
  have hnone : List.find? (fun x => x.name == nm) base.children = none := by
    rw [List.find?_eq_none]
    intro x hx
    simp [hb x hx]
  simp only [xml_node.child, children_append_children, List.find?_append, hnone,
    Option.none_or]
  simp [List.find?, hc]

theorem explicit_of_reads (size : String) (ns cs : List xml_node) (base : xml_node)
    (hb : base.children = [] ∨
      ∃ topo, base.children = [xml_node.mk "topology" none [] [topo]]) :
    explicit_nodes (append_children base [explicit_of size ns cs]) = ns ∧
      explicit_cons (append_children base [explicit_of size ns cs]) = cs ∧
      explicit_size (append_children base [explicit_of size ns cs]) = some size := by
  have hchild : (append_children base [explicit_of size ns cs]).child "explicit" =
      some (explicit_of size ns cs) := by
    apply child_append_last
    · rcases hb with hb | ⟨topo, hb⟩
      · simp [hb]
      · intro x hx
        rw [hb, List.mem_singleton] at hx
        rw [hx]
        show ("topology" == "explicit") = false
        decide
    · rfl
  refine ⟨?_, ?_, ?_⟩
  · unfold explicit_nodes
    rw [hchild]
    simp [explicit_of, xml_node.child, xml_node.children, xml_node.name, List.find?]
  · unfold explicit_cons
    rw [hchild]
    simp [explicit_of, xml_node.child, xml_node.children, xml_node.name, List.find?]
  · unfold explicit_size
    rw [hchild]
    simp [explicit_of, xml_node.attr, xml_node.attrs, List.find?]

theorem extra_elem_reads (ev : env) (hw : Option String) (N : Nat)
    (nodes : List utils_node_t) (cs : List xml_node) :
    (extra_elem_of ev hw N nodes cs).name = "partition" ∧
      (extra_elem_of ev hw N nodes cs).attr "name" = some "/extra+structural/" ∧
      explicit_nodes (extra_elem_of ev hw N nodes cs) =
        (spec_residual_nodes nodes N).map (top_node_elem ev hw) ∧
      explicit_cons (extra_elem_of ev hw N nodes cs) = cs ∧
      explicit_size (extra_elem_of ev hw N nodes cs) =
        some (fmt_u (spec_residual_nodes nodes N).length) := by
  have h := explicit_of_reads (fmt_u (spec_residual_nodes nodes N).length)
    ((spec_residual_nodes nodes N).map (top_node_elem ev hw)) cs
    (xml_node.mk "partition" none [("name", "/extra+structural/")] []) (Or.inl rfl)
  have he : append_children (xml_node.mk "partition" none [("name", "/extra+structural/")] [])
      [explicit_of (fmt_u (spec_residual_nodes nodes N).length)
        ((spec_residual_nodes nodes N).map (top_node_elem ev hw)) cs] =
      extra_elem_of ev hw N nodes cs := rfl
  rw [he] at h
  exact ⟨rfl, by simp [extra_elem_of, xml_node.attr, xml_node.attrs, List.find?], h⟩

theorem partition_elem_reads (ev : env) (hw : Option String) (nodes : List utils_node_t)
    (p : Nat) (q : utils_partition_t) (el : xml_node)
    (h : partition_elem ev hw nodes p q = some el) :
    el.name = "partition" ∧
      el.attr "name" = (if 0 < q.name.length then some q.name else none) ∧
      explicit_nodes el = (spec_member_nodes nodes p).map (top_node_elem ev hw) ∧
      List.Forall₂ (connexion_of ev nodes) (spec_inner_member_edges nodes p)
        (explicit_cons el) ∧
      explicit_size el = some (fmt_u (spec_member_nodes nodes p).length) := by
  obtain ⟨base, cs, hb, hcs, rfl⟩ := (partition_elem_spec ev hw nodes p q el).1 h
  obtain ⟨hn, ha, hc⟩ := partition_head_shape ev q base hb
  obtain ⟨h1, h2, h3⟩ := explicit_of_reads (fmt_u (spec_member_nodes nodes p).length)
    ((spec_member_nodes nodes p).map (top_node_elem ev hw)) cs base hc
  refine ⟨hn, ?_, h1, ?_, h3⟩
  · simp only [xml_node.attr, attrs_append_children, ha]
    split <;> simp [List.find?]
  · unfold member_explicit_of
    rw [h2]
    exact hcs

theorem forall₂_enumFrom_get {α β : Type} {R : Nat × α → β → Prop} (qs : List α) :
    ∀ (k : Nat) (els : List β), List.Forall₂ R (qs.enumFrom k) els →
      ∀ i q, qs[i]? = some q → ∃ el, els[i]? = some el ∧ R (k + i, q) el := by
  induction qs with
  | nil => intro k els _ i q hq; simp at hq
  | cons a rest ih =>
    intro k els h i q hq
    rw [List.enumFrom_cons] at h
    cases h with
    | cons h1 h2 =>
      cases i with
      | zero =>
        simp only [List.getElem?_cons_zero, Option.some.injEq] at hq
        subst hq
        exact ⟨_, List.getElem?_cons_zero, h1⟩
      | succ j =>
        simp only [List.getElem?_cons_succ] at hq
        obtain ⟨el, hel, hr⟩ := ih (k + 1) _ h2 j q hq
        refine ⟨el, by simpa using hel, ?_⟩
        have : k + (j + 1) = k + 1 + j := by omega
        rw [this]
        exact hr

theorem forall₂_enumFrom_mem {α β : Type} {R : Nat × α → β → Prop} (qs : List α)
    (k : Nat) (els : List β) (h : List.Forall₂ R (qs.enumFrom k) els) :
    ∀ el ∈ els, ∃ i q, qs[i]? = some q ∧ R (k + i, q) el := by
  intro el hel
  obtain ⟨iq, hiq, hr⟩ := forall₂_right_mem h el hel
  obtain ⟨i, q⟩ := iq
  have hm := List.mk_mem_enumFrom_iff_le_and_getElem?_sub.1 hiq
  refine ⟨i - k, q, hm.2, ?_⟩
  have : k + (i - k) = i := by omega
  rw [this]
  exact hr

theorem doc_partitions_document_of (ev : env) (nodes : List utils_node_t)
    (partitions : List utils_partition_t) (subnet : Option String) (path : String)
    (hwlocpath : Option String) (transportType : netloc_network_type_t)
    (els cs : List xml_node) (hels : ∀ el ∈ els, el.name = "partition") :
    doc_partitions
        (document_of ev nodes partitions subnet path hwlocpath transportType els cs) =
      els ++ extra_list_of ev (full_hwloc_path path hwlocpath) partitions.length nodes cs := by
  have hroot : (document_root ev path hwlocpath).children = [] ∨
      (document_root ev path hwlocpath).children =
        [xml_node_new_text "hwloc_path" hwlocpath] := by
    unfold document_root
    dsimp only
    split
    · split
      · right; rfl
      · left; rfl
    · left; rfl
  have hnet : (network_head ev subnet transportType).name = "network" ∧
      ((network_head ev subnet transportType).children = [] ∨
        ∃ s, (network_head ev subnet transportType).children =
          [xml_node_new_text "subnet" (some s)]) := by
    unfold network_head
    dsimp only
    split
    · split
      · exact ⟨rfl, Or.inr ⟨_, rfl⟩⟩
      · exact ⟨rfl, Or.inl rfl⟩
    · exact ⟨rfl, Or.inl rfl⟩
  have hchild : (document_of ev nodes partitions subnet path hwlocpath transportType els
      cs).child "network" = some (append_children (network_head ev subnet transportType)
        (els ++ extra_list_of ev (full_hwloc_path path hwlocpath) partitions.length nodes
          cs)) := by
    unfold document_of
    apply child_append_last
    · rcases hroot with hr | hr
      · simp [hr]
      · intro x hx
        rw [hr, List.mem_singleton] at hx
        rw [hx]
        show ("hwloc_path" == "network") = false
        decide
    · exact hnet.1
  have hextra : ∀ el ∈ extra_list_of ev (full_hwloc_path path hwlocpath) partitions.length
      nodes cs, el.name = "partition" := by
    intro el hel
    unfold extra_list_of at hel
    split at hel
    · simp at hel
    · simp only [List.mem_singleton] at hel
      rw [hel]
      rfl
  have hall : ∀ el ∈ els ++ extra_list_of ev (full_hwloc_path path hwlocpath)
      partitions.length nodes cs, (el.name == "partition") = true := by
    intro el hel
    rcases List.mem_append.1 hel with h | h
    · simp [hels el h]
    · simp [hextra el h]
  have hhead : List.filter (fun c => c.name == "partition")
      (network_head ev subnet transportType).children = [] := by
    rcases hnet.2 with hn | ⟨s, hn⟩
    · rw [hn]; rfl
    · rw [hn]
      have : ((xml_node_new_text "subnet" (some s)).name == "partition") = false := by
        show ("subnet" == "partition") = false
        decide
      simp [List.filter, this]
  unfold doc_partitions
  rw [hchild]
  simp only [xml_node.children_named, children_append_children]
  rw [List.filter_append, hhead, List.filter_eq_self.2 hall, List.nil_append]

theorem document_partitions_spec (ev : env) (nodes : List utils_node_t)
    (partitions : List utils_partition_t) (subnet : Option String) (path : String)
    (hwlocpath : Option String) (transportType : netloc_network_type_t) (doc : xml_node)
    (h : build_document ev nodes partitions subnet path hwlocpath transportType = some doc) :
    ∃ els cs,
      List.Forall₂ (partition_of ev (full_hwloc_path path hwlocpath) nodes)
        (partitions.enumFrom 0) els ∧
      List.Forall₂ (connexion_of ev nodes) (spec_residual_edges nodes partitions.length)
        cs ∧
      els.length = partitions.length ∧
      doc_partitions doc =
        els ++ extra_list_of ev (full_hwloc_path path hwlocpath) partitions.length nodes cs := by
  obtain ⟨els, cs, hels, hcs, rfl⟩ := (build_document_spec ev nodes partitions subnet path
    hwlocpath transportType doc).1 h
  refine ⟨els, cs, hels, hcs, ?_, ?_⟩
  · have := hels.length_eq
    simp only [List.enumFrom_length] at this
    exact this.symm
  · apply doc_partitions_document_of
    intro el hel
    obtain ⟨i, q, _, hr⟩ := forall₂_enumFrom_mem partitions 0 els hels el hel
    exact (partition_elem_reads ev _ nodes _ q el hr).1

theorem declared_partition_at (ev : env) (nodes : List utils_node_t)
    (partitions : List utils_partition_t) (subnet : Option String) (path : String)
    (hwlocpath : Option String) (transportType : netloc_network_type_t) (doc : xml_node)
    (h : build_document ev nodes partitions subnet path hwlocpath transportType = some doc)
    (i : Nat) (q : utils_partition_t) (hq : partitions[i]? = some q) :
    ∃ el, (doc_partitions doc)[i]? = some el ∧
      partition_elem ev (full_hwloc_path path hwlocpath) nodes i q = some el := by
  obtain ⟨els, cs, hels, _, hlen, hdoc⟩ := document_partitions_spec ev nodes partitions
    subnet path hwlocpath transportType doc h
  obtain ⟨el, hel, hr⟩ := forall₂_enumFrom_get partitions 0 els hels i q hq
  refine ⟨el, ?_, ?_⟩
  · rw [hdoc, List.getElem?_append_left, hel]
    rw [hlen]
    exact (List.getElem?_eq_some.1 hq).1
  · rw [Nat.zero_add] at hr
    exact hr

theorem residual_empty_iff (ev : env) (hw : Option String) (N : Nat)
    (nodes : List utils_node_t) (cs : List xml_node)
    (hcs : List.Forall₂ (connexion_of ev nodes) (spec_residual_edges nodes N) cs) :
    (extra_list_of ev hw N nodes cs = [] ↔
        spec_residual_nodes nodes N = [] ∧ spec_residual_edges nodes N = []) ∧
      (extra_list_of ev hw N nodes cs = [] ∨
        extra_list_of ev hw N nodes cs = [extra_elem_of ev hw N nodes cs]) := by
  have hl := hcs.length_eq
  unfold extra_list_of
  by_cases hc : ((spec_residual_nodes nodes N).isEmpty && cs.isEmpty) = true
  · rw [if_pos hc]
    simp only [Bool.and_eq_true, List.isEmpty_iff] at hc
    refine ⟨⟨fun _ => ⟨hc.1, ?_⟩, fun _ => rfl⟩, Or.inl rfl⟩
    rw [hc.2] at hl
    exact List.length_eq_zero.1 hl
  · rw [if_neg hc]
    refine ⟨⟨fun h => by simp at h, ?_⟩, Or.inr rfl⟩
    rintro ⟨h1, h2⟩
    exfalso
    apply hc
    rw [h2] at hl
    have hcs0 : cs = [] := List.length_eq_zero.1 hl.symm
    simp [h1, hcs0]

/-! ## Claims on links and edges -/

/-- C9: the `link` element of every physical link carries `srcport`, `destport`,
`speed`, `width`, `bandwidth` and `logical_id` taken from that link; it carries
`reverse_logical_id` exactly when `other_link` is set, and then with the `int_id` of
the partner; for every symmetric pair the `logical_id` of either link is the
`reverse_logical_id` of the other. -/
theorem insert_xml_link_carries_pair_ids (ev : env) (links_node : xml_node)
    (link : utils_physical_link_t) :
    (insert_xml_link ev links_node link).children =
        links_node.children ++ [link_elem ev link] ∧
      (link_elem ev link).name = "link" ∧
      (link_elem ev link).attr "srcport" = some (fmt_d link.ports.1) ∧
      (link_elem ev link).attr "destport" = some (fmt_d link.ports.2) ∧
      (link_elem ev link).attr "speed" = some link.speed ∧
      (link_elem ev link).attr "width" = some link.width ∧
      (link_elem ev link).attr "bandwidth" = some (ev.fmt_f link.gbits) ∧
      (link_elem ev link).attr "logical_id" = some (fmt_llu link.int_id) ∧
      (link_elem ev link).attr "reverse_logical_id" =
        link.other_link.map (fun p => fmt_llu (ev.link_at p).int_id) ∧
      (((link_elem ev link).attr "reverse_logical_id").isSome ↔ link.other_link.isSome) ∧
      (∀ pa pb : Nat, (ev.link_at pa).other_link = some pb →
        (ev.link_at pb).other_link = some pa →
        (link_elem ev (ev.link_at pa)).attr "logical_id" =
            (link_elem ev (ev.link_at pb)).attr "reverse_logical_id" ∧
          (link_elem ev (ev.link_at pb)).attr "logical_id" =
            (link_elem ev (ev.link_at pa)).attr "reverse_logical_id") := by
  have hrev : ∀ l : utils_physical_link_t,
      (link_elem ev l).attr "reverse_logical_id" =
        l.other_link.map (fun p => fmt_llu (ev.link_at p).int_id) := by
    intro l
    simp only [xml_node.attr, link_elem_attrs]
    cases l.other_link <;> simp [List.find?]
  have hid : ∀ l : utils_physical_link_t,
      (link_elem ev l).attr "logical_id" = some (fmt_llu l.int_id) := by
    intro l
    simp [xml_node.attr, link_elem_attrs, List.find?]
  refine ⟨rfl, ?_, ?_, ?_, ?_, ?_, ?_, hid link, hrev link, ?_, ?_⟩
  · unfold link_elem
    cases link.other_link <;> rfl
  · simp [xml_node.attr, link_elem_attrs, List.find?]
  · simp [xml_node.attr, link_elem_attrs, List.find?]
  · simp [xml_node.attr, link_elem_attrs, List.find?]
  · simp [xml_node.attr, link_elem_attrs, List.find?]
  · simp [xml_node.attr, link_elem_attrs, List.find?]
  · rw [hrev]
    cases link.other_link <;> simp
  · intro pa pb hab hba
    rw [hid, hid, hrev, hrev, hab, hba]
    exact ⟨rfl, rfl⟩

theorem insert_xml_link_carries_pair_ids_witness :
    (link_elem scenario_env (scenario_env.link_at 1)).attr "logical_id" = some "11" ∧
      (link_elem scenario_env (scenario_env.link_at 2)).attr "reverse_logical_id" =
        some "11" ∧
      (link_elem scenario_env (scenario_env.link_at 1)).attr "logical_id" =
        (link_elem scenario_env (scenario_env.link_at 2)).attr "reverse_logical_id" ∧
      (link_elem scenario_env (scenario_env.link_at 2)).attr "logical_id" =
        (link_elem scenario_env (scenario_env.link_at 1)).attr "reverse_logical_id" :=
  ⟨by decide, by decide,
    (insert_xml_link_carries_pair_ids scenario_env (xml_node_new "links")
      (scenario_env.link_at 1)).2.2.2.2.2.2.2.2.2.2 1 2 (by decide) (by decide)⟩

/-- C10: an edge is rendered in exactly one of two shapes.  A concrete edge whose
indices are all in range gets, after `src` and `dest`, one `links` child holding one
`link` element per entry of `physical_link_idx`, in order, each made from the link at
that index of the source node, `nblinks` of them, and neither `virtual` nor
`subconnexions`.  A virtual edge is rendered exactly when every subedge is, and then
gets `virtual="yes"` and, after `src` and `dest`, one `subconnexions` child whose
`size` is the number of subedges and which holds one nested `connexion` per subedge,
in order, and no `links`. -/
theorem insert_xml_edge_two_shapes (ev : env) (con_node : xml_node) (edge : utils_edge_t)
    (node : utils_node_t) (nodes : List utils_node_t) :
    (ev.edge_is_virtual edge = false →
      (∀ i ∈ edge.physical_link_idx, i < node.physical_links.length) →
      ∃ ls, List.Forall₂ (fun i l => node.physical_links[i]? = some l)
          edge.physical_link_idx ls ∧
        ls.length = edge.physical_link_idx.length ∧
        insert_xml_edge ev con_node edge node nodes =
          some (append_children
            (append_attrs con_node
              [("bandwidth", ev.fmt_f edge.total_gbits),
                ("nblinks", fmt_u edge.physical_link_idx.length)])
            [xml_node_new_text "src" (some node.physical_id),
              xml_node_new_text "dest" (some edge.dest),
              xml_node.mk "links" none [] (ls.map (link_elem ev))])) ∧
      (ev.edge_is_virtual edge = true →
        ∀ r, insert_xml_edge ev con_node edge node nodes = some r ↔
          ∃ cs, List.Forall₂ (subconnexion_of ev node nodes) edge.subedges cs ∧
            cs.length = edge.subedges.length ∧
            (∀ c ∈ cs, c.name = "connexion") ∧
            r = append_children
              (append_attrs con_node
                [("bandwidth", ev.fmt_f edge.total_gbits),
                  ("nblinks", fmt_u edge.physical_link_idx.length), ("virtual", "yes")])
              [xml_node_new_text "src" (some node.physical_id),
                xml_node_new_text "dest" (some edge.dest),
                xml_node.mk "subconnexions" none [("size", fmt_u edge.subedges.length)]
                  cs]) := by
  constructor
  · intro hv hrange
    have hex : ∀ idx : List Nat, (∀ i ∈ idx, i < node.physical_links.length) →
        ∃ ls, List.Forall₂ (fun i l => node.physical_links[i]? = some l) idx ls := by
      intro idx
      induction idx with
      | nil => intro _; exact ⟨[], List.Forall₂.nil⟩
      | cons i rest ih =>
        intro h
        obtain ⟨ls, hls⟩ := ih (fun j hj => h j (List.mem_cons_of_mem _ hj))
        have hi : i < node.physical_links.length := h i (List.mem_cons_self _ _)
        exact ⟨node.physical_links[i] :: ls,
          List.Forall₂.cons (List.getElem?_eq_getElem hi) hls⟩
    obtain ⟨ls, hls⟩ := hex _ hrange
    refine ⟨ls, hls, hls.length_eq.symm, ?_⟩
    rw [insert_xml_edge_unfold, hv]
    have h := (insert_links_spec ev node edge.physical_link_idx (xml_node_new "links")
      (append_children (xml_node_new "links") (ls.map (link_elem ev)))).2 ⟨ls, hls, rfl⟩
    simp only [Bool.false_eq_true, if_false, h, Option.map_some']
    rfl
  · intro hv r
    rw [insert_xml_edge_unfold, hv]
    simp only [if_true, Option.map_eq_some', insert_subedges_spec]
    constructor
    · rintro ⟨sn, ⟨cs, hcs, rfl⟩, rfl⟩
      refine ⟨cs, hcs, hcs.length_eq.symm, ?_, rfl⟩
      intro c hc
      obtain ⟨se, _, rn, _, hse⟩ := forall₂_right_mem hcs c hc
      exact insert_xml_edge_name ev _ se rn nodes c hse
    · rintro ⟨cs, hcs, -, -, rfl⟩
      exact ⟨_, ⟨cs, hcs, rfl⟩, rfl⟩

theorem insert_xml_edge_two_shapes_witness :
    (∃ ls, List.Forall₂ (fun i l => (scenario_H1 none none).physical_links[i]? = some l)
          (scenario_edge12 none).physical_link_idx ls ∧
        ls.length = (scenario_edge12 none).physical_link_idx.length ∧
        insert_xml_edge scenario_env (xml_node_new "connexion") (scenario_edge12 none)
            (scenario_H1 none none) [scenario_H1 none none, scenario_H2 none none] =
          some (append_children
            (append_attrs (xml_node_new "connexion")
              [("bandwidth", scenario_env.fmt_f (scenario_edge12 none).total_gbits),
                ("nblinks", fmt_u (scenario_edge12 none).physical_link_idx.length)])
            [xml_node_new_text "src" (some (scenario_H1 none none).physical_id),
              xml_node_new_text "dest" (some (scenario_edge12 none).dest),
              xml_node.mk "links" none [] (ls.map (link_elem scenario_env))])) ∧
      (∃ cs, List.Forall₂
          (subconnexion_of scenario_env (scenario_H2 none none)
            [scenario_H1 none none, scenario_H2 none none])
          scenario_virtual_edge.subedges cs ∧
        cs.length = scenario_virtual_edge.subedges.length ∧
        (∀ c ∈ cs, c.name = "connexion") ∧
        scenario_virtual_connexion = append_children
          (append_attrs (xml_node_new "connexion")
            [("bandwidth", scenario_env.fmt_f scenario_virtual_edge.total_gbits),
              ("nblinks", fmt_u scenario_virtual_edge.physical_link_idx.length),
              ("virtual", "yes")])
          [xml_node_new_text "src" (some (scenario_H2 none none).physical_id),
            xml_node_new_text "dest" (some scenario_virtual_edge.dest),
            xml_node.mk "subconnexions" none
              [("size", fmt_u scenario_virtual_edge.subedges.length)] cs]) :=
  ⟨(insert_xml_edge_two_shapes scenario_env (xml_node_new "connexion")
      (scenario_edge12 none) (scenario_H1 none none)
      [scenario_H1 none none, scenario_H2 none none]).1 rfl (by decide),
    ((insert_xml_edge_two_shapes scenario_env (xml_node_new "connexion")
      scenario_virtual_edge (scenario_H2 none none)
      [scenario_H1 none none, scenario_H2 none none]).2 rfl
      scenario_virtual_connexion).1 rfl⟩

/-! ## Claims on partitions -/

/-- C1: `insert_extra` completes exactly when every residual edge can be rendered,
and the `/extra+structural/` element it builds holds exactly the residual set:
directly under `nodes` one `node` element for each top-level node whose flag vector
is all false over the `N` partitions or absent, in table order, and directly under
`connexions` one `connexion` element for each edge of a top-level node whose flag
vector is all false or absent, whatever the flags of its source node. -/
theorem insert_extra_holds_residual (ev : env) (network_node : xml_node)
    (hw : Option String) (N : Nat) (nodes : List utils_node_t) :
    ((∃ r, insert_extra ev network_node hw N nodes = some r) ↔
        ∃ cs, List.Forall₂ (connexion_of ev nodes) (spec_residual_edges nodes N) cs) ∧
      (∀ r, insert_extra ev network_node hw N nodes = some r →
        (r = network_node ∧ spec_residual_nodes nodes N = [] ∧
            spec_residual_edges nodes N = []) ∨
          ∃ x, r = append_children network_node [x] ∧
            x.attr "name" = some "/extra+structural/" ∧
            explicit_nodes x = (spec_residual_nodes nodes N).map (top_node_elem ev hw) ∧
            List.Forall₂ (connexion_of ev nodes) (spec_residual_edges nodes N)
              (explicit_cons x) ∧
            (explicit_nodes x).length = (spec_residual_nodes nodes N).length ∧
            (explicit_cons x).length = (spec_residual_edges nodes N).length) ∧
      (∀ n ∈ nodes, (n ∈ spec_residual_nodes nodes N ↔
        (n.partitions = none ∨ ∀ p, p < N → spec_flag n.partitions p = false))) ∧
      (∀ n ∈ nodes, ∀ e ∈ n.edges,
        ((n, e) ∈ spec_residual_edges nodes N ↔
          (e.partitions = none ∨ ∀ p, p < N → spec_flag e.partitions p = false))) := by
  have hflag : ∀ flags : Option (List Int), spec_unflagged flags N = true ↔
      (flags = none ∨ ∀ p, p < N → spec_flag flags p = false) := by
    intro flags
    rw [unflagged_iff]
    constructor
    · intro h; exact Or.inr h
    · rintro (h | h)
      · intro p _; rw [h]; rfl
      · exact h
  refine ⟨?_, ?_, ?_, ?_⟩
  · constructor
    · rintro ⟨r, hr⟩
      obtain ⟨cs, hcs, _⟩ := (insert_extra_spec ev network_node hw N nodes r).1 hr
      exact ⟨cs, hcs⟩
    · rintro ⟨cs, hcs⟩
      exact ⟨_, (insert_extra_spec ev network_node hw N nodes _).2 ⟨cs, hcs, rfl⟩⟩
  · intro r hr
    obtain ⟨cs, hcs, rfl⟩ := (insert_extra_spec ev network_node hw N nodes r).1 hr
    by_cases hc : ((spec_residual_nodes nodes N).isEmpty && cs.isEmpty) = true
    · left
      rw [if_pos hc]
      simp only [Bool.and_eq_true, List.isEmpty_iff] at hc
      refine ⟨rfl, hc.1, ?_⟩
      have hl := hcs.length_eq
      rw [hc.2] at hl
      exact List.length_eq_zero.1 hl
    · right
      rw [if_neg hc]
      obtain ⟨_, h2, h3, h4, _⟩ := extra_elem_reads ev hw N nodes cs
      refine ⟨_, rfl, h2, h3, ?_, ?_, ?_⟩
      · rw [h4]; exact hcs
      · rw [h3, List.length_map]
      · rw [h4]; exact hcs.length_eq.symm
  · intro n hn
    simp only [spec_residual_nodes, List.mem_filter, hn, true_and]
    exact hflag _
  · intro n hn e he
    simp only [spec_residual_edges, List.mem_flatMap, List.mem_map, List.mem_filter,
      Prod.mk.injEq]
    constructor
    · rintro ⟨n2, _, e2, ⟨_, hu⟩, _, rfl⟩
      exact (hflag _).1 hu
    · intro h
      exact ⟨n, hn, e, ⟨he, (hflag _).2 h⟩, rfl, rfl⟩

theorem insert_extra_holds_residual_witness :
    ((scenario_plain_network = xml_node_new "network" ∧
          spec_residual_nodes scenario_plain_nodes 0 = [] ∧
          spec_residual_edges scenario_plain_nodes 0 = []) ∨
        ∃ x, scenario_plain_network = append_children (xml_node_new "network") [x] ∧
          x.attr "name" = some "/extra+structural/" ∧
          explicit_nodes x =
            (spec_residual_nodes scenario_plain_nodes 0).map
              (top_node_elem scenario_env none) ∧
          List.Forall₂ (connexion_of scenario_env scenario_plain_nodes)
            (spec_residual_edges scenario_plain_nodes 0) (explicit_cons x) ∧
          (explicit_nodes x).length = (spec_residual_nodes scenario_plain_nodes 0).length ∧
          (explicit_cons x).length = (spec_residual_edges scenario_plain_nodes 0).length) ∧
      scenario_plain_network.children.map
          (fun x => (x.attr "name", explicit_size x, (explicit_nodes x).length,
            (explicit_cons x).map (fun c => c.children.map
              (fun l => l.children.map
                (fun k => (k.attr "logical_id", k.attr "reverse_logical_id")))))) =
        [(some "/extra+structural/", some "2", 2,
          [[[], [], [(some "11", some "12")]], [[], [], [(some "12", some "11")]]])] :=
  ⟨(insert_extra_holds_residual scenario_env (xml_node_new "network") none 0
    scenario_plain_nodes).2.1 scenario_plain_network rfl, by rfl⟩

/-- C2, as the claim states it, fails: with H2 and both edges flagged for partition
`P` and H1 not flagged, the document lists one connexion under `P` while two edges
have the flag of `P` set. -/
theorem declared_partition_misses_edges_of_outsiders :
    build_document scenario_env scenario_split_nodes scenario_partitions (some "fe80") "out"
        none 0 = some scenario_split_doc ∧
      (doc_partitions scenario_split_doc)[0]?.map (fun e => (explicit_cons e).length) =
        some 1 ∧
      (spec_member_edges scenario_split_nodes 0).length = 2 ∧
      ¬ (∃ el, (doc_partitions scenario_split_doc)[0]? = some el ∧
        (explicit_cons el).length = (spec_member_edges scenario_split_nodes 0).length) := by
  have h0 : (doc_partitions scenario_split_doc)[0]?.map (fun e => (explicit_cons e).length) =
      some 1 := by rfl
  have h1 : (spec_member_edges scenario_split_nodes 0).length = 2 := by rfl
  refine ⟨rfl, h0, h1, ?_⟩
  rintro ⟨el, hel, hlen⟩
  rw [hel] at h0
  rw [h1] at hlen
  simp only [Option.map_some', Option.some.injEq] at h0
  omega

/-- C2, amended: for every declared partition `p` the `explicit` section lists one
`node` element for every top-level node whose flag `p` is set, and one `connexion`
element for every edge with flag `p` set whose source node has flag `p` set as well,
so that the counts in the document are the number of member nodes and the number of
member edges that leave a member node. -/
theorem declared_partition_lists_inner_members (ev : env) (nodes : List utils_node_t)
    (partitions : List utils_partition_t) (subnet : Option String) (path : String)
    (hwlocpath : Option String) (transportType : netloc_network_type_t) (doc : xml_node)
    (h : build_document ev nodes partitions subnet path hwlocpath transportType = some doc) :
    ∀ i q, partitions[i]? = some q →
      ∃ el, (doc_partitions doc)[i]? = some el ∧
        explicit_nodes el = (spec_member_nodes nodes i).map
          (top_node_elem ev (full_hwloc_path path hwlocpath)) ∧
        List.Forall₂ (connexion_of ev nodes) (spec_inner_member_edges nodes i)
          (explicit_cons el) ∧
        (explicit_nodes el).length = (spec_member_nodes nodes i).length ∧
        (explicit_cons el).length = (spec_inner_member_edges nodes i).length := by
  intro i q hq
  obtain ⟨el, hel, hr⟩ := declared_partition_at ev nodes partitions subnet path hwlocpath
    transportType doc h i q hq
  obtain ⟨_, _, h3, h4, _⟩ := partition_elem_reads ev _ nodes i q el hr
  refine ⟨el, hel, h3, h4, ?_, h4.length_eq.symm⟩
  rw [h3, List.length_map]

theorem declared_partition_lists_inner_members_witness :
    ∃ el, (doc_partitions scenario_split_doc)[0]? = some el ∧
      explicit_nodes el = (spec_member_nodes scenario_split_nodes 0).map
        (top_node_elem scenario_env (full_hwloc_path "out" none)) ∧
      List.Forall₂ (connexion_of scenario_env scenario_split_nodes)
        (spec_inner_member_edges scenario_split_nodes 0) (explicit_cons el) ∧
      (explicit_nodes el).length = (spec_member_nodes scenario_split_nodes 0).length ∧
      (explicit_cons el).length = (spec_inner_member_edges scenario_split_nodes 0).length :=
  declared_partition_lists_inner_members scenario_env scenario_split_nodes
    scenario_partitions (some "fe80") "out" none 0 scenario_split_doc rfl 0
    { name := "P", arch := none } rfl

/-- C3: in a completed document the `nodes` of declared partition `i` hold, in table
order, exactly the top-level nodes whose flag `i` is set, and the `nodes` of
`/extra+structural/` hold exactly the top-level nodes none of whose `N` flags is set
(or without flag vector); that element exists whenever there is such a node.  Hence a
node is residual exactly when it is a member of no declared partition, and every
top-level node is residual or a member of some declared partition. -/
theorem node_rendered_where_flagged (ev : env) (nodes : List utils_node_t)
    (partitions : List utils_partition_t) (subnet : Option String) (path : String)
    (hwlocpath : Option String) (transportType : netloc_network_type_t) (doc : xml_node)
    (h : build_document ev nodes partitions subnet path hwlocpath transportType = some doc) :
    (∀ i q, partitions[i]? = some q →
        ∃ el, (doc_partitions doc)[i]? = some el ∧
          explicit_nodes el =
            (nodes.filter (fun n => spec_flag n.partitions i)).map
              (top_node_elem ev (full_hwloc_path path hwlocpath))) ∧
      (∀ el, (doc_partitions doc)[partitions.length]? = some el →
        el.attr "name" = some "/extra+structural/" ∧
          explicit_nodes el =
            (nodes.filter (fun n => spec_unflagged n.partitions partitions.length)).map
              (top_node_elem ev (full_hwloc_path path hwlocpath))) ∧
      (nodes.filter (fun n => spec_unflagged n.partitions partitions.length) ≠ [] →
        ∃ el, (doc_partitions doc)[partitions.length]? = some el) ∧
      (doc_partitions doc).length ≤ partitions.length + 1 ∧
      (∀ n ∈ nodes,
        (spec_unflagged n.partitions partitions.length = true ↔
          ∀ i, i < partitions.length → spec_flag n.partitions i = false) ∧
        (spec_unflagged n.partitions partitions.length = true ∨
          ∃ i, i < partitions.length ∧ spec_flag n.partitions i = true)) := by
  obtain ⟨els, cs, hels, hcs, hlen, hdoc⟩ := document_partitions_spec ev nodes partitions
    subnet path hwlocpath transportType doc h
  obtain ⟨hiff, hor⟩ := residual_empty_iff ev (full_hwloc_path path hwlocpath)
    partitions.length nodes cs hcs
  refine ⟨?_, ?_, ?_, ?_, ?_⟩
  · intro i q hq
    obtain ⟨el, hel, hr⟩ := declared_partition_at ev nodes partitions subnet path hwlocpath
      transportType doc h i q hq
    exact ⟨el, hel, (partition_elem_reads ev _ nodes i q el hr).2.2.1⟩
  · intro el hel
    rw [hdoc, List.getElem?_append_right (by omega), hlen, Nat.sub_self] at hel
    rcases hor with he | he
    · rw [he] at hel; simp at hel
    · rw [he] at hel
      simp only [List.getElem?_cons_zero, Option.some.injEq] at hel
      subst hel
      obtain ⟨_, h2, h3, _, _⟩ := extra_elem_reads ev (full_hwloc_path path hwlocpath)
        partitions.length nodes cs
      exact ⟨h2, h3⟩
  · intro hne
    rcases hor with he | he
    · exact absurd (hiff.1 he).1 hne
    · refine ⟨extra_elem_of ev (full_hwloc_path path hwlocpath) partitions.length nodes cs,
        ?_⟩
      rw [hdoc, List.getElem?_append_right (by omega), hlen, Nat.sub_self, he]
      rfl
  · rw [hdoc, List.length_append, hlen]
    rcases hor with he | he <;> simp [he]
  · intro n _
    refine ⟨unflagged_iff _ _, ?_⟩
    cases hu : spec_unflagged n.partitions partitions.length with
    | true => exact Or.inl rfl
    | false =>
      right
      by_contra hno
      have : spec_unflagged n.partitions partitions.length = true := by
        rw [unflagged_iff]
        intro p hp
        cases hf : spec_flag n.partitions p with
        | false => rfl
        | true => exact absurd ⟨p, hp, hf⟩ hno
      rw [hu] at this
      cases this

theorem node_rendered_where_flagged_witness :
    ∃ el, (doc_partitions scenario_split_doc)[0]? = some el ∧
      explicit_nodes el =
        (scenario_split_nodes.filter (fun n => spec_flag n.partitions 0)).map
          (top_node_elem scenario_env (full_hwloc_path "out" none)) :=
  (node_rendered_where_flagged scenario_env scenario_split_nodes scenario_partitions
    (some "fe80") "out" none 0 scenario_split_doc rfl).1 0 { name := "P", arch := none } rfl

/-- C4: `insert_extra` hooks the `/extra+structural/` element under the network
element when at least one top-level node or at least one edge of a top-level node has
an all-false or absent flag vector, and leaves the network element untouched
otherwise; a completed document then has one `partition` element per declared
partition and nothing else, so that `/extra+structural/` can only be the name of a
declared partition. -/
theorem insert_extra_attached_iff_residual (ev : env) (network_node : xml_node)
    (hw : Option String) (nodes : List utils_node_t)
    (partitions : List utils_partition_t) (subnet : Option String) (path : String)
    (hwlocpath : Option String) (transportType : netloc_network_type_t) :
    (∀ N r, insert_extra ev network_node hw N nodes = some r →
        ((spec_residual_nodes nodes N = [] ∧ spec_residual_edges nodes N = []) →
          r = network_node) ∧
        (¬ (spec_residual_nodes nodes N = [] ∧ spec_residual_edges nodes N = []) →
          ∃ x, r = append_children network_node [x] ∧ x.name = "partition" ∧
            x.attr "name" = some "/extra+structural/")) ∧
      (∀ doc,
        build_document ev nodes partitions subnet path hwlocpath transportType = some doc →
        ((spec_residual_nodes nodes partitions.length = [] ∧
            spec_residual_edges nodes partitions.length = []) →
          (doc_partitions doc).length = partitions.length ∧
            ∀ el ∈ doc_partitions doc, el.attr "name" = some "/extra+structural/" →
              ∃ q ∈ partitions, q.name = "/extra+structural/") ∧
        (¬ (spec_residual_nodes nodes partitions.length = [] ∧
            spec_residual_edges nodes partitions.length = []) →
          (doc_partitions doc).length = partitions.length + 1 ∧
            ∃ x, (doc_partitions doc)[partitions.length]? = some x ∧
              x.attr "name" = some "/extra+structural/")) := by
  constructor
  · intro N r hr
    obtain ⟨cs, hcs, rfl⟩ := (insert_extra_spec ev network_node hw N nodes r).1 hr
    obtain ⟨hiff, hor⟩ := residual_empty_iff ev hw N nodes cs hcs
    unfold extra_list_of at hiff
    constructor
    · intro hemp
      have := hiff.2 hemp
      split at this
      · rename_i hc
        rw [if_pos hc]
      · simp at this
    · intro hne
      by_cases hc : ((spec_residual_nodes nodes N).isEmpty && cs.isEmpty) = true
      · rw [if_pos hc] at hiff
        exact absurd (hiff.1 rfl) hne
      · rw [if_neg hc]
        obtain ⟨h1, h2, _⟩ := extra_elem_reads ev hw N nodes cs
        exact ⟨_, rfl, h1, h2⟩
  · intro doc h
    obtain ⟨els, cs, hels, hcs, hlen, hdoc⟩ := document_partitions_spec ev nodes partitions
      subnet path hwlocpath transportType doc h
    obtain ⟨hiff, hor⟩ := residual_empty_iff ev (full_hwloc_path path hwlocpath)
      partitions.length nodes cs hcs
    constructor
    · intro hemp
      rw [hdoc, hiff.2 hemp, List.append_nil]
      refine ⟨hlen, ?_⟩
      intro el hel hname
      obtain ⟨i, q, hq, hr⟩ := forall₂_enumFrom_mem partitions 0 els hels el hel
      have hattr := (partition_elem_reads ev _ nodes _ q el hr).2.1
      rw [hname] at hattr
      split at hattr
      · exact ⟨q, List.getElem?_mem hq, (Option.some.inj hattr).symm⟩
      · cases hattr
    · intro hne
      rcases hor with he | he
      · exact absurd (hiff.1 he) hne
      · rw [hdoc, he]
        refine ⟨by simp [hlen],
          extra_elem_of ev (full_hwloc_path path hwlocpath) partitions.length nodes cs, ?_,
          (extra_elem_reads ev _ _ nodes cs).2.1⟩
        rw [List.getElem?_append_right (by omega), hlen, Nat.sub_self]
        rfl

theorem insert_extra_attached_iff_residual_witness :
    ∃ x, scenario_plain_network = append_children (xml_node_new "network") [x] ∧
      x.name = "partition" ∧ x.attr "name" = some "/extra+structural/" :=
  ((insert_extra_attached_iff_residual scenario_env (xml_node_new "network") none
    scenario_plain_nodes [] none "out" none 0).1 0 scenario_plain_network rfl).2
    (by
      intro h
      have h2 : (spec_residual_nodes scenario_plain_nodes 0).length = 2 := by rfl
      rw [h.1] at h2
      cases h2)

/-- C5: the document is built exactly when every declared partition and every
residual connexion can be rendered, and then the `partition` children of the
`network` element are one element per declared partition, in declaration order, each
with the partition's name in `name` when that name is non-empty, followed by the
`/extra+structural/` element as last child exactly when the residual set is not
empty. -/
theorem partitions_in_declaration_order (ev : env) (nodes : List utils_node_t)
    (partitions : List utils_partition_t) (subnet : Option String) (path : String)
    (hwlocpath : Option String) (transportType : netloc_network_type_t) :
    ((∃ doc, build_document ev nodes partitions subnet path hwlocpath transportType =
          some doc) ↔
        ((∃ els, List.Forall₂ (partition_of ev (full_hwloc_path path hwlocpath) nodes)
            (partitions.enumFrom 0) els) ∧
          ∃ cs, List.Forall₂ (connexion_of ev nodes)
            (spec_residual_edges nodes partitions.length) cs)) ∧
      (∀ doc,
        build_document ev nodes partitions subnet path hwlocpath transportType = some doc →
        ∃ els extra, doc_partitions doc = els ++ extra ∧
          els.length = partitions.length ∧
          (∀ i q, partitions[i]? = some q →
            ∃ el, els[i]? = some el ∧ el.name = "partition" ∧
              partition_elem ev (full_hwloc_path path hwlocpath) nodes i q = some el ∧
              (0 < q.name.length → el.attr "name" = some q.name)) ∧
          ((spec_residual_nodes nodes partitions.length = [] ∧
              spec_residual_edges nodes partitions.length = []) → extra = []) ∧
          (¬ (spec_residual_nodes nodes partitions.length = [] ∧
              spec_residual_edges nodes partitions.length = []) →
            ∃ x, extra = [x] ∧ x.attr "name" = some "/extra+structural/" ∧
              (doc_partitions doc).getLast? = some x)) := by
  constructor
  · constructor
    · rintro ⟨doc, h⟩
      obtain ⟨els, cs, hels, hcs, _⟩ := (build_document_spec ev nodes partitions subnet path
        hwlocpath transportType doc).1 h
      exact ⟨⟨els, hels⟩, ⟨cs, hcs⟩⟩
    · rintro ⟨⟨els, hels⟩, ⟨cs, hcs⟩⟩
      exact ⟨_, (build_document_spec ev nodes partitions subnet path hwlocpath
        transportType _).2 ⟨els, cs, hels, hcs, rfl⟩⟩
  · intro doc h
    obtain ⟨els, cs, hels, hcs, hlen, hdoc⟩ := document_partitions_spec ev nodes partitions
      subnet path hwlocpath transportType doc h
    obtain ⟨hiff, hor⟩ := residual_empty_iff ev (full_hwloc_path path hwlocpath)
      partitions.length nodes cs hcs
    refine ⟨els, _, hdoc, hlen, ?_, hiff.2, ?_⟩
    · intro i q hq
      obtain ⟨el, hel, hr⟩ := forall₂_enumFrom_get partitions 0 els hels i q hq
      rw [Nat.zero_add] at hr
      obtain ⟨h1, h2, _⟩ := partition_elem_reads ev _ nodes i q el hr
      refine ⟨el, hel, h1, hr, ?_⟩
      intro hpos
      rw [h2, if_pos hpos]
    · intro hne
      rcases hor with he | he
      · exact absurd (hiff.1 he) hne
      · refine ⟨_, he, (extra_elem_reads ev _ _ nodes cs).2.1, ?_⟩
        rw [hdoc, he, List.getLast?_append]
        rfl

theorem partitions_in_declaration_order_witness :
    ∃ els extra, doc_partitions scenario_split_doc = els ++ extra ∧
      els.length = scenario_partitions.length ∧
      (∀ i q, scenario_partitions[i]? = some q →
        ∃ el, els[i]? = some el ∧ el.name = "partition" ∧
          partition_elem scenario_env (full_hwloc_path "out" none) scenario_split_nodes i q =
            some el ∧
          (0 < q.name.length → el.attr "name" = some q.name)) ∧
      ((spec_residual_nodes scenario_split_nodes scenario_partitions.length = [] ∧
          spec_residual_edges scenario_split_nodes scenario_partitions.length = []) →
        extra = []) ∧
      (¬ (spec_residual_nodes scenario_split_nodes scenario_partitions.length = [] ∧
          spec_residual_edges scenario_split_nodes scenario_partitions.length = []) →
        ∃ x, extra = [x] ∧ x.attr "name" = some "/extra+structural/" ∧
          (doc_partitions scenario_split_doc).getLast? = some x) :=
  (partitions_in_declaration_order scenario_env scenario_split_nodes scenario_partitions
    (some "fe80") "out" none 0).2 scenario_split_doc rfl

/-- C6: in a completed document over a node table of fewer than 2^32 entries, the
`size` attribute of the `explicit` element of every `partition` element, declared or
`/extra+structural/`, is the decimal count of the `node` elements directly under its
`nodes` child; that count is the number of top-level member nodes of the partition
(of residual nodes for `/extra+structural/`), so subnodes and connexions are not
counted. -/
theorem explicit_size_counts_top_nodes (ev : env) (nodes : List utils_node_t)
    (partitions : List utils_partition_t) (subnet : Option String) (path : String)
    (hwlocpath : Option String) (transportType : netloc_network_type_t) (doc : xml_node)
    (h : build_document ev nodes partitions subnet path hwlocpath transportType = some doc)
    (hn : nodes.length < 2 ^ 32) :
    (∀ el ∈ doc_partitions doc,
        explicit_size el = some (toString (explicit_nodes el).length)) ∧
      (∀ i q, partitions[i]? = some q →
        ∃ el, (doc_partitions doc)[i]? = some el ∧
          explicit_size el = some (toString (spec_member_nodes nodes i).length) ∧
          (explicit_nodes el).length = (spec_member_nodes nodes i).length) ∧
      (∀ el, (doc_partitions doc)[partitions.length]? = some el →
        explicit_size el =
            some (toString (spec_residual_nodes nodes partitions.length).length) ∧
          (explicit_nodes el).length =
            (spec_residual_nodes nodes partitions.length).length) := by
  have hfmt : ∀ (f : utils_node_t → Bool), fmt_u (nodes.filter f).length =
      toString (nodes.filter f).length := by
    intro f
    have hle := List.length_filter_le f nodes
    unfold fmt_u
    rw [Nat.mod_eq_of_lt (by omega)]
  obtain ⟨els, cs, hels, hcs, hlen, hdoc⟩ := document_partitions_spec ev nodes partitions
    subnet path hwlocpath transportType doc h
  obtain ⟨_, hor⟩ := residual_empty_iff ev (full_hwloc_path path hwlocpath)
    partitions.length nodes cs hcs
  have hdecl : ∀ i q el, partition_elem ev (full_hwloc_path path hwlocpath) nodes i q =
      some el → explicit_size el = some (toString (spec_member_nodes nodes i).length) ∧
        (explicit_nodes el).length = (spec_member_nodes nodes i).length := by
    intro i q el hr
    obtain ⟨_, _, h3, _, h5⟩ := partition_elem_reads ev _ nodes i q el hr
    refine ⟨?_, by rw [h3, List.length_map]⟩
    rw [h5]
    exact congrArg some (hfmt _)
  have hextra : explicit_size (extra_elem_of ev (full_hwloc_path path hwlocpath)
        partitions.length nodes cs) =
        some (toString (spec_residual_nodes nodes partitions.length).length) ∧
      (explicit_nodes (extra_elem_of ev (full_hwloc_path path hwlocpath)
        partitions.length nodes cs)).length =
        (spec_residual_nodes nodes partitions.length).length := by
    obtain ⟨_, _, h3, _, h5⟩ := extra_elem_reads ev (full_hwloc_path path hwlocpath)
      partitions.length nodes cs
    refine ⟨?_, by rw [h3, List.length_map]⟩
    rw [h5]
    exact congrArg some (hfmt _)
  refine ⟨?_, ?_, ?_⟩
  · intro el hel
    rw [hdoc] at hel
    rcases List.mem_append.1 hel with hm | hm
    · obtain ⟨i, q, _, hr⟩ := forall₂_enumFrom_mem partitions 0 els hels el hm
      obtain ⟨h1, h2⟩ := hdecl _ q el hr
      rw [h1, h2]
    · rcases hor with he | he
      · rw [he] at hm; simp at hm
      · rw [he, List.mem_singleton] at hm
        subst hm
        rw [hextra.1, hextra.2]
  · intro i q hq
    obtain ⟨el, hel, hr⟩ := declared_partition_at ev nodes partitions subnet path hwlocpath
      transportType doc h i q hq
    exact ⟨el, hel, hdecl i q el hr⟩
  · intro el hel
    rw [hdoc, List.getElem?_append_right (by omega), hlen, Nat.sub_self] at hel
    rcases hor with he | he
    · rw [he] at hel; simp at hel
    · rw [he] at hel
      simp only [List.getElem?_cons_zero, Option.some.injEq] at hel
      subst hel
      exact hextra

theorem explicit_size_counts_top_nodes_witness :
    (∀ el ∈ doc_partitions scenario_plain_doc,
        explicit_size el = some (toString (explicit_nodes el).length)) ∧
      (∀ i q, ([] : List utils_partition_t)[i]? = some q →
        ∃ el, (doc_partitions scenario_plain_doc)[i]? = some el ∧
          explicit_size el = some (toString (spec_member_nodes scenario_plain_nodes i).length) ∧
          (explicit_nodes el).length = (spec_member_nodes scenario_plain_nodes i).length) ∧
      (∀ el, (doc_partitions scenario_plain_doc)[([] : List utils_partition_t).length]? =
          some el →
        explicit_size el = some (toString
            (spec_residual_nodes scenario_plain_nodes
              ([] : List utils_partition_t).length).length) ∧
          (explicit_nodes el).length =
            (spec_residual_nodes scenario_plain_nodes
              ([] : List utils_partition_t).length).length) :=
  explicit_size_counts_top_nodes scenario_env scenario_plain_nodes [] (some "fe80") "out"
    none 0 scenario_plain_doc rfl (by decide)

/-! ## The buffer of `insert_arch` -/

theorem wrap_int32_id (x : Int) (h1 : -2 ^ 31 ≤ x) (h2 : x < 2 ^ 31) : wrap_int32 x = x := by
  unfold wrap_int32
  omega

theorem wrap_int32_lt (x : Int) : wrap_int32 x < 2 ^ 31 := by
  unfold wrap_int32
  omega

theorem mem_write_inside (mem : c_mem) (p : Int) (s : List Char) (i : Nat) (c : Char)
    (h : s[i]? = some c) : mem_write mem p s (p + i) = c := by
  have hi : i < s.length := (List.getElem?_eq_some.1 h).1
  unfold mem_write
  rw [if_pos ⟨by omega, by omega⟩]
  have : (p + (i : Int) - p).toNat = i := by omega
  rw [this, List.getD_eq_getElem?_getD, h]
  rfl

theorem mem_write_outside (mem : c_mem) (p : Int) (s : List Char) (a : Int)
    (h : a < p ∨ p + s.length ≤ a) : mem_write mem p s a = mem a := by
  unfold mem_write
  rw [if_neg]
  omega

theorem mem_holds_append (mem : c_mem) (p : Int) (s t : List Char)
    (h1 : mem_holds mem p s) (h2 : mem_holds mem (p + s.length) t) :
    mem_holds mem p (s ++ t) := by
  intro i c hc
  by_cases hi : i < s.length
  · rw [List.getElem?_append_left hi] at hc
    exact h1 i c hc
  · rw [List.getElem?_append_right (by omega)] at hc
    have := h2 (i - s.length) c hc
    have he : p + (s.length : Int) + ((i - s.length : Nat) : Int) = p + (i : Int) := by omega
    rw [he] at this
    exact this

theorem mem_holds_left (mem : c_mem) (p : Int) (s t : List Char)
    (h : mem_holds mem p (s ++ t)) : mem_holds mem p s := by
  intro i c hc
  apply h i c
  rw [List.getElem?_append_left (List.getElem?_eq_some.1 hc).1]
  exact hc

theorem mem_holds_write_self (mem : c_mem) (p : Int) (s t : List Char) :
    mem_holds (mem_write mem p (s ++ t)) p s := by
  intro i c hc
  apply mem_write_inside
  rw [List.getElem?_append_left (List.getElem?_eq_some.1 hc).1]
  exact hc

theorem mem_holds_frame (mem : c_mem) (p q : Int) (w s : List Char)
    (h : mem_holds mem q s) (hd : q + s.length ≤ p ∨ p + w.length ≤ q) :
    mem_holds (mem_write mem p w) q s := by
  intro i c hc
  have hi : i < s.length := (List.getElem?_eq_some.1 hc).1
  rw [mem_write_outside _ _ _ _ (by omega)]
  exact h i c hc

theorem read_cstr_spec (mem : c_mem) (s : List Char) :
    ∀ (p : Int) (fuel : Nat), mem_holds mem p s → (∀ c ∈ s, c ≠ NUL) →
      mem (p + s.length) = NUL → s.length < fuel → read_cstr mem p fuel = some s := by
  induction s with
  | nil =>
    intro p fuel _ _ hn hf
    cases fuel with
    | zero => simp at hf
    | succ f =>
      simp only [List.length_nil, Nat.cast_zero, add_zero] at hn
      simp [read_cstr, hn]
  | cons a rest ih =>
    intro p fuel hh hne hn hf
    cases fuel with
    | zero => simp at hf
    | succ f =>
      have ha : mem p = a := by
        have := hh 0 a List.getElem?_cons_zero
        simpa using this
      have hrest : mem_holds mem (p + 1) rest := by
        intro i c hc
        have := hh (i + 1) c (by simpa using hc)
        have he : p + ((i + 1 : Nat) : Int) = p + 1 + (i : Int) := by push_cast; ring
        rw [he] at this
        exact this
      have hn2 : mem (p + 1 + rest.length) = NUL := by
        have he : p + ((a :: rest).length : Int) = p + 1 + (rest.length : Int) := by
          simp only [List.length_cons]; push_cast; ring
        rw [he] at hn
        exact hn
      have hane : a ≠ NUL := hne a (List.mem_cons_self _ _)
      rw [read_cstr, ha, if_neg hane,
        ih (p + 1) f hrest (fun c hc => hne c (List.mem_cons_of_mem _ hc)) hn2
          (by simp only [List.length_cons] at hf; omega)]
      rfl

theorem digitChar_ne_NUL (d : Nat) (h : d < 10) : Nat.digitChar d ≠ NUL := by
  unfold NUL
  interval_cases d <;> decide

theorem digitChar_ne_space (d : Nat) (h : d < 10) : Nat.digitChar d ≠ ' ' := by
  interval_cases d <;> decide

theorem toDigitsCore_avoids (x : Char) (hx : ∀ d, d < 10 → Nat.digitChar d ≠ x)
    (fuel : Nat) :
    ∀ (n : Nat) (ds : List Char), (∀ c ∈ ds, c ≠ x) →
      ∀ c ∈ Nat.toDigitsCore 10 fuel n ds, c ≠ x := by
  induction fuel with
  | zero => intro n ds h; simpa [Nat.toDigitsCore] using h
  | succ f ih =>
    intro n ds h
    have hd : Nat.digitChar (n % 10) ≠ x := hx _ (Nat.mod_lt _ (by norm_num))
    unfold Nat.toDigitsCore
    dsimp only
    split
    · intro c hc
      rcases List.mem_cons.1 hc with rfl | hc
      · exact hd
      · exact h c hc
    · apply ih
      intro c hc
      rcases List.mem_cons.1 hc with rfl | hc
      · exact hd
      · exact h c hc

theorem fmt_PRId64_avoids (x : Char) (hx : ∀ d, d < 10 → Nat.digitChar d ≠ x)
    (hm : '-' ≠ x) (i : Int) : ∀ c ∈ (fmt_PRId64 i).data, c ≠ x := by
  cases i with
  | ofNat m =>
    show ∀ c ∈ (Nat.repr m).data, c ≠ x
    unfold Nat.repr Nat.toDigits
    simp only [List.asString]
    exact toDigitsCore_avoids x hx _ _ _ (by simp)
  | negSucc m =>
    show ∀ c ∈ ("-" ++ Nat.repr (m + 1)).data, c ≠ x
    unfold Nat.repr Nat.toDigits
    simp only [List.asString, String.data_append, List.mem_append]
    rintro c (hc | hc)
    · simp at hc; rw [hc]; exact hm
    · exact toDigitsCore_avoids x hx _ _ _ (by simp) c hc

theorem fmt_PRId64_ne_NUL (i : Int) : ∀ c ∈ (fmt_PRId64 i).data, c ≠ NUL :=
  fmt_PRId64_avoids NUL digitChar_ne_NUL (by unfold NUL; decide) i

theorem fmt_PRId64_ne_space (i : Int) : ∀ c ∈ (fmt_PRId64 i).data, c ≠ ' ' :=
  fmt_PRId64_avoids ' ' digitChar_ne_space (by decide) i

theorem space_separated_ne_NUL (xs : List Int) : ∀ c ∈ space_separated xs, c ≠ NUL := by
  induction xs with
  | nil => intro c hc; simp [space_separated] at hc
  | cons x rest ih =>
    cases rest with
    | nil => exact fmt_PRId64_ne_NUL x
    | cons y rest2 =>
      intro c hc
      simp only [space_separated, List.mem_append, List.mem_cons] at hc
      rcases hc with hc | rfl | hc
      · exact fmt_PRId64_ne_NUL x c hc
      · unfold NUL; decide
      · exact ih c hc

theorem space_separated_count (xs : List Int) :
    (space_separated xs).count ' ' = xs.length - 1 := by
  have hz : ∀ x : Int, (fmt_PRId64 x).data.count ' ' = 0 := by
    intro x
    rw [List.count_eq_zero]
    intro hmem
    exact fmt_PRId64_ne_space x _ hmem rfl
  induction xs with
  | nil => rfl
  | cons x rest ih =>
    cases rest with
    | nil => simpa [space_separated] using hz x
    | cons y rest2 =>
      simp only [space_separated, List.count_append, List.count_cons_self, hz, ih,
        List.length_cons]
      omega

theorem flatMap_sprintf_text (xs : List Int) (h : xs ≠ []) :
    xs.flatMap sprintf_text = space_separated xs ++ [' '] := by
  induction xs with
  | nil => exact absurd rfl h
  | cons x rest ih =>
    cases rest with
    | nil => simp [sprintf_text, space_separated]
    | cons y rest2 =>
      rw [List.flatMap_cons, ih (by simp)]
      simp [sprintf_text, space_separated]

theorem range_map_getD (xs : List Int) :
    (List.range xs.length).map (fun i => xs.getD i 0) = xs := by
  apply List.ext_getElem
  · simp
  · intro i h1 h2
    simp [List.getD_eq_getElem?_getD, List.getElem?_eq_getElem h2]

theorem dims_bytes_full (tree : netloc_arch_tree_t) :
    dims_bytes tree tree.degrees.length = tree.degrees.flatMap sprintf_text := by
  unfold dims_bytes
  rw [List.flatMap_def, List.flatMap_def]
  conv_rhs => rw [← range_map_getD tree.degrees]
  rw [List.map_map]
  rfl

theorem costs_bytes_full (tree : netloc_arch_tree_t) :
    costs_bytes tree tree.costs.length = tree.costs.flatMap sprintf_text := by
  unfold costs_bytes
  rw [List.flatMap_def, List.flatMap_def]
  conv_rhs => rw [← range_map_getD tree.costs]
  rw [List.map_map]
  rfl

theorem arch_rounds_succ (ev : env) (tree : netloc_arch_tree_t) (k : Nat) :
    arch_rounds ev tree (k + 1) = arch_fill_step tree (arch_rounds ev tree k) k := by
  simp [arch_rounds, List.range_succ, List.foldl_append]

theorem dims_bytes_succ (tree : netloc_arch_tree_t) (k : Nat) :
    dims_bytes tree (k + 1) =
      dims_bytes tree k ++ sprintf_text (tree.degrees.getD k 0) := by
  simp [dims_bytes, List.range_succ, List.flatMap_append]

theorem costs_bytes_succ (tree : netloc_arch_tree_t) (k : Nat) :
    costs_bytes tree (k + 1) =
      costs_bytes tree k ++ sprintf_text (tree.costs.getD k 0) := by
  simp [costs_bytes, List.range_succ, List.flatMap_append]

theorem arch_loop_invariant (ev : env) (tree : netloc_arch_tree_t) :
    ∀ k : Nat, ((dims_bytes tree k).length : Int) ≤ max_degree_list tree →
      ((costs_bytes tree k).length : Int) < 2 ^ 31 →
      (arch_rounds ev tree k).strBuffSize = (dims_bytes tree k).length ∧
        (arch_rounds ev tree k).strBuffSize2 = (costs_bytes tree k).length ∧
        mem_holds (arch_rounds ev tree k).mem 0 (dims_bytes tree k) ∧
        mem_holds (arch_rounds ev tree k).mem (max_degree_list tree + 1)
          (costs_bytes tree k) := by
  intro k
  induction k with
  | zero =>
    intro _ _
    refine ⟨rfl, rfl, ?_, ?_⟩ <;>
      · intro i c hc
        simp [dims_bytes, costs_bytes] at hc
  | succ k ih =>
    intro hD hC
    rw [dims_bytes_succ] at hD ⊢
    rw [costs_bytes_succ] at hC ⊢
    rw [List.length_append] at hD hC
    push_cast at hD hC
    obtain ⟨hs, hs2, hmd, hmc⟩ := ih (by omega) (by omega)
    have hmdl := wrap_int32_lt
      ((arch_max_loop tree).max_degree * snprintf_len (arch_max_loop tree).max_degree)
    have hmdl2 : max_degree_list tree < 2 ^ 31 := hmdl
    rw [arch_rounds_succ]
    unfold arch_fill_step
    dsimp only
    rw [hs, hs2]
    refine ⟨?_, ?_, ?_, ?_⟩
    · rw [wrap_int32_id _ (by omega) (by omega), List.length_append]
      push_cast
      rfl
    · rw [wrap_int32_id _ (by omega) (by omega), List.length_append]
      push_cast
      rfl
    · apply mem_holds_frame
      · apply mem_holds_append
        · apply mem_holds_frame _ _ _ _ _ hmd
          left
          omega
        · rw [zero_add]
          exact mem_holds_write_self _ _ _ _
      · left
        rw [List.length_append]
        push_cast
        omega
    · apply mem_holds_append
      · apply mem_holds_frame
        · apply mem_holds_frame _ _ _ _ _ hmc
          right
          rw [List.length_append]
          simp only [List.length_singleton]
          push_cast
          omega
        · left
          omega
      · have he : max_degree_list tree + 1 + ((costs_bytes tree k).length : Int) =
            max_degree_list tree + ((costs_bytes tree k).length : Int) + 1 := by ring
        rw [he]
        exact mem_holds_write_self _ _ _ _

theorem arch_fill_reads (ev : env) (tree : netloc_arch_tree_t)
    (hlev : 1 ≤ tree.num_levels)
    (hd : tree.degrees.length = tree.num_levels.toNat)
    (hc : tree.costs.length = tree.num_levels.toNat)
    (hfitd : (list_text_length tree.degrees : Int) ≤ max_degree_list tree)
    (hfitc : (list_text_length tree.costs : Int) + 1 ≤ max_cost_list tree)
    (hsize : max_degree_list tree + max_cost_list tree + 1 < 2 ^ 31) :
    read_cstr (arch_fill ev tree).mem 0 (arch_fill ev tree).strBuffSize.toNat =
        some (space_separated tree.degrees) ∧
      read_cstr (arch_fill ev tree).mem (max_degree_list tree + 1)
          (arch_fill ev tree).strBuffSize2.toNat =
        some (space_separated tree.costs) := by
  have hn : 1 ≤ tree.num_levels.toNat := by omega
  have hdne : tree.degrees ≠ [] := by
    intro h; rw [h] at hd; simp at hd; omega
  have hcne : tree.costs ≠ [] := by
    intro h; rw [h] at hc; simp at hc; omega
  have hdb : dims_bytes tree tree.num_levels.toNat = space_separated tree.degrees ++ [' '] := by
    rw [← hd, dims_bytes_full, flatMap_sprintf_text _ hdne]
  have hcb : costs_bytes tree tree.num_levels.toNat = space_separated tree.costs ++ [' '] := by
    rw [← hc, costs_bytes_full, flatMap_sprintf_text _ hcne]
  have hld : list_text_length tree.degrees = (space_separated tree.degrees).length + 1 := by
    rw [list_text_length, flatMap_sprintf_text _ hdne]; simp
  have hlc : list_text_length tree.costs = (space_separated tree.costs).length + 1 := by
    rw [list_text_length, flatMap_sprintf_text _ hcne]; simp
  rw [hld] at hfitd
  rw [hlc] at hfitc
  push_cast at hfitd hfitc
  have hmcl : max_cost_list tree < 2 ^ 31 := wrap_int32_lt _
  obtain ⟨hs, hs2, hmd, hmc⟩ := arch_loop_invariant ev tree tree.num_levels.toNat
    (by rw [hdb]; simp only [List.length_append, List.length_singleton]; push_cast; omega)
    (by rw [hcb]; simp only [List.length_append, List.length_singleton]; push_cast; omega)
  rw [hdb] at hs hmd
  rw [hcb] at hs2 hmc
  simp only [List.length_append, List.length_singleton] at hs hs2
  push_cast at hs hs2
  have hfill : arch_fill ev tree =
      { mem := mem_write
          (mem_write (arch_rounds ev tree tree.num_levels.toNat).mem
            ((arch_rounds ev tree tree.num_levels.toNat).strBuffSize - 1) [NUL])
          (wrap_int32 (max_degree_list tree +
            (arch_rounds ev tree tree.num_levels.toNat).strBuffSize2)) [NUL],
        strBuffSize := (arch_rounds ev tree tree.num_levels.toNat).strBuffSize,
        strBuffSize2 := (arch_rounds ev tree tree.num_levels.toNat).strBuffSize2,
        stores := (arch_fill ev tree).stores } := rfl
  rw [hfill]
  dsimp only
  rw [hs, hs2, wrap_int32_id _ (by omega) (by omega)]
  constructor
  · apply read_cstr_spec
    · apply mem_holds_frame
      · apply mem_holds_frame
        · exact mem_holds_left _ _ _ _ hmd
        · left; omega
      · left; omega
    · exact space_separated_ne_NUL _
    · rw [mem_write_outside _ _ _ _ (by left; omega)]
      have he : (0 : Int) + ((space_separated tree.degrees).length : Int) =
          ((space_separated tree.degrees).length : Int) + 1 - 1 + ((0 : Nat) : Int) := by
        push_cast; ring
      rw [he]
      exact mem_write_inside _ _ _ 0 NUL rfl
    · omega
  · apply read_cstr_spec
    · apply mem_holds_frame
      · apply mem_holds_frame
        · exact mem_holds_left _ _ _ _ hmc
        · right
          simp only [List.length_singleton]
          push_cast
          omega
      · left; omega
    · exact space_separated_ne_NUL _
    · have he : max_degree_list tree + 1 + ((space_separated tree.costs).length : Int) =
          max_degree_list tree + (((space_separated tree.costs).length : Int) + 1) +
            ((0 : Nat) : Int) := by
        push_cast; ring
      rw [he]
      exact mem_write_inside _ _ _ 0 NUL rfl
    · omega

theorem insert_arch_fits (ev : env) (partition_node : xml_node) (tree : netloc_arch_tree_t)
    (hlev : 1 ≤ tree.num_levels)
    (hd : tree.degrees.length = tree.num_levels.toNat)
    (hc : tree.costs.length = tree.num_levels.toNat)
    (hfitd : (list_text_length tree.degrees : Int) ≤ max_degree_list tree)
    (hfitc : (list_text_length tree.costs : Int) + 1 ≤ max_cost_list tree)
    (hsize : max_degree_list tree + max_cost_list tree + 1 < 2 ^ 31) :
    insert_arch ev partition_node { node_tree := tree } =
      some (append_children partition_node [topology_of tree]) := by
  obtain ⟨h1, h2⟩ := arch_fill_reads ev tree hlev hd hc hfitd hfitc hsize
  unfold insert_arch
  dsimp only
  rw [h1, h2]
  rfl

/-! ## Claims on the architecture descriptor -/

/-- C7, as the claim states it, fails: for the 2-level tree with degrees `[4, 8]`
the writer sets `ndims="3"` but `dims="4 8"`, two entries and no root dimension,
both with costs `[1, 1]` (where the stores of the costs run past the block) and with
costs `[3, 3]` (where every store stays inside the block). -/
theorem insert_arch_prepends_no_root :
    topo_attrs scenario_env { num_levels := 2, degrees := [4, 8], costs := [1, 1] } =
        some (some "3", some "4 8", some "1 1") ∧
      topo_attrs scenario_env { num_levels := 2, degrees := [4, 8], costs := [3, 3] } =
        some (some "3", some "4 8", some "3 3") ∧
      stores_in_block scenario_env { num_levels := 2, degrees := [4, 8], costs := [3, 3] } =
        true ∧
      (topo_attrs scenario_env { num_levels := 2, degrees := [4, 8], costs := [1, 1] }).map
        (fun a => a.2.1) ≠ some (some "1 4 8") := by
  refine ⟨by rfl, by rfl, by rfl, ?_⟩
  have h : (topo_attrs scenario_env
      { num_levels := 2, degrees := [4, 8], costs := [1, 1] }).map (fun a => a.2.1) =
      some (some "4 8") := by rfl
  rw [h]
  decide

/-- C7, amended: for every tree architecture with `num_levels >= 1` whose printed
degrees fit below the costs area and whose printed costs fit in the rest of the
block, `insert_arch` writes `ndims` as the decimal of `num_levels + 1`, and `dims` and
`costs` as the per-level values separated by single spaces: `num_levels` entries
each, hence `num_levels - 1` separators, and no root dimension in front. -/
theorem insert_arch_writes_one_entry_per_level (ev : env) (partition_node : xml_node)
    (arch : netloc_arch_t)
    (hlev : 1 ≤ arch.node_tree.num_levels)
    (hd : arch.node_tree.degrees.length = arch.node_tree.num_levels.toNat)
    (hc : arch.node_tree.costs.length = arch.node_tree.num_levels.toNat)
    (hfitd : (list_text_length arch.node_tree.degrees : Int) ≤
      max_degree_list arch.node_tree)
    (hfitc : (list_text_length arch.node_tree.costs : Int) + 1 ≤
      max_cost_list arch.node_tree)
    (hsize : max_degree_list arch.node_tree + max_cost_list arch.node_tree + 1 < 2 ^ 31) :
    insert_arch ev partition_node arch =
        some (append_children partition_node
          [xml_node.mk "topology" none []
            [xml_node.mk "topo" none
              [("type", "tree"), ("ndims", fmt_PRId64 (arch.node_tree.num_levels + 1)),
                ("dims", String.mk (space_separated arch.node_tree.degrees)),
                ("costs", String.mk (space_separated arch.node_tree.costs))] []]]) ∧
      ((space_separated arch.node_tree.degrees).count ' ' : Int) + 1 =
        arch.node_tree.num_levels ∧
      ((space_separated arch.node_tree.costs).count ' ' : Int) + 1 =
        arch.node_tree.num_levels := by
  refine ⟨insert_arch_fits ev partition_node arch.node_tree hlev hd hc hfitd hfitc hsize,
    ?_, ?_⟩
  · rw [space_separated_count, hd]
    omega
  · rw [space_separated_count, hc]
    omega

theorem insert_arch_writes_one_entry_per_level_witness :
    insert_arch scenario_env (xml_node_new "partition")
        { node_tree := { num_levels := 2, degrees := [4, 8], costs := [3, 3] } } =
        some (append_children (xml_node_new "partition")
          [xml_node.mk "topology" none []
            [xml_node.mk "topo" none
              [("type", "tree"), ("ndims", fmt_PRId64 (2 + 1)),
                ("dims", String.mk (space_separated [4, 8])),
                ("costs", String.mk (space_separated [3, 3]))] []]]) ∧
      ((space_separated [4, 8]).count ' ' : Int) + 1 = 2 ∧
      ((space_separated [3, 3]).count ' ' : Int) + 1 = 2 :=
  insert_arch_writes_one_entry_per_level scenario_env (xml_node_new "partition")
    { node_tree := { num_levels := 2, degrees := [4, 8], costs := [3, 3] } }
    (by decide) (by decide) (by decide) (by decide) (by decide) (by decide)

/-- C8 at the failing input: for the 3-level tree with degrees `[2, 2, 2]` and costs
`[9, 9, 9]` every store stays inside the block, `dims` is `2 2 2`, and `costs` is
the empty string instead of `9 9 9`: the third degree is printed over the first
cost. -/
theorem insert_arch_costs_overwritten (ev : env) :
    topo_attrs ev { num_levels := 3, degrees := [2, 2, 2], costs := [9, 9, 9] } =
        some (some "4", some "2 2 2", some "") ∧
      stores_in_block ev { num_levels := 3, degrees := [2, 2, 2], costs := [9, 9, 9] } =
        true ∧
      String.mk (space_separated [9, 9, 9]) = "9 9 9" ∧
      max_degree_list { num_levels := 3, degrees := [2, 2, 2], costs := [9, 9, 9] } = 4 ∧
      list_text_length [2, 2, 2] = 6 := by
  refine ⟨by rfl, by rfl, by rfl, by rfl, by rfl⟩

/-! ## Nodes -/

theorem string_length_eq (s : String) : s.length = s.data.length := by
  cases s; rfl

theorem strcpy_at_diff (a : String) :
    strcpy_at (a ++ ".diff.xml") ((a ++ ".diff.xml").length - 8) "xml" = a ++ ".xml" := by
  apply String.ext
  have h8 : (a ++ ".diff.xml").length - 8 = a.data.length + 1 := by
    rw [string_length_eq, String.data_append]
    simp
  rw [h8]
  simp only [strcpy_at, String.data_append]
  rw [List.take_append_eq_append_take]
  simp

theorem host_file_length (hp h sfx : String) :
    (host_file hp h sfx).length = hp.length + 1 + h.length + sfx.length := by
  unfold host_file
  rw [String.length_append, String.length_append, String.length_append]
  rfl

theorem insert_xml_node_shape (ev : env) (crt_node : xml_node) (node : utils_node_t)
    (hw : Option String) :
    insert_xml_node ev crt_node node hw =
      append_children (append_attrs crt_node (spec_node_attrs ev node hw))
        (spec_description node) := by
  have hlen : ∀ hp h : String, 10 ≤ (hp ++ "/" ++ h ++ ".diff.xml").length := by
    intro hp h
    have := host_file_length hp h ".diff.xml"
    have hl9 : (".diff.xml" : String).length = 9 := by decide
    rw [hl9] at this
    unfold host_file at this
    omega
  obtain ⟨pid, hostname, ty, desc, flags, edges, links, subs⟩ := node
  have hfin : ∀ (c : xml_node),
      (match desc with
        | some description =>
          if 0 < description.length then
            xml_node_child_add c (xml_node_new_text "description" (some description))
          else c
        | none => c) =
      append_children c
        (spec_description (utils_node_t.mk pid hostname ty desc flags edges links subs)) := by
    intro c
    unfold spec_description
    simp only [utils_node_t.description]
    cases desc with
    | none => simp [append_children_nil]
    | some d =>
      simp only
      split
      · rfl
      · simp [append_children_nil]
  unfold insert_xml_node
  simp only [utils_node_t.physical_id, utils_node_t.hostname, utils_node_t.type,
    utils_node_t.description]
  rw [hfin]
  congr 1
  unfold spec_node_attrs spec_mac_addr spec_name spec_hwloc_file spec_found_file host_file
  simp only [utils_node_t.physical_id, utils_node_t.hostname, utils_node_t.type]
  have hb : (if 0 < pid.length then xml_node_attr_add crt_node "mac_addr" pid else crt_node) =
      append_attrs crt_node (if 0 < pid.length then [("mac_addr", pid)] else []) := by
    cases crt_node
    split <;> simp [xml_node_attr_add, append_attrs, xml_node.name, xml_node.content,
      xml_node.attrs, xml_node.children]
  rw [hb]
  generalize (if 0 < pid.length then [("mac_addr", pid)] else []) = mac
  have ha : ∀ (c : xml_node) (l : List (String × String)) (k v : String),
      xml_node_attr_add (append_attrs c l) k v = append_attrs c (l ++ [(k, v)]) := by
    intro c l k v
    cases c
    simp [xml_node_attr_add, append_attrs, xml_node.name, xml_node.content,
      xml_node.attrs, xml_node.children]
  simp only [ha]
  cases hostname with
  | none => simp
  | some h =>
    by_cases hh : 0 < h.length
    · simp only [hh, if_true, true_and]
      cases hw with
      | none => simp
      | some hp =>
        by_cases ht : netloc_node_type_t.NETLOC_NODE_TYPE_HOST = ty
        · simp only [ht, if_true]
          rw [strcpy_at_diff]
          have h10 := hlen hp h
          cases h1 : ev.fopen_r (hp ++ "/" ++ h ++ ".diff.xml") with
          | true =>
            simp only [Bool.not_true, Bool.false_eq_true, if_false, if_true]
            rw [if_pos (by omega)]
            simp [hh]
          | false =>
            cases h2 : ev.fopen_r (hp ++ "/" ++ h ++ ".xml") with
            | true =>
              simp only [Bool.not_false, Bool.not_true, Bool.false_eq_true, if_false,
                if_true]
              rw [if_pos (by omega)]
              simp [hh]
            | false => simp
        · simp [ht]
    · cases hw <;> simp [hh]

theorem takeWhile_append_stop {α : Type} (p : α → Bool) (l m : List α) (a : α)
    (hl : ∀ x ∈ l, p x = true) (ha : p a = false) :
    (l ++ a :: m).takeWhile p = l := by
  induction l with
  | nil => simp [List.takeWhile, ha]
  | cons x rest ih =>
    have hx : p x = true := hl x (List.mem_cons_self _ _)
    simp only [List.cons_append, List.takeWhile_cons, hx, if_true]
    rw [ih (fun y hy => hl y (List.mem_cons_of_mem _ hy))]

theorem after_last_slash_host_file (hp h sfx : String)
    (hh : '/' ∉ h.data) (hs : '/' ∉ sfx.data) :
    after_last_slash (host_file hp h sfx) = h ++ sfx := by
  apply String.ext
  unfold after_last_slash host_file
  simp only [String.data_append, List.reverse_append]
  simp only [List.reverse_cons, List.reverse_nil, List.nil_append, List.singleton_append,
    List.append_assoc]
  rw [← List.append_assoc, takeWhile_append_stop]
  · simp
  · intro x hx
    rcases List.mem_append.1 hx with hx | hx
    · have : x ≠ '/' := fun e => hs (by rw [← e]; exact List.mem_reverse.1 hx)
      simpa using this
    · have : x ≠ '/' := fun e => hh (by rw [← e]; exact List.mem_reverse.1 hx)
      simpa using this
  · simp

theorem attr_append_attrs_new (nm : String) (kvs : List (String × String))
    (cs : List xml_node) (key : String) :
    (append_children (append_attrs (xml_node_new nm) kvs) cs).attr key =
      (kvs.find? (fun kv => kv.1 == key)).map (fun kv => kv.2) := by
  simp [xml_node.attr, append_attrs]
  rfl

theorem spec_node_attrs_keys (ev : env) (node : utils_node_t) (hw : Option String) :
    ∀ kv ∈ spec_node_attrs ev node hw,
      kv.1 = "mac_addr" ∨ kv.1 = "type" ∨ kv.1 = "name" ∨ kv.1 = "hwloc_file" := by
  intro kv hkv
  unfold spec_node_attrs at hkv
  simp only [List.mem_append, List.mem_singleton] at hkv
  rcases hkv with ((hkv | hkv) | hkv) | hkv
  · unfold spec_mac_addr at hkv
    split at hkv
    · simp only [List.mem_singleton] at hkv; rw [hkv]; exact Or.inl rfl
    · simp at hkv
  · rw [hkv]; exact Or.inr (Or.inl rfl)
  · unfold spec_name at hkv
    split at hkv
    · split at hkv
      · simp only [List.mem_singleton] at hkv; rw [hkv]; exact Or.inr (Or.inr (Or.inl rfl))
      · simp at hkv
    · simp at hkv
  · unfold spec_hwloc_file at hkv
    split at hkv
    · split at hkv
      · split at hkv
        · simp only [List.mem_singleton] at hkv
          rw [hkv]; exact Or.inr (Or.inr (Or.inr rfl))
        · simp at hkv
      · simp at hkv
    · simp at hkv

theorem find_all_other (l : List (String × String)) (key k : String)
    (hk : (k == key) = false) (h : ∀ kv ∈ l, kv.1 = k) :
    l.find? (fun kv => kv.1 == key) = none := by
  rw [List.find?_eq_none]
  intro kv hkv
  rw [h kv hkv, hk]
  simp

theorem find_all_same (l : List (String × String)) (key : String)
    (h : ∀ kv ∈ l, kv.1 = key) :
    l.find? (fun kv => kv.1 == key) = l.head? := by
  cases l with
  | nil => rfl
  | cons a rest => simp [List.find?, h a (List.mem_cons_self _ _)]

theorem spec_mac_addr_keys (node : utils_node_t) :
    ∀ kv ∈ spec_mac_addr node, kv.1 = "mac_addr" := by
  intro kv hkv
  unfold spec_mac_addr at hkv
  split at hkv
  · simp only [List.mem_singleton] at hkv; rw [hkv]
  · simp at hkv

theorem spec_name_keys (node : utils_node_t) : ∀ kv ∈ spec_name node, kv.1 = "name" := by
  intro kv hkv
  unfold spec_name at hkv
  split at hkv
  · split at hkv
    · simp only [List.mem_singleton] at hkv; rw [hkv]
    · simp at hkv
  · simp at hkv

theorem spec_hwloc_file_keys (ev : env) (node : utils_node_t) (hw : Option String) :
    ∀ kv ∈ spec_hwloc_file ev node hw, kv.1 = "hwloc_file" := by
  intro kv hkv
  unfold spec_hwloc_file at hkv
  split at hkv
  · split at hkv
    · split at hkv
      · simp only [List.mem_singleton] at hkv
        rw [hkv]
      · simp at hkv
    · simp at hkv
  · simp at hkv

theorem find_mac_in_attrs (ev : env) (node : utils_node_t) (hw : Option String) :
    ((spec_node_attrs ev node hw).find? (fun kv => kv.1 == "mac_addr")).map (fun kv => kv.2) =
      (if 0 < node.physical_id.length then some node.physical_id else none) := by
  unfold spec_node_attrs
  rw [List.find?_append, List.find?_append, List.find?_append,
    find_all_same _ _ (spec_mac_addr_keys node),
    find_all_other _ "mac_addr" "name" (by decide) (spec_name_keys node),
    find_all_other _ "mac_addr" "hwloc_file" (by decide) (spec_hwloc_file_keys ev node hw)]
  unfold spec_mac_addr
  split <;> simp [List.find?]

theorem find_type_in_attrs (ev : env) (node : utils_node_t) (hw : Option String) :
    ((spec_node_attrs ev node hw).find? (fun kv => kv.1 == "type")).map (fun kv => kv.2) =
      some (ev.netloc_node_type_encode node.type) := by
  unfold spec_node_attrs
  rw [List.find?_append, List.find?_append, List.find?_append,
    find_all_other _ "type" "mac_addr" (by decide) (spec_mac_addr_keys node)]
  simp [List.find?]

theorem find_name_in_attrs (ev : env) (node : utils_node_t) (hw : Option String) :
    ((spec_node_attrs ev node hw).find? (fun kv => kv.1 == "name")).map (fun kv => kv.2) =
      (match node.hostname with
        | some h => if 0 < h.length then some h else none
        | none => none) := by
  unfold spec_node_attrs
  rw [List.find?_append, List.find?_append, List.find?_append,
    find_all_other _ "name" "mac_addr" (by decide) (spec_mac_addr_keys node),
    find_all_same _ _ (spec_name_keys node),
    find_all_other _ "name" "hwloc_file" (by decide) (spec_hwloc_file_keys ev node hw)]
  unfold spec_name
  split
  · split <;> simp [List.find?]
  · simp [List.find?]

theorem find_hwloc_file_in_attrs (ev : env) (node : utils_node_t) (hw : Option String) :
    ((spec_node_attrs ev node hw).find? (fun kv => kv.1 == "hwloc_file")).map
        (fun kv => kv.2) =
      ((spec_hwloc_file ev node hw).head?).map (fun kv => kv.2) := by
  unfold spec_node_attrs
  rw [List.find?_append, List.find?_append, List.find?_append,
    find_all_other _ "hwloc_file" "mac_addr" (by decide) (spec_mac_addr_keys node),
    find_all_other _ "hwloc_file" "name" (by decide) (spec_name_keys node),
    find_all_same _ _ (spec_hwloc_file_keys ev node hw)]
  simp [List.find?]

theorem find_other_in_attrs (ev : env) (node : utils_node_t) (hw : Option String)
    (key : String) (h1 : ("mac_addr" == key) = false) (h2 : ("type" == key) = false)
    (h3 : ("name" == key) = false) (h4 : ("hwloc_file" == key) = false) :
    (spec_node_attrs ev node hw).find? (fun kv => kv.1 == key) = none := by
  unfold spec_node_attrs
  rw [List.find?_append, List.find?_append, List.find?_append,
    find_all_other _ key "mac_addr" h1 (spec_mac_addr_keys node),
    find_all_other _ key "name" h3 (spec_name_keys node),
    find_all_other _ key "hwloc_file" h4 (spec_hwloc_file_keys ev node hw)]
  simp [List.find?, h2]

theorem node_attr_lookup (ev : env) (node : utils_node_t) (hw : Option String)
    (key : String) :
    (insert_xml_node ev (xml_node_new "node") node hw).attr key =
      ((spec_node_attrs ev node hw).find? (fun kv => kv.1 == key)).map (fun kv => kv.2) := by
  rw [insert_xml_node_shape, attr_append_attrs_new]

theorem hwloc_file_lookup (ev : env) (node : utils_node_t) (hp h : String)
    (hhost : node.hostname = some h) (hh : 0 < h.length)
    (ht : netloc_node_type_t.NETLOC_NODE_TYPE_HOST = node.type) :
    (insert_xml_node ev (xml_node_new "node") node (some hp)).attr "hwloc_file" =
      (spec_found_file ev hp h).map after_last_slash := by
  rw [node_attr_lookup, find_hwloc_file_in_attrs]
  unfold spec_hwloc_file
  rw [hhost]
  simp only [hh, ht, and_self, if_true]
  cases spec_found_file ev hp h <;> rfl

/-! ## Claims on nodes -/

/-- C12, as the claim states it, fails: for the host named `a/b`, with
`hw/a/b.diff.xml` present, the attribute written is `hwloc_file="b.diff.xml"`, not
`a/b.diff.xml`. -/
theorem hwloc_file_drops_host_name_up_to_slash :
    scenario_host_slash.hostname = some "a/b" ∧
      scenario_env_slash.fopen_r (host_file "hw" "a/b" ".diff.xml") = true ∧
      (insert_xml_node scenario_env_slash (xml_node_new "node") scenario_host_slash
        (some "hw")).attr "hwloc_file" = some "b.diff.xml" ∧
      (insert_xml_node scenario_env_slash (xml_node_new "node") scenario_host_slash
        (some "hw")).attr "hwloc_file" ≠ some ("a/b" ++ ".diff.xml") := by
  have h : (insert_xml_node scenario_env_slash (xml_node_new "node") scenario_host_slash
      (some "hw")).attr "hwloc_file" = some "b.diff.xml" := by rfl
  refine ⟨rfl, by rfl, h, ?_⟩
  rw [h]
  decide

/-- C12, amended: for every node with a non-empty host name rendered with a hwloc
path, `hwloc_file` is written only for a host; its value is what follows the last
slash of the file found, which is `<hostname>.diff.xml` when
`<hwloc_path>/<hostname>.diff.xml` can be opened and `<hostname>.xml` when only
`<hwloc_path>/<hostname>.xml` can, for a host name without slash; the fallback path
is `<hwloc_path>/<hostname>.xml` for every path and host name; when neither file can
be opened the attribute is left out and the node keeps its other attributes and its
description. -/
theorem hwloc_file_names_found_file (ev : env) (node : utils_node_t) (hp h : String)
    (hhost : node.hostname = some h) (hh : 0 < h.length) :
    (netloc_node_type_t.NETLOC_NODE_TYPE_HOST ≠ node.type →
        (insert_xml_node ev (xml_node_new "node") node (some hp)).attr "hwloc_file" =
          none) ∧
      (netloc_node_type_t.NETLOC_NODE_TYPE_HOST = node.type →
        (ev.fopen_r (hp ++ "/" ++ h ++ ".diff.xml") = true →
          (insert_xml_node ev (xml_node_new "node") node (some hp)).attr "hwloc_file" =
              some (after_last_slash (hp ++ "/" ++ h ++ ".diff.xml")) ∧
            ('/' ∉ h.data →
              (insert_xml_node ev (xml_node_new "node") node (some hp)).attr "hwloc_file" =
                some (h ++ ".diff.xml"))) ∧
        (ev.fopen_r (hp ++ "/" ++ h ++ ".diff.xml") = false →
          ev.fopen_r (hp ++ "/" ++ h ++ ".xml") = true →
          (insert_xml_node ev (xml_node_new "node") node (some hp)).attr "hwloc_file" =
              some (after_last_slash (hp ++ "/" ++ h ++ ".xml")) ∧
            ('/' ∉ h.data →
              (insert_xml_node ev (xml_node_new "node") node (some hp)).attr "hwloc_file" =
                some (h ++ ".xml"))) ∧
        (ev.fopen_r (hp ++ "/" ++ h ++ ".diff.xml") = false →
          ev.fopen_r (hp ++ "/" ++ h ++ ".xml") = false →
          (insert_xml_node ev (xml_node_new "node") node (some hp)).attr "hwloc_file" =
            none)) ∧
      strcpy_at (hp ++ "/" ++ h ++ ".diff.xml") ((hp ++ "/" ++ h ++ ".diff.xml").length - 8)
          "xml" = hp ++ "/" ++ h ++ ".xml" ∧
      (insert_xml_node ev (xml_node_new "node") node (some hp)).attr "type" =
        some (ev.netloc_node_type_encode node.type) ∧
      (insert_xml_node ev (xml_node_new "node") node (some hp)).attr "name" = some h ∧
      (insert_xml_node ev (xml_node_new "node") node (some hp)).children =
        spec_description node := by
  refine ⟨?_, ?_, strcpy_at_diff _, ?_, ?_, ?_⟩
  · intro ht
    rw [node_attr_lookup, find_hwloc_file_in_attrs]
    unfold spec_hwloc_file
    rw [hhost]
    simp [ht]
  · intro ht
    have hl := hwloc_file_lookup ev node hp h hhost hh ht
    unfold spec_found_file host_file at hl
    refine ⟨?_, ?_, ?_⟩
    · intro h1
      rw [hl, if_pos h1]
      refine ⟨rfl, fun hs => ?_⟩
      have := after_last_slash_host_file hp h ".diff.xml" hs (by decide)
      unfold host_file at this
      rw [Option.map_some', this]
    · intro h1 h2
      rw [hl, if_neg (by simp [h1]), if_pos h2]
      refine ⟨rfl, fun hs => ?_⟩
      have := after_last_slash_host_file hp h ".xml" hs (by decide)
      unfold host_file at this
      rw [Option.map_some', this]
    · intro h1 h2
      rw [hl, if_neg (by simp [h1]), if_neg (by simp [h2])]
      rfl
  · rw [node_attr_lookup, find_type_in_attrs]
  · rw [node_attr_lookup, find_name_in_attrs, hhost]
    simp [hh]
  · rw [insert_xml_node_shape]
    rfl

theorem hwloc_file_names_found_file_witness :
    (insert_xml_node scenario_env_files (xml_node_new "node") (scenario_H1 none none)
          (some "hw")).attr "hwloc_file" =
        some (after_last_slash ("hw" ++ "/" ++ "h1" ++ ".xml")) ∧
      ('/' ∉ ("h1" : String).data →
        (insert_xml_node scenario_env_files (xml_node_new "node") (scenario_H1 none none)
          (some "hw")).attr "hwloc_file" = some ("h1" ++ ".xml")) :=
  ((hwloc_file_names_found_file scenario_env_files (scenario_H1 none none) "hw" "h1" rfl
    (by decide)).2.1 rfl).2.1 (by rfl) (by rfl)

/-- C20: on every node element filled by `insert_xml_node`, `type` is present;
`mac_addr` is present exactly for a non-empty identifier, with that identifier;
`name` is present exactly for a non-empty host name, with that name; the only child
added is the `description` text, exactly for a non-empty description; and
`hwloc_file` is absent when the node is not a host or has no host name. -/
theorem insert_xml_node_optional_attributes (ev : env) (crt_node : xml_node)
    (node : utils_node_t) (hw : Option String) :
    (insert_xml_node ev crt_node node hw).attrs =
        crt_node.attrs ++ spec_node_attrs ev node hw ∧
      (insert_xml_node ev crt_node node hw).children =
        crt_node.children ++ spec_description node ∧
      (insert_xml_node ev (xml_node_new "node") node hw).attr "type" =
        some (ev.netloc_node_type_encode node.type) ∧
      (insert_xml_node ev (xml_node_new "node") node hw).attr "mac_addr" =
        (if 0 < node.physical_id.length then some node.physical_id else none) ∧
      (insert_xml_node ev (xml_node_new "node") node hw).attr "name" =
        (match node.hostname with
          | some h => if 0 < h.length then some h else none
          | none => none) ∧
      (insert_xml_node ev (xml_node_new "node") node hw).children =
        (match node.description with
          | some d => if 0 < d.length then [xml_node.mk "description" (some d) [] []] else []
          | none => []) ∧
      ((netloc_node_type_t.NETLOC_NODE_TYPE_HOST ≠ node.type ∨
          ∀ h, node.hostname = some h → ¬ 0 < h.length) →
        (insert_xml_node ev (xml_node_new "node") node hw).attr "hwloc_file" = none) := by
  have hch : ∀ c : xml_node, (insert_xml_node ev c node hw).children =
      c.children ++ spec_description node := by
    intro c
    rw [insert_xml_node_shape]
    rfl
  refine ⟨?_, hch _, ?_, ?_, ?_, ?_, ?_⟩
  · rw [insert_xml_node_shape]
    rfl
  · rw [node_attr_lookup, find_type_in_attrs]
  · rw [node_attr_lookup, find_mac_in_attrs]
  · rw [node_attr_lookup, find_name_in_attrs]
  · rw [hch]
    unfold spec_description
    rfl
  · intro hcond
    rw [node_attr_lookup, find_hwloc_file_in_attrs]
    unfold spec_hwloc_file
    split
    · rename_i _ _ h hp hhost
      rcases hcond with ht | hn
      · simp [ht]
      · have := hn h hhost
        simp [this]
    · rfl

theorem insert_xml_node_optional_attributes_witness :
    (insert_xml_node scenario_env_files (xml_node_new "node") scenario_switch
      (some "hw")).attr "hwloc_file" = none :=
  (insert_xml_node_optional_attributes scenario_env_files (xml_node_new "node")
    scenario_switch (some "hw")).2.2.2.2.2.2 (Or.inl (by decide))

/-! ## Virtual nodes -/

theorem foldl_child_add {α : Type} (f : α → xml_node) (l : List α) :
    ∀ init : xml_node,
      l.foldl (fun acc x => xml_node_child_add acc (f x)) init =
        append_children init (l.map f) := by
  induction l with
  | nil => intro init; simp [append_children_nil]
  | cons a rest ih =>
    intro init
    rw [List.foldl_cons, ih, child_add_eq_append, append_children_append]
    rfl

theorem top_node_elem_shape (ev : env) (hw : Option String) (node : utils_node_t) :
    top_node_elem ev hw node =
      if node.subnodes.isEmpty then
        xml_node.mk "node" none (spec_node_attrs ev node hw) (spec_description node)
      else
        xml_node.mk "node" none
          (spec_node_attrs ev node hw ++
            [("virtual", "yes"), ("size", fmt_u node.subnodes.length)])
          (spec_description node ++
            [xml_node.mk "subnodes" none []
              (node.subnodes.map (fun s => insert_xml_node ev (xml_node_new "node") s hw))]) := by
  unfold top_node_elem insert_subnodes
  rw [insert_xml_node_shape, foldl_child_add]
  cases node.subnodes.isEmpty with
  | true => rfl
  | false =>
    simp [append_children, append_attrs, xml_node_attr_add, xml_node_child_add, xml_node_new,
      xml_node.name, xml_node.content, xml_node.attrs, xml_node.children]

theorem spec_description_names (node : utils_node_t) :
    ∀ c ∈ spec_description node, c.name = "description" := by
  intro c hc
  unfold spec_description at hc
  split at hc
  · split at hc
    · simp only [List.mem_singleton] at hc
      rw [hc]
      rfl
    · simp at hc
  · simp at hc

theorem inner_node_plain (ev : env) (hw : Option String) (s : utils_node_t) :
    (insert_xml_node ev (xml_node_new "node") s hw).name = "node" ∧
      (insert_xml_node ev (xml_node_new "node") s hw).attr "virtual" = none ∧
      (insert_xml_node ev (xml_node_new "node") s hw).attr "size" = none ∧
      (insert_xml_node ev (xml_node_new "node") s hw).child "subnodes" = none := by
  refine ⟨?_, ?_, ?_, ?_⟩
  · rw [insert_xml_node_shape]; rfl
  · rw [node_attr_lookup, find_other_in_attrs _ _ _ _ (by decide) (by decide) (by decide)
      (by decide)]
    rfl
  · rw [node_attr_lookup, find_other_in_attrs _ _ _ _ (by decide) (by decide) (by decide)
      (by decide)]
    rfl
  · rw [insert_xml_node_shape]
    unfold xml_node.child
    rw [List.find?_eq_none]
    intro c hc
    have hc2 : c ∈ spec_description s := by
      have hch : (append_children (append_attrs (xml_node_new "node") (spec_node_attrs ev s hw))
          (spec_description s)).children = spec_description s := rfl
      rw [hch] at hc
      exact hc
    rw [spec_description_names s c hc2]
    decide

theorem nodes_of_document (ev : env) (nodes : List utils_node_t)
    (partitions : List utils_partition_t) (subnet : Option String) (path : String)
    (hwlocpath : Option String) (transportType : netloc_network_type_t) (doc : xml_node)
    (h : build_document ev nodes partitions subnet path hwlocpath transportType = some doc) :
    ∀ part ∈ doc_partitions doc, ∀ el ∈ explicit_nodes part,
      ∃ n ∈ nodes, el = top_node_elem ev (full_hwloc_path path hwlocpath) n := by
  obtain ⟨els, cs, hels, hcs, _, hdoc⟩ := document_partitions_spec ev nodes partitions
    subnet path hwlocpath transportType doc h
  obtain ⟨_, hor⟩ := residual_empty_iff ev (full_hwloc_path path hwlocpath)
    partitions.length nodes cs hcs
  intro part hpart el hel
  rw [hdoc] at hpart
  rcases List.mem_append.1 hpart with hm | hm
  · obtain ⟨i, q, _, hr⟩ := forall₂_enumFrom_mem partitions 0 els hels part hm
    rw [(partition_elem_reads ev _ nodes _ q part hr).2.2.1] at hel
    obtain ⟨n, hn, rfl⟩ := List.mem_map.1 hel
    exact ⟨n, (List.mem_filter.1 hn).1, rfl⟩
  · rcases hor with he | he
    · rw [he] at hm; simp at hm
    · rw [he, List.mem_singleton] at hm
      subst hm
      rw [(extra_elem_reads ev _ _ nodes cs).2.2.1] at hel
      obtain ⟨n, hn, rfl⟩ := List.mem_map.1 hel
      exact ⟨n, (List.mem_filter.1 hn).1, rfl⟩

theorem virtual_node_reads (ev : env) (hw : Option String) (node : utils_node_t)
    (hv : node.subnodes ≠ []) :
    (top_node_elem ev hw node).attr "virtual" = some "yes" ∧
      (top_node_elem ev hw node).attr "size" = some (fmt_u node.subnodes.length) ∧
      (top_node_elem ev hw node).children_named "subnodes" =
        [xml_node.mk "subnodes" none []
          (node.subnodes.map (fun s => insert_xml_node ev (xml_node_new "node") s hw))] := by
  have hne : node.subnodes.isEmpty = false := by
    cases hs : node.subnodes with
    | nil => exact absurd hs hv
    | cons a l => rfl
  rw [top_node_elem_shape, hne]
  simp only [Bool.false_eq_true, if_false]
  refine ⟨?_, ?_, ?_⟩
  · simp only [xml_node.attr, xml_node.attrs]
    rw [List.find?_append, find_other_in_attrs _ _ _ _ (by decide) (by decide) (by decide)
      (by decide)]
    rfl
  · simp only [xml_node.attr, xml_node.attrs]
    rw [List.find?_append, find_other_in_attrs _ _ _ _ (by decide) (by decide) (by decide)
      (by decide)]
    rfl
  · simp only [xml_node.children_named, xml_node.children]
    rw [List.filter_append]
    have hd : List.filter (fun c => c.name == "subnodes") (spec_description node) = [] := by
      rw [List.filter_eq_nil_iff]
      intro c hc
      rw [spec_description_names node c hc]
      decide
    rw [hd]
    rfl

/-- C13: the `node` element of a top-level node with subnodes (fewer than 2^32)
carries `virtual="yes"`, `size` equal to the decimal number of its subnodes, and
exactly one `subnodes` child, which holds one `node` element per subnode, in table
order; the element of a node without subnodes carries neither `virtual` nor `size`
nor a `subnodes` child; and every element under the `nodes` of a partition of a
completed document, declared or residual, is the element of such a top-level
node. -/
theorem virtual_node_lists_subnodes (ev : env) (hw : Option String) (node : utils_node_t)
    (nodes : List utils_node_t) (partitions : List utils_partition_t)
    (subnet : Option String) (path : String) (hwlocpath : Option String)
    (transportType : netloc_network_type_t) :
    (node.subnodes ≠ [] → node.subnodes.length < 2 ^ 32 →
        (top_node_elem ev hw node).attr "virtual" = some "yes" ∧
          (top_node_elem ev hw node).attr "size" = some (toString node.subnodes.length) ∧
          ∃ sn, (top_node_elem ev hw node).children_named "subnodes" = [sn] ∧
            sn.children =
              node.subnodes.map (fun s => insert_xml_node ev (xml_node_new "node") s hw) ∧
            sn.children.length = node.subnodes.length ∧
            ∀ c ∈ sn.children, c.name = "node") ∧
      (node.subnodes = [] →
        (top_node_elem ev hw node).attr "virtual" = none ∧
          (top_node_elem ev hw node).attr "size" = none ∧
          (top_node_elem ev hw node).children_named "subnodes" = []) ∧
      (∀ doc,
        build_document ev nodes partitions subnet path hwlocpath transportType = some doc →
        ∀ part ∈ doc_partitions doc, ∀ el ∈ explicit_nodes part,
          ∃ n ∈ nodes, el = top_node_elem ev (full_hwloc_path path hwlocpath) n) := by
  refine ⟨?_, ?_, ?_⟩
  · intro hv hlt
    obtain ⟨h1, h2, h3⟩ := virtual_node_reads ev hw node hv
    refine ⟨h1, ?_, _, h3, rfl, by simp [xml_node.children], ?_⟩
    · rw [h2, fmt_u, Nat.mod_eq_of_lt hlt]
    · intro c hc
      simp only [xml_node.children, List.mem_map] at hc
      obtain ⟨s, _, rfl⟩ := hc
      exact (inner_node_plain ev hw s).1
  · intro hnil
    have he : top_node_elem ev hw node = insert_xml_node ev (xml_node_new "node") node hw := by
      unfold top_node_elem insert_subnodes
      rw [hnil]
      rfl
    rw [he]
    obtain ⟨_, h2, h3, h4⟩ := inner_node_plain ev hw node
    refine ⟨h2, h3, ?_⟩
    unfold xml_node.children_named
    rw [List.filter_eq_nil_iff]
    intro c hc
    unfold xml_node.child at h4
    have := List.find?_eq_none.1 h4 c hc
    exact this
  · intro doc h
    exact nodes_of_document ev nodes partitions subnet path hwlocpath transportType doc h

theorem virtual_node_lists_subnodes_witness :
    ((top_node_elem scenario_env none scenario_V).attr "virtual" = some "yes" ∧
        (top_node_elem scenario_env none scenario_V).attr "size" =
          some (toString scenario_V.subnodes.length) ∧
        ∃ sn, (top_node_elem scenario_env none scenario_V).children_named "subnodes" = [sn] ∧
          sn.children =
            scenario_V.subnodes.map
              (fun s => insert_xml_node scenario_env (xml_node_new "node") s none) ∧
          sn.children.length = scenario_V.subnodes.length ∧
          ∀ c ∈ sn.children, c.name = "node") ∧
      (doc_partitions scenario_virtual_doc).map
          (fun part => (part.attr "name", (explicit_nodes part).map
            (fun el => (el.attr "virtual", el.attr "size",
              (el.children_named "subnodes").map
                (fun sn => sn.children.map (fun c => c.attr "mac_addr")))))) =
        [(some "P", [(some "yes", some "2", [[some "H1", some "H2"]])])] :=
  ⟨(virtual_node_lists_subnodes scenario_env none scenario_V [scenario_V]
      scenario_partitions (some "fe80") "out" none 0).1
      (by
        intro h
        have h2 : scenario_V.subnodes.length = 2 := by rfl
        rw [h] at h2
        cases h2)
      (by decide), by rfl⟩

/-- C14, as the claim states it, fails: for the virtual node VV whose subnode V is
itself an aggregate of H1 and H2, the nested `node` element of V carries no `virtual`,
no `size` and no `subnodes` block. -/
theorem nested_virtual_node_rendered_flat :
    scenario_VV.subnodes.map (fun s => s.subnodes.length) = [2] ∧
      ((top_node_elem scenario_env none scenario_VV).children_named "subnodes").map
          (fun sn => sn.children.map
            (fun c => (c.attr "mac_addr", c.attr "virtual", c.attr "size",
              (c.children_named "subnodes").length))) =
        [[(some "V", none, none, 0)]] := by
  exact ⟨by rfl, by rfl⟩

/-- C14, amended: virtual nodes are rendered one level deep: the `subnodes` block of
a virtual node lists each of its subnodes as a `node` element filled by
`insert_xml_node` alone, so the nested element carries the identity attributes and
the description of the subnode and, whether or not that subnode has subnodes of its
own, neither `virtual` nor `size` nor a `subnodes` block. -/
theorem subnodes_rendered_one_level (ev : env) (hw : Option String) (node : utils_node_t)
    (hv : node.subnodes ≠ []) :
    (top_node_elem ev hw node).children_named "subnodes" =
        [xml_node.mk "subnodes" none []
          (node.subnodes.map (fun s => insert_xml_node ev (xml_node_new "node") s hw))] ∧
      ∀ s ∈ node.subnodes,
        (insert_xml_node ev (xml_node_new "node") s hw).attrs = spec_node_attrs ev s hw ∧
          (insert_xml_node ev (xml_node_new "node") s hw).children = spec_description s ∧
          (insert_xml_node ev (xml_node_new "node") s hw).attr "virtual" = none ∧
          (insert_xml_node ev (xml_node_new "node") s hw).attr "size" = none ∧
          (insert_xml_node ev (xml_node_new "node") s hw).child "subnodes" = none := by
  refine ⟨(virtual_node_reads ev hw node hv).2.2, ?_⟩
  intro s _
  obtain ⟨_, h2, h3, h4⟩ := inner_node_plain ev hw s
  refine ⟨?_, ?_, h2, h3, h4⟩
  · rw [insert_xml_node_shape]; rfl
  · rw [insert_xml_node_shape]; rfl

theorem subnodes_rendered_one_level_witness :
    (top_node_elem scenario_env none scenario_VV).children_named "subnodes" =
        [xml_node.mk "subnodes" none []
          (scenario_VV.subnodes.map
            (fun s => insert_xml_node scenario_env (xml_node_new "node") s none))] ∧
      ∀ s ∈ scenario_VV.subnodes,
        (insert_xml_node scenario_env (xml_node_new "node") s none).attrs =
            spec_node_attrs scenario_env s none ∧
          (insert_xml_node scenario_env (xml_node_new "node") s none).children =
            spec_description s ∧
          (insert_xml_node scenario_env (xml_node_new "node") s none).attr "virtual" = none ∧
          (insert_xml_node scenario_env (xml_node_new "node") s none).attr "size" = none ∧
          (insert_xml_node scenario_env (xml_node_new "node") s none).child "subnodes" =
            none :=
  subnodes_rendered_one_level scenario_env none scenario_VV (by
    intro h
    have h2 : scenario_VV.subnodes.length = 1 := by rfl
    rw [h] at h2
    cases h2)

/-! ## Claims on virtual edges -/

theorem bandwidth_of_rendered_edge (ev : env) (edge : utils_edge_t) (node : utils_node_t)
    (nodes : List utils_node_t) (r : xml_node)
    (h : insert_xml_edge ev (xml_node_new "connexion") edge node nodes = some r) :
    r.attr "bandwidth" = some (ev.fmt_f edge.total_gbits) := by
  rw [insert_xml_edge_unfold] at h
  split at h
  · simp only [Option.map_eq_some'] at h
    obtain ⟨_, _, rfl⟩ := h
    rfl
  · simp only [Option.map_eq_some'] at h
    obtain ⟨_, _, rfl⟩ := h
    rfl

/-- C11: for a virtual edge, the owner of each subedge is looked up under the key
`subedge.reverse_edge.dest` in the subnode table of the current node when that node
is virtual and in the top-level table otherwise; when the lookup of some subedge
finds no node, rendering the edge fails; and when rendering completes, the
`subconnexions` element holds exactly one `connexion` per subedge, in order, each
rendered from the node that the lookup found. -/
theorem subedge_lookup_fails_closed (ev : env) (con_node : xml_node) (edge : utils_edge_t)
    (node : utils_node_t) (nodes : List utils_node_t)
    (hv : ev.edge_is_virtual edge = true) :
    (∀ se r, se.reverse_edge = some r →
        subedge_real_node ev node nodes se =
          (if ev.node_is_virtual node then node.subnodes else nodes).find?
            (fun n => n.physical_id == (ev.edge_at r).dest)) ∧
      ((∃ se ∈ edge.subedges, subedge_real_node ev node nodes se = none) →
        insert_xml_edge ev con_node edge node nodes = none) ∧
      (∀ r, insert_xml_edge ev con_node edge node nodes = some r →
        ∃ sn cs, r.children = con_node.children ++
              [xml_node_new_text "src" (some node.physical_id),
                xml_node_new_text "dest" (some edge.dest), sn] ∧
          sn.name = "subconnexions" ∧ sn.children = cs ∧
          cs.length = edge.subedges.length ∧
          List.Forall₂
            (fun se c => ∃ real_node, subedge_real_node ev node nodes se = some real_node ∧
              insert_xml_edge ev (xml_node_new "connexion") se real_node nodes = some c)
            edge.subedges cs) := by
  have hshape : ∀ r, insert_xml_edge ev con_node edge node nodes = some r →
      ∃ cs, List.Forall₂ (subconnexion_of ev node nodes) edge.subedges cs ∧
        r = append_children
          (append_attrs con_node
            [("bandwidth", ev.fmt_f edge.total_gbits),
              ("nblinks", fmt_u edge.physical_link_idx.length), ("virtual", "yes")])
          [xml_node_new_text "src" (some node.physical_id),
            xml_node_new_text "dest" (some edge.dest),
            append_children
              (xml_node_attr_add (xml_node_new "subconnexions") "size"
                (fmt_u edge.subedges.length)) cs] := by
    intro r hr
    rw [insert_xml_edge_unfold, hv] at hr
    simp only [if_true, Option.map_eq_some', insert_subedges_spec] at hr
    obtain ⟨sn, ⟨cs, hcs, rfl⟩, rfl⟩ := hr
    exact ⟨cs, hcs, rfl⟩
  refine ⟨?_, ?_, ?_⟩
  · intro se r hr
    unfold subedge_real_node HASH_FIND_STR
    rw [hr]
    dsimp only
    cases ev.node_is_virtual node <;> rfl
  · rintro ⟨se, hse, hnone⟩
    cases hres : insert_xml_edge ev con_node edge node nodes with
    | none => rfl
    | some r =>
      obtain ⟨cs, hcs, _⟩ := hshape r hres
      obtain ⟨c, _, rn, hrn, _⟩ := forall₂_left_mem hcs se hse
      rw [hnone] at hrn
      cases hrn
  · intro r hr
    obtain ⟨cs, hcs, rfl⟩ := hshape r hr
    exact ⟨_, cs, rfl, rfl, by simp, hcs.length_eq.symm, hcs⟩

theorem subedge_lookup_fails_closed_witness :
    insert_xml_edge scenario_env (xml_node_new "connexion") scenario_virtual_edge
        (scenario_H2 none none) [scenario_H2 none none] = none ∧
      ∃ sn cs, scenario_virtual_connexion.children = (xml_node_new "connexion").children ++
            [xml_node_new_text "src" (some (scenario_H2 none none).physical_id),
              xml_node_new_text "dest" (some scenario_virtual_edge.dest), sn] ∧
        sn.name = "subconnexions" ∧ sn.children = cs ∧
        cs.length = scenario_virtual_edge.subedges.length ∧
        List.Forall₂
          (fun se c => ∃ real_node,
            subedge_real_node scenario_env (scenario_H2 none none)
                [scenario_H1 none none, scenario_H2 none none] se = some real_node ∧
              insert_xml_edge scenario_env (xml_node_new "connexion") se real_node
                [scenario_H1 none none, scenario_H2 none none] = some c)
          scenario_virtual_edge.subedges cs :=
  ⟨(subedge_lookup_fails_closed scenario_env (xml_node_new "connexion")
      scenario_virtual_edge (scenario_H2 none none) [scenario_H2 none none] rfl).2.1
      ⟨scenario_edge12 none, List.mem_singleton.2 rfl, by rfl⟩,
    (subedge_lookup_fails_closed scenario_env (xml_node_new "connexion")
      scenario_virtual_edge (scenario_H2 none none)
      [scenario_H1 none none, scenario_H2 none none] rfl).2.2
      scenario_virtual_connexion rfl⟩

/-- C17, as the claim states it, fails: the virtual edge with stored bandwidth 40
and a single subedge with stored bandwidth 10 is written with
`bandwidth="40.000000"` around a subconnexion with `bandwidth="10.000000"`. -/
theorem virtual_bandwidth_not_recomputed :
    (insert_xml_edge scenario_env (xml_node_new "connexion") scenario_virtual_edge_mismatch
        (scenario_H2 none none) scenario_plain_nodes).map
        (fun r => (r.attr "virtual", r.attr "bandwidth",
          (r.children_named "subconnexions").map
            (fun sn => sn.children.map (fun c => c.attr "bandwidth")))) =
      some (some "yes", some "40.000000", [[some "10.000000"]]) := by
  rfl

/-- C17, amended: the `bandwidth` attribute of every rendered `connexion`, virtual or
not, is the `%f` rendering of the stored `total_gbits` of its edge; each nested
subconnexion of a virtual edge likewise carries the stored value of its own subedge,
and nothing is summed, so the two agree only when the stored fields do. -/
theorem bandwidth_is_stored_total (ev : env) (edge : utils_edge_t) (node : utils_node_t)
    (nodes : List utils_node_t) (r : xml_node)
    (h : insert_xml_edge ev (xml_node_new "connexion") edge node nodes = some r) :
    r.attr "bandwidth" = some (ev.fmt_f edge.total_gbits) ∧
      (ev.edge_is_virtual edge = true →
        ∃ sn, r.children_named "subconnexions" = [sn] ∧
          List.Forall₂ (fun se c => c.attr "bandwidth" = some (ev.fmt_f se.total_gbits))
            edge.subedges sn.children) := by
  refine ⟨bandwidth_of_rendered_edge ev edge node nodes r h, ?_⟩
  intro hv
  rw [insert_xml_edge_unfold, hv] at h
  simp only [if_true, Option.map_eq_some', insert_subedges_spec] at h
  obtain ⟨sn, ⟨cs, hcs, rfl⟩, rfl⟩ := h
  refine ⟨_, rfl, ?_⟩
  have hch : (append_children
      (xml_node_attr_add (xml_node_new "subconnexions") "size" (fmt_u edge.subedges.length))
      cs).children = cs := by simp
  rw [hch]
  refine List.Forall₂.imp ?_ hcs
  rintro se c ⟨rn, _, hc⟩
  exact bandwidth_of_rendered_edge ev se rn nodes c hc

theorem bandwidth_is_stored_total_witness :
    scenario_virtual_connexion.attr "bandwidth" =
        some (scenario_env.fmt_f scenario_virtual_edge.total_gbits) ∧
      (scenario_env.edge_is_virtual scenario_virtual_edge = true →
        ∃ sn, scenario_virtual_connexion.children_named "subconnexions" = [sn] ∧
          List.Forall₂
            (fun se c => c.attr "bandwidth" = some (scenario_env.fmt_f se.total_gbits))
            scenario_virtual_edge.subedges sn.children) :=
  bandwidth_is_stored_total scenario_env scenario_virtual_edge (scenario_H2 none none)
    [scenario_H1 none none, scenario_H2 none none] scenario_virtual_connexion rfl

/-! ## Claims on the document head and the return status -/

theorem full_hwloc_path_resolved (path h : String) (hh : 0 < h.length) :
    full_hwloc_path path (some h) = some (resolved_hwloc_dir path h) := by
  unfold full_hwloc_path resolved_hwloc_dir
  simp only [hh, if_true]
  by_cases hs : h.data.head? = some '/'
  · simp [hs]
  · simp [hs]

theorem resolved_hwloc_dir_pos (path h : String) (hh : 0 < h.length) :
    0 < (resolved_hwloc_dir path h).length := by
  unfold resolved_hwloc_dir
  split
  · exact hh
  · rw [String.length_append]
    omega

theorem document_root_children (ev : env) (path : String) (hwlocpath : Option String) :
    (document_root ev path hwlocpath).name = "machine" ∧
      (document_root ev path hwlocpath).children =
        (match hwlocpath with
          | some h =>
            if 0 < h.length ∧ ev.opendir (resolved_hwloc_dir path h) = true then
              [xml_node.mk "hwloc_path" (some h) [] []]
            else []
          | none => []) := by
  cases hwlocpath with
  | none => exact ⟨rfl, rfl⟩
  | some h =>
    by_cases hh : 0 < h.length
    · unfold document_root
      rw [full_hwloc_path_resolved path h hh]
      have hpos := resolved_hwloc_dir_pos path h hh
      cases hd : ev.opendir (resolved_hwloc_dir path h) with
      | true =>
        simp only [hpos, hh, hd, decide_True, Bool.and_self, if_true, true_and]
        exact ⟨rfl, rfl⟩
      | false =>
        simp only [hh, hd, Bool.and_false, Bool.false_eq_true, if_false, and_false]
        exact ⟨rfl, rfl⟩
    · unfold document_root full_hwloc_path
      simp only [hh, if_false, false_and]
      exact ⟨rfl, rfl⟩

theorem network_head_name (ev : env) (subnet : Option String)
    (transportType : netloc_network_type_t) :
    (network_head ev subnet transportType).name = "network" := by
  unfold network_head
  dsimp only
  split
  · split <;> rfl
  · rfl

/-- C19: the root `machine` element gets a `hwloc_path` text child exactly when the
hwloc path given is non-empty and the directory it stands for can be opened, that
directory being the path itself when it starts with a slash and `<path>/<hwlocpath>`
otherwise; the same directory is the one handed to the rendering of every node, where
the per-host files of a host are looked for. -/
theorem hwloc_path_child_iff_directory (ev : env) (nodes : List utils_node_t)
    (partitions : List utils_partition_t) (subnet : Option String) (path : String)
    (hwlocpath : Option String) (transportType : netloc_network_type_t) (doc : xml_node)
    (h : build_document ev nodes partitions subnet path hwlocpath transportType = some doc) :
    (∀ hp, hwlocpath = some hp → 0 < hp.length →
        full_hwloc_path path hwlocpath = some (resolved_hwloc_dir path hp) ∧
          (hp.data.head? = some '/' → resolved_hwloc_dir path hp = hp) ∧
          (hp.data.head? ≠ some '/' → resolved_hwloc_dir path hp = path ++ "/" ++ hp)) ∧
      ((∃ c, doc.child "hwloc_path" = some c) ↔
        ∃ hp, hwlocpath = some hp ∧ 0 < hp.length ∧
          ev.opendir (resolved_hwloc_dir path hp) = true) ∧
      (∀ hp, hwlocpath = some hp → 0 < hp.length →
        ev.opendir (resolved_hwloc_dir path hp) = true →
        doc.child "hwloc_path" = some (xml_node.mk "hwloc_path" (some hp) [] [])) ∧
      (∀ part ∈ doc_partitions doc, ∀ el ∈ explicit_nodes part,
        ∃ n ∈ nodes, el = top_node_elem ev (full_hwloc_path path hwlocpath) n) ∧
      (∀ hp n hn, hwlocpath = some hp → 0 < hp.length → n.hostname = some hn →
        0 < hn.length → netloc_node_type_t.NETLOC_NODE_TYPE_HOST = n.type →
        (insert_xml_node ev (xml_node_new "node") n
            (full_hwloc_path path hwlocpath)).attr "hwloc_file" =
          (spec_found_file ev (resolved_hwloc_dir path hp) hn).map after_last_slash) := by
  obtain ⟨els, cs, _, _, hdoc⟩ := (build_document_spec ev nodes partitions subnet path
    hwlocpath transportType doc).1 h
  obtain ⟨_, hroot⟩ := document_root_children ev path hwlocpath
  have hchild : doc.child "hwloc_path" =
      (document_root ev path hwlocpath).children.find? (fun c => c.name == "hwloc_path") := by
    rw [hdoc]
    unfold document_of xml_node.child
    rw [children_append_children, List.find?_append]
    have hnw : ∀ l, List.find? (fun c => c.name == "hwloc_path")
        [append_children (network_head ev subnet transportType) l] = none := by
      intro l
      have hname : (append_children (network_head ev subnet transportType) l).name =
          "network" := network_head_name ev subnet transportType
      simp only [List.find?, hname]
      rfl
    rw [hnw, Option.or_none]
  refine ⟨?_, ?_, ?_, ?_, ?_⟩
  · intro hp hhp hpos
    rw [hhp]
    refine ⟨full_hwloc_path_resolved path hp hpos, ?_, ?_⟩
    · intro hs; unfold resolved_hwloc_dir; rw [if_pos hs]
    · intro hs; unfold resolved_hwloc_dir; rw [if_neg hs]
  · rw [hchild, hroot]
    cases hwlocpath with
    | none => simp
    | some hp =>
      by_cases hc : 0 < hp.length ∧ ev.opendir (resolved_hwloc_dir path hp) = true
      · simp only [hc, and_self, if_true]
        constructor
        · intro _; exact ⟨hp, rfl, hc.1, hc.2⟩
        · intro _; exact ⟨_, rfl⟩
      · simp only [hc, if_false]
        constructor
        · rintro ⟨c, hcc⟩; simp at hcc
        · rintro ⟨hp2, he, h1, h2⟩
          cases Option.some.inj he
          exact absurd ⟨h1, h2⟩ hc
  · intro hp hhp hpos hdir
    rw [hchild, hroot, hhp]
    simp only [hpos, hdir, and_self, if_true]
    rfl
  · exact nodes_of_document ev nodes partitions subnet path hwlocpath transportType doc h
  · intro hp n hn hhp hpos hhost hhn ht
    rw [hhp, full_hwloc_path_resolved path hp hpos]
    exact hwloc_file_lookup ev n _ hn hhost hhn ht

theorem hwloc_path_child_iff_directory_witness :
    scenario_dir_doc.child "hwloc_path" = some (xml_node.mk "hwloc_path" (some "hw") [] []) :=
  (hwloc_path_child_iff_directory scenario_env_dir scenario_plain_nodes [] (some "fe80")
    "out" (some "hw") 0 scenario_dir_doc rfl).2.2.1 "hw" rfl (by decide) (by rfl)

/-! ## Renderings that do not look at the file system -/

theorem insert_links_outside (ev : env) (f g : String → Bool)
    (w : String → xml_node → Bool) (node : utils_node_t) (idx : List Nat) :
    ∀ links_node,
      insert_links { ev with fopen_r := f, opendir := g, xml_doc_write := w } node idx
          links_node =
        insert_links ev node idx links_node := by
  induction idx with
  | nil => intro links_node; rfl
  | cons i rest ih =>
    intro links_node
    rw [insert_links, insert_links]
    cases node.physical_links[i]? with
    | none => rfl
    | some l => exact ih _

mutual
theorem insert_xml_edge_outside (ev : env) (f g : String → Bool)
    (w : String → xml_node → Bool) :
    ∀ (edge : utils_edge_t) (con_node : xml_node) (node : utils_node_t)
      (nodes : List utils_node_t),
      insert_xml_edge { ev with fopen_r := f, opendir := g, xml_doc_write := w } con_node
          edge node nodes =
        insert_xml_edge ev con_node edge node nodes
  | .mk dest total_gbits physical_link_idx partitions reverse_edge subedges, con_node, node,
      nodes => by
    rw [insert_xml_edge, insert_xml_edge]
    have h1 := insert_subedges_outside ev f g w subedges node nodes
    have h2 := insert_links_outside ev f g w node physical_link_idx
    simp only [h1, h2]
theorem insert_subedges_outside (ev : env) (f g : String → Bool)
    (w : String → xml_node → Bool) :
    ∀ (subedges : List utils_edge_t) (node : utils_node_t) (nodes : List utils_node_t)
      (subcons_node : xml_node),
      insert_subedges { ev with fopen_r := f, opendir := g, xml_doc_write := w } subedges
          node nodes subcons_node =
        insert_subedges ev subedges node nodes subcons_node
  | [], node, nodes, subcons_node => by
    rw [insert_subedges, insert_subedges]
  | subedge :: rest, node, nodes, subcons_node => by
    rw [insert_subedges, insert_subedges]
    have h1 := insert_xml_edge_outside ev f g w subedge
    have h2 := insert_subedges_outside ev f g w rest node nodes
    have h3 : subedge_real_node { ev with fopen_r := f, opendir := g, xml_doc_write := w }
        node nodes subedge = subedge_real_node ev node nodes subedge := rfl
    simp only [h1, h2, h3]
end

theorem forall₂_exists_iff {α β : Type} (R : α → β → Prop) (l : List α) :
    (∃ ys, List.Forall₂ R l ys) ↔ ∀ x ∈ l, ∃ y, R x y := by
  induction l with
  | nil => simp
  | cons a rest ih =>
    constructor
    · rintro ⟨ys, hys⟩
      cases hys with
      | cons h1 h2 =>
        intro x hx
        rcases List.mem_cons.1 hx with rfl | hm
        · exact ⟨_, h1⟩
        · exact ih.1 ⟨_, h2⟩ x hm
    · intro h
      obtain ⟨y, hy⟩ := h a (List.mem_cons_self _ _)
      obtain ⟨ys, hys⟩ := ih.2 (fun x hx => h x (List.mem_cons_of_mem _ hx))
      exact ⟨y :: ys, List.Forall₂.cons hy hys⟩

theorem connexion_of_with_files (ev : env) (f g : String → Bool) (nodes : List utils_node_t) :
    connexion_of (with_files ev f g) nodes = connexion_of ev nodes := by
  funext ne c
  exact congrArg (fun o => o = some c)
    (insert_xml_edge_outside ev f g ev.xml_doc_write ne.2 (xml_node_new "connexion") ne.1 nodes)

theorem connexion_of_with_writer (ev : env) (w : String → xml_node → Bool)
    (nodes : List utils_node_t) :
    connexion_of (with_writer ev w) nodes = connexion_of ev nodes := by
  funext ne c
  exact congrArg (fun o => o = some c)
    (insert_xml_edge_outside ev ev.fopen_r ev.opendir w ne.2 (xml_node_new "connexion") ne.1
      nodes)

theorem partition_elem_with_writer (ev : env) (w : String → xml_node → Bool)
    (hw : Option String) (nodes : List utils_node_t) (p : Nat) (q : utils_partition_t) :
    partition_elem (with_writer ev w) hw nodes p q = partition_elem ev hw nodes p q := by
  apply Option.ext
  intro el
  rw [Option.mem_def, Option.mem_def, partition_elem_spec, partition_elem_spec,
    connexion_of_with_writer]
  rfl

theorem build_document_with_writer (ev : env) (w : String → xml_node → Bool)
    (nodes : List utils_node_t) (partitions : List utils_partition_t)
    (subnet : Option String) (path : String) (hwlocpath : Option String)
    (transportType : netloc_network_type_t) :
    build_document (with_writer ev w) nodes partitions subnet path hwlocpath transportType =
      build_document ev nodes partitions subnet path hwlocpath transportType := by
  apply Option.ext
  intro doc
  rw [Option.mem_def, Option.mem_def, build_document_spec, build_document_spec,
    connexion_of_with_writer]
  have hp : partition_of (with_writer ev w) (full_hwloc_path path hwlocpath) nodes =
      partition_of ev (full_hwloc_path path hwlocpath) nodes := by
    funext iq el
    exact congrArg (fun o => o = some el) (partition_elem_with_writer ev w _ nodes iq.1 iq.2)
  rw [hp]
  rfl

theorem partition_elem_completes_iff (ev : env) (hw : Option String)
    (nodes : List utils_node_t) (p : Nat) (q : utils_partition_t) :
    (∃ el, partition_elem ev hw nodes p q = some el) ↔
      (∃ base, partition_head ev q = some base) ∧
        ∀ ne ∈ spec_inner_member_edges nodes p, ∃ c, connexion_of ev nodes ne c := by
  rw [← forall₂_exists_iff]
  constructor
  · rintro ⟨el, h⟩
    obtain ⟨base, cs, hb, hcs, _⟩ := (partition_elem_spec ev hw nodes p q el).1 h
    exact ⟨⟨base, hb⟩, cs, hcs⟩
  · rintro ⟨⟨base, hb⟩, cs, hcs⟩
    exact ⟨_, (partition_elem_spec ev hw nodes p q _).2 ⟨base, cs, hb, hcs, rfl⟩⟩

theorem build_document_completes_iff (ev : env) (nodes : List utils_node_t)
    (partitions : List utils_partition_t) (subnet : Option String) (path : String)
    (hwlocpath : Option String) (transportType : netloc_network_type_t) :
    (∃ doc, build_document ev nodes partitions subnet path hwlocpath transportType =
        some doc) ↔
      (∀ iq ∈ partitions.enumFrom 0,
        (∃ base, partition_head ev iq.2 = some base) ∧
          ∀ ne ∈ spec_inner_member_edges nodes iq.1, ∃ c, connexion_of ev nodes ne c) ∧
        ∀ ne ∈ spec_residual_edges nodes partitions.length, ∃ c, connexion_of ev nodes ne c := by
  rw [← forall₂_exists_iff (connexion_of ev nodes)]
  have hpart : (∀ iq ∈ partitions.enumFrom 0,
        (∃ base, partition_head ev iq.2 = some base) ∧
          ∀ ne ∈ spec_inner_member_edges nodes iq.1, ∃ c, connexion_of ev nodes ne c) ↔
      ∃ els, List.Forall₂ (partition_of ev (full_hwloc_path path hwlocpath) nodes)
        (partitions.enumFrom 0) els := by
    rw [forall₂_exists_iff]
    constructor
    · intro h iq hiq
      exact (partition_elem_completes_iff ev _ nodes iq.1 iq.2).2 (h iq hiq)
    · intro h iq hiq
      exact (partition_elem_completes_iff ev _ nodes iq.1 iq.2).1 (h iq hiq)
  rw [hpart]
  constructor
  · rintro ⟨doc, h⟩
    obtain ⟨els, cs, hels, hcs, _⟩ := (build_document_spec ev nodes partitions subnet path
      hwlocpath transportType doc).1 h
    exact ⟨⟨els, hels⟩, cs, hcs⟩
  · rintro ⟨⟨els, hels⟩, cs, hcs⟩
    exact ⟨_, (build_document_spec ev nodes partitions subnet path hwlocpath transportType
      _).2 ⟨els, cs, hels, hcs, rfl⟩⟩

theorem build_document_with_files (ev : env) (f g : String → Bool)
    (nodes : List utils_node_t) (partitions : List utils_partition_t)
    (subnet : Option String) (path : String) (hwlocpath : Option String)
    (transportType : netloc_network_type_t) :
    (build_document (with_files ev f g) nodes partitions subnet path hwlocpath
        transportType).isSome =
      (build_document ev nodes partitions subnet path hwlocpath transportType).isSome := by
  rw [Bool.eq_iff_iff, Option.isSome_iff_exists, Option.isSome_iff_exists,
    build_document_completes_iff, build_document_completes_iff, connexion_of_with_files]
  rfl

theorem write_file_unfold (ev : env) (nodes : List utils_node_t)
    (partitions : List utils_partition_t) (subnet : Option String) (path : String)
    (hwlocpath : Option String) (transportType : netloc_network_type_t) (res : write_result) :
    netloc_write_xml_file ev nodes partitions subnet path hwlocpath transportType = some res ↔
      ∃ doc, build_document ev nodes partitions subnet path hwlocpath transportType =
          some doc ∧
        res = { ret := if ev.xml_doc_write (output_path path subnet) doc then
                  netloc_status.NETLOC_SUCCESS else netloc_status.NETLOC_ERROR,
                doc := doc, written_to := output_path path subnet } := by
  unfold netloc_write_xml_file
  cases build_document ev nodes partitions subnet path hwlocpath transportType with
  | none => simp
  | some doc =>
    constructor
    · intro h
      exact ⟨doc, rfl, (Option.some.inj h).symm⟩
    · rintro ⟨d, hd, rfl⟩
      cases Option.some.inj hd
      rfl

theorem write_file_status (ev : env) (nodes : List utils_node_t)
    (partitions : List utils_partition_t) (subnet : Option String) (path : String)
    (hwlocpath : Option String) (transportType : netloc_network_type_t) (res : write_result)
    (h : netloc_write_xml_file ev nodes partitions subnet path hwlocpath transportType =
      some res) :
    (res.ret = netloc_status.NETLOC_ERROR ↔
        ev.xml_doc_write (output_path path subnet) res.doc = false) ∧
      (res.ret = netloc_status.NETLOC_SUCCESS ↔
        ev.xml_doc_write (output_path path subnet) res.doc = true) ∧
      res.written_to = output_path path subnet := by
  obtain ⟨doc, _, rfl⟩ := (write_file_unfold ev nodes partitions subnet path hwlocpath
    transportType res).1 h
  cases hw : ev.xml_doc_write (output_path path subnet) doc <;> simp [hw]

/-- C15: a completed call of `netloc_write_xml_file` returns `NETLOC_ERROR` exactly when
the writer fails on the document at the output path and `NETLOC_SUCCESS` exactly when
it succeeds; a destination that cannot be written gives `NETLOC_ERROR`; and whatever
`fopen` and `opendir` answer for the per-host files and the hwloc directory, the call
completes as well and its status still follows the writer alone. -/
theorem write_status_follows_writer (ev : env) (nodes : List utils_node_t)
    (partitions : List utils_partition_t) (subnet : Option String) (path : String)
    (hwlocpath : Option String) (transportType : netloc_network_type_t) (res : write_result)
    (h : netloc_write_xml_file ev nodes partitions subnet path hwlocpath transportType =
      some res) :
    (res.ret = netloc_status.NETLOC_ERROR ↔
        ev.xml_doc_write (output_path path subnet) res.doc = false) ∧
      (res.ret = netloc_status.NETLOC_SUCCESS ↔
        ev.xml_doc_write (output_path path subnet) res.doc = true) ∧
      ((∀ d, ev.xml_doc_write (output_path path subnet) d = false) →
        res.ret = netloc_status.NETLOC_ERROR) ∧
      ((∃ r, netloc_write_xml_file ev nodes partitions subnet path hwlocpath transportType =
          some r) ↔
        ∃ doc, build_document ev nodes partitions subnet path hwlocpath transportType =
          some doc) ∧
      (∀ f g, ∃ r,
        netloc_write_xml_file (with_files ev f g) nodes partitions subnet path hwlocpath
            transportType = some r ∧
          (r.ret = netloc_status.NETLOC_SUCCESS ↔
            ev.xml_doc_write (output_path path subnet) r.doc = true) ∧
          (r.ret = netloc_status.NETLOC_ERROR ↔
            ev.xml_doc_write (output_path path subnet) r.doc = false)) := by
  obtain ⟨h1, h2, _⟩ := write_file_status ev nodes partitions subnet path hwlocpath
    transportType res h
  refine ⟨h1, h2, fun hall => h1.2 (hall _), ?_, ?_⟩
  · constructor
    · rintro ⟨r, hr⟩
      obtain ⟨doc, hd, _⟩ := (write_file_unfold ev nodes partitions subnet path hwlocpath
        transportType r).1 hr
      exact ⟨doc, hd⟩
    · rintro ⟨doc, hd⟩
      exact ⟨_, (write_file_unfold ev nodes partitions subnet path hwlocpath transportType
        _).2 ⟨doc, hd, rfl⟩⟩
  · intro f g
    obtain ⟨doc, hd, _⟩ := (write_file_unfold ev nodes partitions subnet path hwlocpath
      transportType res).1 h
    have hs := build_document_with_files ev f g nodes partitions subnet path hwlocpath
      transportType
    rw [hd] at hs
    obtain ⟨doc2, hd2⟩ := Option.isSome_iff_exists.1 hs
    have hr := (write_file_unfold (with_files ev f g) nodes partitions subnet path hwlocpath
      transportType _).2 ⟨doc2, hd2, rfl⟩
    obtain ⟨k1, k2, _⟩ := write_file_status (with_files ev f g) nodes partitions subnet path
      hwlocpath transportType _ hr
    exact ⟨_, hr, k2, k1⟩

theorem write_status_follows_writer_witness :
    netloc_write_xml_file scenario_env_unwritable scenario_plain_nodes [] (some "fe80") "out"
        none 0 = some scenario_failed_result ∧
      scenario_failed_result.ret = netloc_status.NETLOC_ERROR :=
  ⟨by rfl,
    (write_status_follows_writer scenario_env_unwritable scenario_plain_nodes []
      (some "fe80") "out" none 0 scenario_failed_result (by rfl)).2.2.1 (fun _ => rfl)⟩

/-- C18: for a subnet string `s`, a completed call of `netloc_write_xml_file` hands the
document to the writer at the path `<path>/IB-<s>-nodes.xml`; the status returned is
the outcome of that one write, and a writer that behaves the same at that path and in
any other way at every other path leaves the whole result unchanged. -/
theorem document_written_to_ib_path (ev : env) (nodes : List utils_node_t)
    (partitions : List utils_partition_t) (s : String) (path : String)
    (hwlocpath : Option String) (transportType : netloc_network_type_t) (res : write_result)
    (h : netloc_write_xml_file ev nodes partitions (some s) path hwlocpath transportType =
      some res) :
    res.written_to = path ++ "/IB-" ++ s ++ "-nodes.xml" ∧
      (res.ret = netloc_status.NETLOC_SUCCESS ↔
        ev.xml_doc_write (path ++ "/IB-" ++ s ++ "-nodes.xml") res.doc = true) ∧
      (∀ w : String → xml_node → Bool,
        (∀ d, w (path ++ "/IB-" ++ s ++ "-nodes.xml") d =
          ev.xml_doc_write (path ++ "/IB-" ++ s ++ "-nodes.xml") d) →
        netloc_write_xml_file (with_writer ev w) nodes partitions (some s) path hwlocpath
          transportType = some res) := by
  have hp : output_path path (some s) = path ++ "/IB-" ++ s ++ "-nodes.xml" := rfl
  obtain ⟨_, h2, h3⟩ := write_file_status ev nodes partitions (some s) path hwlocpath
    transportType res h
  rw [hp] at h2 h3
  refine ⟨h3, h2, ?_⟩
  intro w hw
  obtain ⟨doc, hd, hres⟩ := (write_file_unfold ev nodes partitions (some s) path hwlocpath
    transportType res).1 h
  rw [write_file_unfold, build_document_with_writer]
  refine ⟨doc, hd, ?_⟩
  rw [hres]
  have hw2 : (with_writer ev w).xml_doc_write (output_path path (some s)) doc =
      ev.xml_doc_write (output_path path (some s)) doc := hw doc
  rw [hw2]

theorem document_written_to_ib_path_witness :
    netloc_write_xml_file scenario_env scenario_plain_nodes [] (some "fe80") "out" none 0 =
        some scenario_result ∧
      scenario_result.written_to = "out" ++ "/IB-" ++ "fe80" ++ "-nodes.xml" :=
  ⟨by rfl,
    (document_written_to_ib_path scenario_env scenario_plain_nodes [] "fe80" "out" none 0
      scenario_result (by rfl)).1⟩

/-! ## Claims on the architecture builder -/

/-- C16, counterexample: with a tree compilation that reports a failure,
`netloc_arch_build` still returns `NETLOC_SUCCESS`. -/
theorem arch_build_hides_failed_compilation :
    (scenario_failing_tleaf 0).1 = netloc_status.NETLOC_ERROR ∧
      (netloc_arch_build scenario_failing_tleaf 0).1 = netloc_status.NETLOC_SUCCESS :=
  ⟨rfl, rfl⟩

/-- C16, amended: `netloc_arch_build` runs the tree compilation on the machine and
returns `NETLOC_SUCCESS` whatever the compilation reports; the machine is left as the
compilation left it. -/
theorem arch_build_always_succeeds {netloc_machine_t : Type}
    (partition_topology_to_tleaf : netloc_machine_t → netloc_status × netloc_machine_t)
    (machine : netloc_machine_t) :
    (netloc_arch_build partition_topology_to_tleaf machine).1 =
        netloc_status.NETLOC_SUCCESS ∧
      (netloc_arch_build partition_topology_to_tleaf machine).2 =
        (partition_topology_to_tleaf machine).2 :=
  ⟨rfl, rfl⟩

/-! ## Claims on the buffer of the architecture descriptor -/

theorem arch_rounds_stores (ev : env) (tree : netloc_arch_tree_t) (k : Nat) :
    (arch_rounds ev tree (k + 1)).stores =
      costs_store ev tree k :: dims_store ev tree k :: (arch_rounds ev tree k).stores := by
  rw [arch_rounds_succ]
  rfl

theorem arch_fill_stores (ev : env) (tree : netloc_arch_tree_t) :
    (arch_fill ev tree).stores =
      (wrap_int32 (max_degree_list tree +
          (arch_rounds ev tree tree.num_levels.toNat).strBuffSize2), 1) ::
        ((arch_rounds ev tree tree.num_levels.toNat).strBuffSize - 1, 1) ::
          (arch_rounds ev tree tree.num_levels.toNat).stores :=
  rfl

theorem dims_bytes_mono (tree : netloc_arch_tree_t) (k n : Nat) (h : k ≤ n) :
    (dims_bytes tree k).length ≤ (dims_bytes tree n).length := by
  induction n with
  | zero =>
    have hk : k = 0 := by omega
    rw [hk]
  | succ n ih =>
    rcases Nat.lt_or_ge k (n + 1) with hlt | hge
    · rw [dims_bytes_succ, List.length_append]
      have := ih (by omega)
      omega
    · have hk : k = n + 1 := by omega
      rw [hk]

theorem costs_bytes_mono (tree : netloc_arch_tree_t) (k n : Nat) (h : k ≤ n) :
    (costs_bytes tree k).length ≤ (costs_bytes tree n).length := by
  induction n with
  | zero =>
    have hk : k = 0 := by omega
    rw [hk]
  | succ n ih =>
    rcases Nat.lt_or_ge k (n + 1) with hlt | hge
    · rw [costs_bytes_succ, List.length_append]
      have := ih (by omega)
      omega
    · have hk : k = n + 1 := by omega
      rw [hk]

theorem arch_stores_extent (ev : env) (tree : netloc_arch_tree_t)
    (hfitd : ((dims_bytes tree tree.num_levels.toNat).length : Int) ≤ max_degree_list tree)
    (hfitc : ((costs_bytes tree tree.num_levels.toNat).length : Int) + 1 ≤
      max_cost_list tree)
    (hsize : max_degree_list tree + max_cost_list tree + 1 < 2 ^ 31)
    (level : Nat) (hl : level < tree.num_levels.toNat) :
    0 ≤ (dims_store ev tree level).1 ∧
      (dims_store ev tree level).1 + (dims_store ev tree level).2 ≤
        max_degree_list tree + 1 ∧
      max_degree_list tree + 1 ≤ (costs_store ev tree level).1 ∧
      (costs_store ev tree level).1 + (costs_store ev tree level).2 ≤
        arch_alloc_size tree := by
  have hmcl : max_cost_list tree < 2 ^ 31 := wrap_int32_lt _
  have hd1 := dims_bytes_mono tree (level + 1) tree.num_levels.toNat (by omega)
  have hc1 := costs_bytes_mono tree (level + 1) tree.num_levels.toNat (by omega)
  rw [dims_bytes_succ, List.length_append] at hd1
  rw [costs_bytes_succ, List.length_append] at hc1
  obtain ⟨hs, hs2, _, _⟩ := arch_loop_invariant ev tree level (by omega) (by omega)
  have halloc : arch_alloc_size tree = max_degree_list tree + max_cost_list tree + 1 := by
    have hin : wrap_int32 (max_degree_list tree + max_cost_list tree) =
        max_degree_list tree + max_cost_list tree := wrap_int32_id _ (by omega) (by omega)
    unfold arch_alloc_size
    rw [hin, wrap_int32_id _ (by omega) (by omega)]
  unfold dims_store costs_store
  dsimp only
  rw [hs, hs2, halloc]
  push_cast
  refine ⟨?_, ?_, ?_, ?_⟩ <;> omega

theorem arch_stores_fit (ev : env) (tree : netloc_arch_tree_t)
    (hfitd : ((dims_bytes tree tree.num_levels.toNat).length : Int) ≤ max_degree_list tree)
    (hfitc : ((costs_bytes tree tree.num_levels.toNat).length : Int) + 1 ≤
      max_cost_list tree)
    (hsize : max_degree_list tree + max_cost_list tree + 1 < 2 ^ 31) :
    dims_in_front ev tree = true ∧ costs_in_block ev tree = true ∧
      lists_apart ev tree = true := by
  have key := arch_stores_extent ev tree hfitd hfitc hsize
  refine ⟨?_, ?_, ?_⟩
  · unfold dims_in_front
    rw [List.all_eq_true]
    intro level hl
    obtain ⟨h1, h2, _, _⟩ := key level (List.mem_range.1 hl)
    simp only [Bool.and_eq_true, decide_eq_true_eq]
    exact ⟨h1, h2⟩
  · unfold costs_in_block
    rw [List.all_eq_true]
    intro level hl
    obtain ⟨_, _, h3, h4⟩ := key level (List.mem_range.1 hl)
    have hmd : 0 ≤ max_degree_list tree := by
      have : (0 : Int) ≤ ((dims_bytes tree tree.num_levels.toNat).length : Int) :=
        Int.ofNat_nonneg _
      omega
    simp only [Bool.and_eq_true, decide_eq_true_eq]
    exact ⟨by omega, h4⟩
  · unfold lists_apart
    rw [List.all_eq_true]
    intro level hl
    rw [List.all_eq_true]
    intro other ho
    obtain ⟨_, h2, _, _⟩ := key level (List.mem_range.1 hl)
    obtain ⟨_, _, h3, _⟩ := key other (List.mem_range.1 ho)
    simp only [Bool.or_eq_true, decide_eq_true_eq]
    left
    omega

/-- C21 at the failing inputs.  For the 2-level tree with degrees `[4, 8]` and costs
`[1, 1]` the block has 19 bytes and the costs start at offset 17; the second cost is
stored at offsets 19 to 21, past the block, and the digit `1` ends up at offset 19.
For the 3-level tree with degrees `[1, 1, 1]` and costs `[5, 5, 5]` the front area has
3 bytes; the degrees are stored up to offset 6, over the costs that start at offset 3,
and `costs` comes out as ` 1` although every store stays inside the block. -/
theorem insert_arch_bound_too_small (ev : env) :
    (max_degree_list scenario_tree_small_costs = 16 ∧
        max_cost_list scenario_tree_small_costs = 2 ∧
        arch_alloc_size scenario_tree_small_costs = 19 ∧
        (List.range 2).map (dims_store ev scenario_tree_small_costs) = [(0, 3), (2, 3)] ∧
        (List.range 2).map (costs_store ev scenario_tree_small_costs) =
          [(17, 3), (19, 3)] ∧
        (arch_fill ev scenario_tree_small_costs).stores =
          [(20, 1), (3, 1), (19, 3), (2, 3), (17, 3), (0, 3)] ∧
        (arch_fill ev scenario_tree_small_costs).mem 19 = '1' ∧
        dims_in_front ev scenario_tree_small_costs = true ∧
        costs_in_block ev scenario_tree_small_costs = false ∧
        stores_in_block ev scenario_tree_small_costs = false) ∧
      (max_degree_list scenario_tree_small_degrees = 2 ∧
        max_cost_list scenario_tree_small_degrees = 10 ∧
        arch_alloc_size scenario_tree_small_degrees = 13 ∧
        (List.range 3).map (dims_store ev scenario_tree_small_degrees) =
          [(0, 3), (2, 3), (4, 3)] ∧
        (List.range 3).map (costs_store ev scenario_tree_small_degrees) =
          [(3, 3), (5, 3), (7, 3)] ∧
        (arch_fill ev scenario_tree_small_degrees).mem 4 = '1' ∧
        dims_in_front ev scenario_tree_small_degrees = false ∧
        lists_apart ev scenario_tree_small_degrees = false ∧
        costs_in_block ev scenario_tree_small_degrees = true ∧
        stores_in_block ev scenario_tree_small_degrees = true ∧
        topo_attrs ev scenario_tree_small_degrees =
          some (some "4", some "1 1 1", some " 1")) := by
  refine ⟨⟨by rfl, by rfl, by rfl, by rfl, by rfl, by rfl, by rfl, by rfl, by rfl, by rfl⟩,
    ⟨by rfl, by rfl, by rfl, by rfl, by rfl, by rfl, by rfl, by rfl, by rfl, by rfl, by rfl⟩⟩

end Netloc
